import Mathlib

/-!
Verification development for the multi-line terminal editor component
(`packages/tui/src/components/editor.ts`).

The TypeScript code is shallowly embedded in Lean.  JavaScript strings are
modelled as `List Char`; string indices (which the source uses as cursor
columns) are modelled as positions in that list.  JavaScript numbers that
can go negative (cursor coordinates, scroll offsets, history index) are
modelled as `Int`, mirroring the arithmetic of the source; values that are
provably natural stay `Nat`.

External utilities of the repository that are not part of the editor file
(`visibleWidth`, `isWhitespaceChar`, `isPunctuationChar`, the grapheme
segmenter and the keybinding table) are modelled from the specification;
each such definition carries a doc comment starting with
`Modelled from the spec:`.
-/

/-! ## Generic list/string helpers (JavaScript semantics) -/

/-- JavaScript `slice` index resolution: negative indices count from the end
(clamped at 0), positive indices are clamped at the length. -/
def jsIdx (len : Nat) (i : Int) : Nat :=
  if i < 0 then ((len : Int) + i).toNat else min i.toNat len

/-- JavaScript `s.slice(a, b)`. -/
def jsSlice (l : List Char) (a b : Int) : List Char :=
  (l.take (jsIdx l.length b)).drop (jsIdx l.length a)

/-- JavaScript `s.slice(a)`. -/
def jsSliceFrom (l : List Char) (a : Int) : List Char :=
  jsSlice l a (l.length : Int)

/-- JavaScript `s[i]` (string character access; `none` for out of range,
mirroring `undefined`). -/
def jsCharAt (l : List Char) (i : Int) : Option Char :=
  if i < 0 then none else l.get? i.toNat

/-- JavaScript generic `arr.slice(a, b)` for lists. -/
def jsSliceList {α : Type} (l : List α) (a b : Int) : List α :=
  (l.take (jsIdx l.length b)).drop (jsIdx l.length a)

/-- JavaScript `s.split(sep)` for a single-character separator.  Always
returns at least one piece. -/
def splitOnChar (sep : Char) : List Char → List (List Char)
  | [] => [[]]
  | c :: t =>
    if c = sep then [] :: splitOnChar sep t
    else
      match splitOnChar sep t with
      | [] => [[c]]
      | h :: r => (c :: h) :: r

/-- JavaScript `arr.join(sep)` specialised to joining lines with one char. -/
def joinWith (sep : Char) : List (List Char) → List Char
  | [] => []
  | [l] => l
  | l :: t => l ++ sep :: joinWith sep t

/-- The whitespace set stripped by JavaScript `trim`/`trimEnd` (restricted to
the characters that can actually occur in the editor buffer). -/
def isTrimWs (c : Char) : Bool :=
  c = ' ' || c = '\t' || c = '\n' || c = '\r'

/-- JavaScript `s.trimEnd()`. -/
def jsTrimEnd (l : List Char) : List Char :=
  (l.reverse.dropWhile isTrimWs).reverse

/-- JavaScript `s.trim()`. -/
def jsTrim (l : List Char) : List Char :=
  jsTrimEnd (l.dropWhile isTrimWs)

/-- Index of the first occurrence of `pat` in `l` (JavaScript `indexOf`,
with `none` for `-1`). -/
def indexOfSub (pat : List Char) : List Char → Option Nat
  | [] => if pat = [] then some 0 else none
  | c :: t =>
    if pat.isPrefixOf (c :: t) then some 0
    else (indexOfSub pat t).map (· + 1)

/-- JavaScript `s.includes(pat)`. -/
def containsSub (pat l : List Char) : Bool :=
  (indexOfSub pat l).isSome

/-- JavaScript `s.replace(pat, repl)` for a plain (non-regex) pattern:
replaces the first occurrence only. -/
def replaceFirstSub (pat repl l : List Char) : List Char :=
  match indexOfSub pat l with
  | some i => l.take i ++ repl ++ l.drop (i + pat.length)
  | none => l

/-- Decimal digit list of a natural number (JavaScript number-to-string for
the nonnegative integers used by the editor). -/
def natDigits (n : Nat) : List Char :=
  if h : n < 10 then [Char.ofNat (48 + n)]
  else natDigits (n / 10) ++ [Char.ofNat (48 + n % 10)]
decreasing_by exact Nat.div_lt_self (by omega) (by omega)

/-- Decimal rendering of a JavaScript number that is an integer. -/
def intDecimal (i : Int) : List Char :=
  if i < 0 then '-' :: natDigits (-i).toNat else natDigits i.toNat

/-! ## Unicode utilities, modelled from the spec -/

/-- Modelled from the spec: combining marks "fold into the base grapheme".
The model treats the combining diacritical marks block U+0300–U+036F as
combining.  (The real implementation delegates to `Intl.Segmenter`, which
lives outside this repository.) -/
def isCombiningChar (c : Char) : Bool :=
  decide (0x300 ≤ c.toNat ∧ c.toNat ≤ 0x36F)

/-- Modelled from the spec: the `isWhitespaceChar` utility of the missing
`utils.ts`; a grapheme is whitespace when it is a space or tab (logical
lines never contain newlines). -/
def isWhitespaceChar (c : Char) : Bool :=
  c = ' ' || c = '\t'

/-- Modelled from the spec: the `isPunctuationChar` utility of the missing
`utils.ts`; ASCII punctuation. -/
def isPunctuationChar (c : Char) : Bool :=
  decide ((33 ≤ c.toNat ∧ c.toNat ≤ 47) ∨ (58 ≤ c.toNat ∧ c.toNat ≤ 64) ∨
    (91 ≤ c.toNat ∧ c.toNat ≤ 96) ∨ (123 ≤ c.toNat ∧ c.toNat ≤ 126))

/-- Modelled from the spec: East-Asian-wide character test used by the
`visibleWidth` utility of the missing `utils.ts`. -/
def isWideChar (c : Char) : Bool :=
  decide ((0x1100 ≤ c.toNat ∧ c.toNat ≤ 0x115F) ∨
    (0x2E80 ≤ c.toNat ∧ c.toNat ≤ 0x303E) ∨
    (0x3041 ≤ c.toNat ∧ c.toNat ≤ 0x33FF) ∨
    (0x3400 ≤ c.toNat ∧ c.toNat ≤ 0x4DBF) ∨
    (0x4E00 ≤ c.toNat ∧ c.toNat ≤ 0x9FFF) ∨
    (0xAC00 ≤ c.toNat ∧ c.toNat ≤ 0xD7A3) ∨
    (0xF900 ≤ c.toNat ∧ c.toNat ≤ 0xFAFF) ∨
    (0xFF00 ≤ c.toNat ∧ c.toNat ≤ 0xFF60) ∨
    (0x1F300 ≤ c.toNat ∧ c.toNat ≤ 0x1FAFF))

/-- Modelled from the spec: per-character column width — combining marks are
zero width, East-Asian-wide characters occupy two columns, everything else
one. -/
def charWidth (c : Char) : Nat :=
  if isCombiningChar c then 0 else if isWideChar c then 2 else 1

/-- Modelled from the spec: the `visibleWidth` utility — "the sum of
per-grapheme column widths"; since combining marks have width 0 this equals
the sum of per-character widths. -/
def visibleWidth (l : List Char) : Nat :=
  (l.map charWidth).sum

/-- Worker for `segmentGraphemes`: `cur` is the current segment, reversed. -/
def segGo (cur : List Char) : List Char → List (List Char)
  | [] => [cur.reverse]
  | c :: t =>
    if isCombiningChar c then segGo (c :: cur) t
    else cur.reverse :: segGo [c] t

/-- Modelled from the spec: the grapheme segmenter (`Intl.Segmenter` in the
source, obtained through the missing `utils.ts`).  Every character starts a
new grapheme except combining marks, which fold into the preceding
grapheme; a leading combining mark forms its own grapheme. -/
def segmentGraphemes : List Char → List (List Char)
  | [] => []
  | c :: t => segGo [c] t

/-- Whitespace test applied to a grapheme (the source applies
`isWhitespaceChar` to grapheme strings; it inspects the base character). -/
def isWsGrapheme (g : List Char) : Bool :=
  match g with
  | c :: _ => isWhitespaceChar c
  | [] => false

/-- Punctuation test applied to a grapheme. -/
def isPunctGrapheme (g : List Char) : Bool :=
  match g with
  | c :: _ => isPunctuationChar c
  | [] => false

/-! ## Word wrap (`wordWrapLine`, editor.ts lines 29–188) -/

/-- A chunk of text for word-wrap layout (editor.ts `TextChunk`). -/
structure TextChunk where
  text : List Char
  startIndex : Nat
  endIndex : Nat
deriving Repr, DecidableEq

/-- A token of the wrap tokenizer: a maximal whitespace or non-whitespace
run (editor.ts lines 42–80). -/
structure WrapToken where
  text : List Char
  startIndex : Nat
  endIndex : Nat
  isWhitespace : Bool
deriving Repr, DecidableEq

/-- The tokenizer loop of `wordWrapLine` (editor.ts lines 48–80): fold over
the graphemes, starting a new token whenever the whitespace classification
changes. -/
def tokensGo : List (List Char) → List Char → Nat → Bool → Nat → List WrapToken
  | [], curTok, tokStart, inWs, charIndex =>
    if curTok.isEmpty then [] else [⟨curTok, tokStart, charIndex, inWs⟩]
  | g :: rest, curTok, tokStart, inWs, charIndex =>
    let gWs := isWsGrapheme g
    if curTok.isEmpty then
      tokensGo rest g charIndex gWs (charIndex + g.length)
    else if gWs ≠ inWs then
      ⟨curTok, tokStart, charIndex, inWs⟩ ::
        tokensGo rest g charIndex gWs (charIndex + g.length)
    else
      tokensGo rest (curTok ++ g) tokStart inWs (charIndex + g.length)

/-- Tokenize a line into alternating whitespace / non-whitespace runs. -/
def tokenizeLine (line : List Char) : List WrapToken :=
  tokensGo (segmentGraphemes line) [] 0 false 0

/-- The inner loop of `wordWrapLine` breaking a too-wide token by grapheme
(editor.ts lines 112–136).  Arguments: remaining graphemes, current piece,
its width, its start, the running char index.  Returns the pushed pieces
and the final (remainder) piece with its width and start. -/
def breakLong (maxWidth : Nat) :
    List (List Char) → List Char → Nat → Nat → Nat →
    List TextChunk × List Char × Nat × Nat
  | [], tokenChunk, tcW, tcStart, _ => ([], tokenChunk, tcW, tcStart)
  | g :: gs, tokenChunk, tcW, tcStart, idx =>
    let gw := visibleWidth g
    if maxWidth < tcW + gw && !tokenChunk.isEmpty then
      let r := breakLong maxWidth gs g gw idx (idx + g.length)
      (⟨tokenChunk, tcStart, idx⟩ :: r.1, r.2)
    else
      breakLong maxWidth gs (tokenChunk ++ g) (tcW + gw) tcStart (idx + g.length)

/-- The chunk-building loop of `wordWrapLine` (editor.ts lines 83–185).
Arguments: remaining tokens, chunks pushed so far, current chunk, its
width, its start index, and the `atLineStart` flag. -/
def buildChunks (maxWidth lineLen : Nat) :
    List WrapToken → List TextChunk → List Char → Nat → Nat → Bool →
    List TextChunk
  | [], chunks, cur, _, curStart, _ =>
    if cur.isEmpty then chunks else chunks ++ [⟨cur, curStart, lineLen⟩]
  | tok :: rest, chunks, cur, curW, curStart, atLS =>
    if atLS && tok.isWhitespace then
      buildChunks maxWidth lineLen rest chunks cur curW tok.endIndex atLS
    else
      let tw := visibleWidth tok.text
      if maxWidth < tw then
        let chunks1 :=
          if cur.isEmpty then chunks else chunks ++ [⟨cur, curStart, tok.startIndex⟩]
        let curW1 := if cur.isEmpty then curW else 0
        let curStart1 := if cur.isEmpty then curStart else tok.startIndex
        let r := breakLong maxWidth (segmentGraphemes tok.text) [] 0
          tok.startIndex tok.startIndex
        let chunks2 := chunks1 ++ r.1
        if r.2.1.isEmpty then
          buildChunks maxWidth lineLen rest chunks2 [] curW1 curStart1 false
        else
          buildChunks maxWidth lineLen rest chunks2 r.2.1 r.2.2.1 r.2.2.2 false
      else if maxWidth < curW + tw then
        let trimmed := jsTrimEnd cur
        let chunks1 :=
          if !trimmed.isEmpty || chunks.isEmpty then
            chunks ++ [⟨trimmed, curStart, curStart + cur.length⟩]
          else chunks
        if tok.isWhitespace then
          buildChunks maxWidth lineLen rest chunks1 [] 0 tok.endIndex true
        else
          buildChunks maxWidth lineLen rest chunks1 tok.text tw tok.startIndex false
      else
        buildChunks maxWidth lineLen rest chunks (cur ++ tok.text) (curW + tw)
          curStart false

/-- `wordWrapLine` (editor.ts lines 29–188): split a line into word-wrapped
chunks. -/
def wordWrapLine (line : List Char) (maxWidth : Nat) : List TextChunk :=
  if line.isEmpty || maxWidth = 0 then [⟨[], 0, 0⟩]
  else if visibleWidth line ≤ maxWidth then [⟨line, 0, line.length⟩]
  else
    let chunks := buildChunks maxWidth line.length (tokenizeLine line) [] [] 0 0 true
    if chunks.isEmpty then [⟨[], 0, 0⟩] else chunks

/-! ## Kitty CSI-u decoding (editor.ts lines 190–226) -/

/-- Greedy run of decimal digits (the `\d*` / `\d+` pieces of the CSI-u
regex), returning the digits and the rest. -/
def parseDigitsRun : List Char → List Char × List Char
  | [] => ([], [])
  | c :: t =>
    if c.isDigit then
      let r := parseDigitsRun t
      (c :: r.1, r.2)
    else ([], c :: t)

/-- Numeric value of a digit run (JavaScript `parseInt(ds, 10)`). -/
def digitsVal (ds : List Char) : Nat :=
  ds.foldl (fun acc c => acc * 10 + (c.toNat - 48)) 0

/-- One suffix token of a CSI-u sequence: `:<digits*>` or `;<digits+>`. -/
inductive KTok where
  | colon (ds : List Char)
  | semi (ds : List Char)
deriving Repr, DecidableEq

/-- Tokenize the part of a CSI-u sequence after the leading codepoint,
up to the terminating `u` (which must end the input, as the regex is
anchored).  Fueled; the fuel `length + 1` always suffices since every
step consumes at least one character. -/
def kittyToksF : Nat → List Char → Option (List KTok)
  | 0, _ => none
  | _ + 1, ['u'] => some []
  | f + 1, ':' :: t =>
    let r := parseDigitsRun t
    (kittyToksF f r.2).map (fun ts => KTok.colon r.1 :: ts)
  | f + 1, ';' :: t =>
    let r := parseDigitsRun t
    if r.1.isEmpty then none
    else (kittyToksF f r.2).map (fun ts => KTok.semi r.1 :: ts)
  | _ + 1, _ => none

def kittyToks (l : List Char) : Option (List KTok) :=
  kittyToksF (l.length + 1) l

/-- The capture groups of `KITTY_CSI_U_REGEX`:
`^\x1b\[(\d+)(?::(\d*))?(?::(\d+))?(?:;(\d+))?(?::(\d+))?u$`. -/
structure KittyGroups where
  shifted : Option (List Char)
  base : Option (List Char)
  modG : Option (List Char)
  subG : Option (List Char)
deriving Repr, DecidableEq

/-- Assign suffix tokens to the optional regex groups, following the
backtracking order of the JavaScript regex engine (each optional group is
tried present-first, left to right). -/
def kittyAssign : List KTok → Option KittyGroups
  | [] => some ⟨none, none, none, none⟩
  | [.colon a] => some ⟨some a, none, none, none⟩
  | [.colon a, .colon b] =>
    if b.isEmpty then none else some ⟨some a, some b, none, none⟩
  | [.colon a, .colon b, .colon c] =>
    if b.isEmpty || c.isEmpty then none else some ⟨some a, some b, none, some c⟩
  | [.semi m] => some ⟨none, none, some m, none⟩
  | [.semi m, .colon s1] =>
    if s1.isEmpty then none else some ⟨none, none, some m, some s1⟩
  | [.colon a, .semi m] => some ⟨some a, none, some m, none⟩
  | [.colon a, .semi m, .colon s1] =>
    if s1.isEmpty then none else some ⟨some a, none, some m, some s1⟩
  | [.colon a, .colon b, .semi m] =>
    if b.isEmpty then none else some ⟨some a, some b, some m, none⟩
  | [.colon a, .colon b, .semi m, .colon s1] =>
    if b.isEmpty || s1.isEmpty then none else some ⟨some a, some b, some m, some s1⟩
  | _ => none

/-- Match `KITTY_CSI_U_REGEX` against an input, returning the codepoint and
the capture groups. -/
def kittyMatch (data : List Char) : Option (Nat × KittyGroups) :=
  match data with
  | '\x1b' :: '[' :: rest =>
    let r := parseDigitsRun rest
    if r.1.isEmpty then none
    else
      match kittyToks r.2 with
      | some ts => (kittyAssign ts).map (fun g => (digitsVal r.1, g))
      | none => none
  | _ => none

/-- JavaScript `modifier & (KITTY_MOD_ALT | KITTY_MOD_CTRL)` as a test.
`modifier` is `modValue - 1` and can only be negative as `-1`
(when the mod group is `0`), for which the JavaScript bitwise-and on the
two's complement yields `6 ≠ 0`. -/
def kittyAltCtrl (m : Int) : Bool :=
  if m < 0 then true else (m.toNat &&& 6) != 0

/-- JavaScript `modifier & KITTY_MOD_SHIFT` as a test (see `kittyAltCtrl`
for the negative case). -/
def kittyShift (m : Int) : Bool :=
  if m < 0 then true else (m.toNat &&& 1) != 0

/-- `decodeKittyPrintable` (editor.ts lines 197–226).  Lone-surrogate
codepoints, which `String.fromCodePoint` would turn into an unpaired UTF-16
unit, cannot be represented by `Char` and are modelled as `none`; no claim
exercises them. -/
def decodeKittyPrintable (data : List Char) : Option Char :=
  match kittyMatch data with
  | none => none
  | some (cp, g) =>
    let shiftedKey : Option Nat :=
      match g.shifted with
      | some ds => if ds.isEmpty then none else some (digitsVal ds)
      | none => none
    let modValue : Nat :=
      match g.modG with
      | some ds => digitsVal ds
      | none => 1
    let modifier : Int := (modValue : Int) - 1
    if kittyAltCtrl modifier then none
    else
      let effective : Nat :=
        if kittyShift modifier && shiftedKey.isSome then shiftedKey.getD cp else cp
      if effective < 32 then none
      else if 0x10FFFF < effective || (0xD800 ≤ effective && effective ≤ 0xDFFF) then none
      else some (Char.ofNat effective)

/-- The `shiftedKey` computation of `decodeKittyPrintable` (editor.ts line
205): the shifted group parses to a number only when present and
non-empty. -/
def kittyShiftedKey (g : KittyGroups) : Option Nat :=
  match g.shifted with
  | some ds => if ds.isEmpty then none else some (digitsVal ds)
  | none => none

/-- The `modValue` computation of `decodeKittyPrintable` (editor.ts line
206): the modifier group's numeric value, defaulting to 1 when the group
is absent. -/
def kittyModValue (g : KittyGroups) : Nat :=
  match g.modG with
  | some ds => digitsVal ds
  | none => 1

/-- The `effectiveCodepoint` computation of `decodeKittyPrintable`
(editor.ts lines 214–217): the shifted codepoint when Shift is held and a
shifted key is present, the base codepoint otherwise. -/
def kittyEffective (cp : Nat) (g : KittyGroups) : Nat :=
  if kittyShift ((kittyModValue g : Int) - 1) && (kittyShiftedKey g).isSome
  then (kittyShiftedKey g).getD cp else cp

/-! ## Editor state -/

inductive EditorBorderStyle where
  | rounded
  | sharp
  | noBorder
deriving Repr, DecidableEq

/-- The editor's state.  Fields mirror the private fields of the `Editor`
class; `terminalRows` models `this.tui.terminal.rows` (host-owned).  No
autocomplete provider is installed in this model, so `isAutocompleting` is
identically false and the autocomplete fields are omitted. -/
structure EditorState where
  lines : List (List Char) := [[]]
  cursorLine : Int := 0
  cursorCol : Int := 0
  paddingX : Nat := 0
  borderStyle : EditorBorderStyle := .rounded
  lastWidth : Nat := 80
  scrollOffset : Int := 0
  pastes : List (Nat × List Char) := []
  pasteCounter : Nat := 0
  pasteBuffer : List Char := []
  isInPaste : Bool := false
  pendingShiftEnter : Bool := false
  history : List (List Char) := []
  historyIndex : Int := -1
  disableSubmit : Bool := false
  terminalRows : Nat := 24
deriving Repr, DecidableEq

/-- A freshly constructed editor. -/
def initEditor : EditorState := {}

/-- Observable outputs: invocations of the change sink (`onChange`) and the
submit sink (`onSubmit`), in invocation order. -/
inductive EditorOut where
  | change (text : List Char)
  | submitted (text : List Char)
deriving Repr, DecidableEq

/-- `this.state.lines[i] || ""` (negative or out-of-range reads give the
empty string). -/
def getLine (lines : List (List Char)) (i : Int) : List Char :=
  if i < 0 then [] else (lines.get? i.toNat).getD []

/-- `this.state.lines[i] = v` for a natural index; JavaScript extends the
array with holes when `i ≥ length`, and holes read back as `""` through
`lines[i] || ""` and join as empty strings, so they are modelled as `[]`. -/
def setLineNat (lines : List (List Char)) (i : Nat) (v : List Char) :
    List (List Char) :=
  if i < lines.length then lines.set i v
  else lines ++ List.replicate (i - lines.length) [] ++ [v]

/-- `this.state.lines[i] = v` with a JavaScript number index.  A negative
index would create a non-element property, leaving the array's elements
unchanged. -/
def setLineI (lines : List (List Char)) (i : Int) (v : List Char) :
    List (List Char) :=
  if i < 0 then lines else setLineNat lines i.toNat v

/-- `lines.splice(i, 1)` (removal of one element). -/
def removeLineI (lines : List (List Char)) (i : Int) : List (List Char) :=
  if i < 0 then lines else lines.take i.toNat ++ lines.drop (i.toNat + 1)

/-- `lines.splice(i, 0, v)` (insertion of one element, JavaScript index
semantics). -/
def insertLineAt (lines : List (List Char)) (i : Int) (v : List Char) :
    List (List Char) :=
  let k := if i < 0 then ((lines.length : Int) + i).toNat else min i.toNat lines.length
  lines.take k ++ [v] ++ lines.drop k

/-- `getText()` (editor.ts lines 899–901). -/
def getText (st : EditorState) : List Char :=
  joinWith '\n' st.lines

/-- The sequential global replaces `\r\n → \n` then `\r → \n`, fused into
one left-to-right scan. -/
def normalizeNewlines : List Char → List Char
  | [] => []
  | '\r' :: '\n' :: t => '\n' :: normalizeNewlines t
  | '\r' :: t => '\n' :: normalizeNewlines t
  | c :: t => c :: normalizeNewlines t

/-- `replace(/\t/g, "    ")`. -/
def expandTabs (l : List Char) : List Char :=
  (l.map (fun c => if c = '\t' then [' ', ' ', ' ', ' '] else [c])).flatten

/-! ## Paste markers (`[paste #<id> +<N> lines]` / `[paste #<id> <N> chars]`) -/

def markerHead : List Char := "[paste #".toList

/-- Match the tail of the marker regex
`( (\+\d+ lines|\d+ chars))?\]` at the head of `l`, returning the matched
length.  The optional group is tried first, alternatives in order, as the
JavaScript engine does. -/
def matchMarkerTail (l : List Char) : Option Nat :=
  let tryLines : Option Nat :=
    match l with
    | c1 :: c2 :: rest =>
      if c1 = ' ' ∧ c2 = '+' then
        let r := parseDigitsRun rest
        if !r.1.isEmpty && (" lines]".toList.isPrefixOf r.2) then
          some (2 + r.1.length + 7)
        else none
      else none
    | _ => none
  let tryChars : Option Nat :=
    match l with
    | c1 :: rest =>
      if c1 = ' ' then
        let r := parseDigitsRun rest
        if !r.1.isEmpty && (" chars]".toList.isPrefixOf r.2) then
          some (1 + r.1.length + 7)
        else none
      else none
    | [] => none
  let tryBare : Option Nat :=
    match l with
    | c1 :: _ => if c1 = ']' then some 1 else none
    | [] => none
  (tryLines.orElse (fun _ => tryChars)).orElse (fun _ => tryBare)

/-- Match the full marker regex for paste id `id` at the head of `l`. -/
def matchMarkerAt (id : Nat) (l : List Char) : Option Nat :=
  let pre := markerHead ++ natDigits id
  if pre.isPrefixOf l then (matchMarkerTail (l.drop pre.length)).map (· + pre.length)
  else none

/-- Whether a list of characters starts with a decimal digit (used to
decide between the `$n` and `$nn` replacement-text rules below). -/
def headIsDigit : List Char → Bool
  | d :: _ => d.isDigit
  | [] => false

/-- ECMAScript `GetSubstitution` for a string replacement pattern with
`m = 2` capture groups (the marker regex
`\[paste #<id>( (\+\d+ lines|\d+ chars))?\]` has two groups): `$$` is a
literal dollar, `$&` the matched substring, a dollar followed by a
backtick the portion of the subject before the match, `$'` the portion
after it, `$1`/`$2` (not followed by a further digit) and `$01`/`$02` the
capture groups (an unmatched optional group substitutes as the empty
string), and any other `$`-sequence — including `$n` with `n > 2`, `$nn`
with `nn > 02`, `$0`, `$00` and `$<` (the regex has no named groups) — is
copied literally. -/
def getSubstitution (m b a g1 g2 : List Char) : List Char → List Char
  | [] => []
  | ['$'] => ['$']
  | '$' :: '0' :: '1' :: t => g1 ++ getSubstitution m b a g1 g2 t
  | '$' :: '0' :: '2' :: t => g2 ++ getSubstitution m b a g1 g2 t
  | '$' :: c :: t =>
    if c = '$' then '$' :: getSubstitution m b a g1 g2 t
    else if c = '&' then m ++ getSubstitution m b a g1 g2 t
    else if c = Char.ofNat 96 then b ++ getSubstitution m b a g1 g2 t
    else if c = Char.ofNat 39 then a ++ getSubstitution m b a g1 g2 t
    else if c = '1' ∧ headIsDigit t = false then
      g1 ++ getSubstitution m b a g1 g2 t
    else if c = '2' ∧ headIsDigit t = false then
      g2 ++ getSubstitution m b a g1 g2 t
    else '$' :: c :: getSubstitution m b a g1 g2 t
  | c :: t => c :: getSubstitution m b a g1 g2 t

/-- Worker for `replaceMarkerAll`: left-to-right scan replacing each
non-overlapping match (JavaScript `String.replace` with a global regex and
a string replacement; the replacement text goes through `GetSubstitution`,
so `$`-patterns in it refer to the match).  `orig` is the full subject
string and `p` the current position in it, so that the portions before and
after the match are available to `getSubstitution`.  The first capture
group of the marker regex is the matched optional ` +<N> lines`/` <N> chars`
part without the closing bracket (empty when absent), the second the same
without its leading space.  Fueled by the input length; every step
consumes at least one character. -/
def replaceMarkerFuel (id : Nat) (content orig : List Char) :
    Nat → Nat → List Char → List Char
  | 0, _, l => l
  | _ + 1, _, [] => []
  | f + 1, p, c :: t =>
    match matchMarkerAt id (c :: t) with
    | some n =>
      if n = 0 then c :: replaceMarkerFuel id content orig f (p + 1) t
      else
        let matched := (c :: t).take n
        let tl := matched.drop (markerHead ++ natDigits id).length
        let g1 := if tl.length ≤ 1 then [] else tl.dropLast
        getSubstitution matched (orig.take p) ((c :: t).drop n) g1 (g1.drop 1)
            content ++
          replaceMarkerFuel id content orig f (p + n) ((c :: t).drop n)
    | none => c :: replaceMarkerFuel id content orig f (p + 1) t

/-- `result.replace(markerRegex, pasteContent)` with the `g` flag. -/
def replaceMarkerAll (id : Nat) (content l : List Char) : List Char :=
  replaceMarkerFuel id content l l.length 0 l

/-- The marker-expansion loop of `handleInput`'s submit branch and of
`getExpandedText` (iteration in `Map` insertion order). -/
def expandPastes (pastes : List (Nat × List Char)) (text : List Char) :
    List Char :=
  pastes.foldl (fun acc p => replaceMarkerAll p.1 p.2 acc) text

/-- `Map.set` preserving insertion order. -/
def mapSet (m : List (Nat × List Char)) (k : Nat) (v : List Char) :
    List (Nat × List Char) :=
  if m.any (fun p => p.1 = k) then m.map (fun p => if p.1 = k then (k, v) else p)
  else m ++ [(k, v)]

/-! ## Editing operations -/

/-- `insertCharacter` (editor.ts lines 940–987).  The argument may be a
multi-character string, as in the source (`cursorCol` advances by its
length).  The autocomplete-trigger block at the end is a no-op without a
provider. -/
def insertCharacter (st : EditorState) (chs : List Char) :
    EditorState × List EditorOut :=
  let st := { st with historyIndex := -1 }
  let line := getLine st.lines st.cursorLine
  let before := jsSlice line 0 st.cursorCol
  let after := jsSliceFrom line st.cursorCol
  let st := { st with
    lines := setLineI st.lines st.cursorLine (before ++ chs ++ after),
    cursorCol := st.cursorCol + chs.length }
  (st, [EditorOut.change (getText st)])

/-- `for (const char of text) this.insertCharacter(char)` — used by
`insertTextAtCursor`, the paste-marker insertion and the single-line paste
path. -/
def insertString : EditorState → List Char → EditorState × List EditorOut
  | st, [] => (st, [])
  | st, c :: t =>
    let r1 := insertCharacter st [c]
    let r2 := insertString r1.1 t
    (r2.1, r1.2 ++ r2.2)

/-- `addNewLine` (editor.ts lines 1089–1108). -/
def addNewLine (st : EditorState) : EditorState × List EditorOut :=
  let st := { st with historyIndex := -1 }
  let currentLine := getLine st.lines st.cursorLine
  let before := jsSlice currentLine 0 st.cursorCol
  let after := jsSliceFrom currentLine st.cursorCol
  let lines1 := setLineI st.lines st.cursorLine before
  let lines2 := insertLineAt lines1 (st.cursorLine + 1) after
  let st := { st with lines := lines2, cursorLine := st.cursorLine + 1, cursorCol := 0 }
  (st, [EditorOut.change (getText st)])

/-- `handleBackspace` (editor.ts lines 1110–1160).  The autocomplete
re-trigger block at the end is a no-op without a provider. -/
def handleBackspace (st : EditorState) : EditorState × List EditorOut :=
  let st := { st with historyIndex := -1 }
  let st :=
    if (0 : Int) < st.cursorCol then
      let line := getLine st.lines st.cursorLine
      let beforeCursor := jsSlice line 0 st.cursorCol
      let graphemeLength : Nat :=
        match (segmentGraphemes beforeCursor).getLast? with
        | some g => g.length
        | none => 1
      let before := jsSlice line 0 (st.cursorCol - (graphemeLength : Int))
      let after := jsSliceFrom line st.cursorCol
      { st with lines := setLineI st.lines st.cursorLine (before ++ after),
                cursorCol := st.cursorCol - (graphemeLength : Int) }
    else if 0 < st.cursorLine then
      let currentLine := getLine st.lines st.cursorLine
      let previousLine := getLine st.lines (st.cursorLine - 1)
      let lines1 := setLineI st.lines (st.cursorLine - 1) (previousLine ++ currentLine)
      { st with lines := removeLineI lines1 st.cursorLine,
                cursorLine := st.cursorLine - 1,
                cursorCol := (previousLine.length : Int) }
    else st
  (st, [EditorOut.change (getText st)])

/-- `moveToLineStart` (editor.ts lines 1162–1164). -/
def moveToLineStart (st : EditorState) : EditorState :=
  { st with cursorCol := 0 }

/-- `moveToLineEnd` (editor.ts lines 1166–1169). -/
def moveToLineEnd (st : EditorState) : EditorState :=
  { st with cursorCol := ((getLine st.lines st.cursorLine).length : Int) }

/-- `deleteToStartOfLine` (editor.ts lines 1171–1192). -/
def deleteToStartOfLine (st : EditorState) : EditorState × List EditorOut :=
  let st := { st with historyIndex := -1 }
  let currentLine := getLine st.lines st.cursorLine
  let st :=
    if 0 < st.cursorCol then
      { st with lines := setLineI st.lines st.cursorLine (jsSliceFrom currentLine st.cursorCol),
                cursorCol := 0 }
    else if 0 < st.cursorLine then
      let previousLine := getLine st.lines (st.cursorLine - 1)
      let lines1 := setLineI st.lines (st.cursorLine - 1) (previousLine ++ currentLine)
      { st with lines := removeLineI lines1 st.cursorLine,
                cursorLine := st.cursorLine - 1,
                cursorCol := (previousLine.length : Int) }
    else st
  (st, [EditorOut.change (getText st)])

/-- `deleteToEndOfLine` (editor.ts lines 1194–1212). -/
def deleteToEndOfLine (st : EditorState) : EditorState × List EditorOut :=
  let st := { st with historyIndex := -1 }
  let currentLine := getLine st.lines st.cursorLine
  let st :=
    if st.cursorCol < (currentLine.length : Int) then
      { st with lines := setLineI st.lines st.cursorLine (jsSlice currentLine 0 st.cursorCol) }
    else if st.cursorLine < (st.lines.length : Int) - 1 then
      let nextLine := getLine st.lines (st.cursorLine + 1)
      let lines1 := setLineI st.lines st.cursorLine (currentLine ++ nextLine)
      { st with lines := removeLineI lines1 (st.cursorLine + 1) }
    else st
  (st, [EditorOut.change (getText st)])

/-- Total character length of a grapheme list. -/
def graphemesLen (gs : List (List Char)) : Nat :=
  (gs.map List.length).sum

/-- `moveWordBackwards` (editor.ts lines 1436–1478). -/
def moveWordBackwards (st : EditorState) : EditorState :=
  let currentLine := getLine st.lines st.cursorLine
  if st.cursorCol = 0 then
    if 0 < st.cursorLine then
      let prevLine := getLine st.lines (st.cursorLine - 1)
      { st with cursorLine := st.cursorLine - 1, cursorCol := (prevLine.length : Int) }
    else st
  else
    let textBeforeCursor := jsSlice currentLine 0 st.cursorCol
    let rgs := (segmentGraphemes textBeforeCursor).reverse
    let p1 := rgs.span isWsGrapheme
    let dropped1 := graphemesLen p1.1
    let dropped2 :=
      match p1.2 with
      | [] => 0
      | g :: _ =>
        if isPunctGrapheme g then graphemesLen (p1.2.takeWhile isPunctGrapheme)
        else graphemesLen (p1.2.takeWhile (fun h => !isWsGrapheme h && !isPunctGrapheme h))
    { st with cursorCol := st.cursorCol - (dropped1 : Int) - (dropped2 : Int) }

/-- `moveWordForwards` (editor.ts lines 1480–1519). -/
def moveWordForwards (st : EditorState) : EditorState :=
  let currentLine := getLine st.lines st.cursorLine
  if (currentLine.length : Int) ≤ st.cursorCol then
    if st.cursorLine < (st.lines.length : Int) - 1 then
      { st with cursorLine := st.cursorLine + 1, cursorCol := 0 }
    else st
  else
    let textAfterCursor := jsSliceFrom currentLine st.cursorCol
    let gs := segmentGraphemes textAfterCursor
    let p1 := gs.span isWsGrapheme
    let adv1 := graphemesLen p1.1
    let adv2 :=
      match p1.2 with
      | [] => 0
      | g :: _ =>
        if isPunctGrapheme g then graphemesLen (p1.2.takeWhile isPunctGrapheme)
        else graphemesLen (p1.2.takeWhile (fun h => !isWsGrapheme h && !isPunctGrapheme h))
    { st with cursorCol := st.cursorCol + (adv1 : Int) + (adv2 : Int) }

/-- `deleteWordBackwards` (editor.ts lines 1214–1242). -/
def deleteWordBackwards (st : EditorState) : EditorState × List EditorOut :=
  let st := { st with historyIndex := -1 }
  let currentLine := getLine st.lines st.cursorLine
  let st :=
    if st.cursorCol = 0 then
      if 0 < st.cursorLine then
        let previousLine := getLine st.lines (st.cursorLine - 1)
        let lines1 := setLineI st.lines (st.cursorLine - 1) (previousLine ++ currentLine)
        { st with lines := removeLineI lines1 st.cursorLine,
                  cursorLine := st.cursorLine - 1,
                  cursorCol := (previousLine.length : Int) }
      else st
    else
      let st1 := moveWordBackwards st
      let deleteFrom := st1.cursorCol
      let st2 := { st1 with cursorCol := st.cursorCol }
      let newLine := jsSlice currentLine 0 deleteFrom ++ jsSliceFrom currentLine st2.cursorCol
      let st3 := { st2 with lines := setLineI st2.lines st2.cursorLine newLine }
      { st3 with cursorCol := deleteFrom }
  (st, [EditorOut.change (getText st)])

/-- `handleForwardDelete` (editor.ts lines 1244–1287).  The autocomplete
re-trigger block at the end is a no-op without a provider. -/
def handleForwardDelete (st : EditorState) : EditorState × List EditorOut :=
  let st := { st with historyIndex := -1 }
  let currentLine := getLine st.lines st.cursorLine
  let st :=
    if st.cursorCol < (currentLine.length : Int) then
      let afterCursor := jsSliceFrom currentLine st.cursorCol
      let graphemeLength : Nat :=
        match (segmentGraphemes afterCursor).head? with
        | some g => g.length
        | none => 1
      let before := jsSlice currentLine 0 st.cursorCol
      let after := jsSliceFrom currentLine (st.cursorCol + (graphemeLength : Int))
      { st with lines := setLineI st.lines st.cursorLine (before ++ after) }
    else if st.cursorLine < (st.lines.length : Int) - 1 then
      let nextLine := getLine st.lines (st.cursorLine + 1)
      let lines1 := setLineI st.lines st.cursorLine (currentLine ++ nextLine)
      { st with lines := removeLineI lines1 (st.cursorLine + 1) }
    else st
  (st, [EditorOut.change (getText st)])

/-! ## Visual line map and cursor navigation -/

/-- An entry of the visual line map (editor.ts `buildVisualLineMap`); the
source names the third field `length`. -/
structure VisualLine where
  logicalLine : Nat
  startCol : Nat
  len : Nat
deriving Repr, DecidableEq

/-- Worker for `buildVisualLineMap` (editor.ts lines 1296–1321),
accumulating the logical line index. -/
def buildVLMGo (width : Nat) : Nat → List (List Char) → List VisualLine
  | _, [] => []
  | i, line :: rest =>
    (if line.length = 0 then [⟨i, 0, 0⟩]
     else if visibleWidth line ≤ width then [⟨i, 0, line.length⟩]
     else (wordWrapLine line width).map
       (fun c => ⟨i, c.startIndex, c.endIndex - c.startIndex⟩))
    ++ buildVLMGo width (i + 1) rest

/-- `buildVisualLineMap` (editor.ts lines 1296–1321). -/
def buildVisualLineMap (st : EditorState) (width : Nat) : List VisualLine :=
  buildVLMGo width 0 st.lines

/-- The search loop of `findCurrentVisualLine` (editor.ts lines 1326–1345). -/
def findCVLGo (st : EditorState) : Nat → List VisualLine → Option Nat
  | _, [] => none
  | i, vl :: rest =>
    if (vl.logicalLine : Int) = st.cursorLine then
      let colInSegment := st.cursorCol - (vl.startCol : Int)
      let isLastSegmentOfLine : Bool :=
        match rest with
        | [] => true
        | nxt :: _ => decide (nxt.logicalLine ≠ vl.logicalLine)
      if decide (0 ≤ colInSegment) &&
          (decide (colInSegment < (vl.len : Int)) ||
            (isLastSegmentOfLine && decide (colInSegment ≤ (vl.len : Int)))) then
        some i
      else findCVLGo st (i + 1) rest
    else findCVLGo st (i + 1) rest

/-- `findCurrentVisualLine` (editor.ts lines 1326–1345); the fallback
returns the last visual line index, which is `-1` for an empty map. -/
def findCurrentVisualLine (st : EditorState) (vls : List VisualLine) : Int :=
  match findCVLGo st 0 vls with
  | some i => (i : Int)
  | none => (vls.length : Int) - 1

/-- `visualLines[i]` for a JavaScript number index. -/
def vlAt (vls : List VisualLine) (i : Int) : Option VisualLine :=
  if i < 0 then none else vls.get? i.toNat

/-- The vertical block of `moveCursor` (editor.ts lines 1350–1372). -/
def moveCursorVertical (st : EditorState) (deltaLine : Int) : EditorState :=
  if deltaLine ≠ 0 then
    let vls := buildVisualLineMap st st.lastWidth
    let cur := findCurrentVisualLine st vls
    let visualCol : Int :=
      match vlAt vls cur with
      | some v => st.cursorCol - (v.startCol : Int)
      | none => 0
    let target := cur + deltaLine
    if 0 ≤ target ∧ target < (vls.length : Int) then
      match vlAt vls target with
      | some tv =>
        let targetCol : Int := (tv.startCol : Int) + min visualCol (tv.len : Int)
        let logicalLine := getLine st.lines (tv.logicalLine : Int)
        { st with cursorLine := (tv.logicalLine : Int),
                  cursorCol := min targetCol (logicalLine.length : Int) }
      | none => st
    else st
  else st

/-- The horizontal block of `moveCursor` (editor.ts lines 1374–1403). -/
def moveCursorHorizontal (st : EditorState) (deltaCol : Int) : EditorState :=
  if deltaCol ≠ 0 then
    let currentLine := getLine st.lines st.cursorLine
    if 0 < deltaCol then
      if st.cursorCol < (currentLine.length : Int) then
        let afterCursor := jsSliceFrom currentLine st.cursorCol
        let glen : Nat :=
          match (segmentGraphemes afterCursor).head? with
          | some g => g.length
          | none => 1
        { st with cursorCol := st.cursorCol + (glen : Int) }
      else if st.cursorLine < (st.lines.length : Int) - 1 then
        { st with cursorLine := st.cursorLine + 1, cursorCol := 0 }
      else st
    else
      if (0 : Int) < st.cursorCol then
        let beforeCursor := jsSlice currentLine 0 st.cursorCol
        let glen : Nat :=
          match (segmentGraphemes beforeCursor).getLast? with
          | some g => g.length
          | none => 1
        { st with cursorCol := st.cursorCol - (glen : Int) }
      else if 0 < st.cursorLine then
        let prevLine := getLine st.lines (st.cursorLine - 1)
        { st with cursorLine := st.cursorLine - 1, cursorCol := (prevLine.length : Int) }
      else st
  else st

/-- `moveCursor` (editor.ts lines 1347–1404): the vertical block followed by
the horizontal block, both operating on the mutated state. -/
def moveCursor (st : EditorState) (deltaLine deltaCol : Int) : EditorState :=
  moveCursorHorizontal (moveCursorVertical st deltaLine) deltaCol

/-- `pageScroll` (editor.ts lines 1410–1434).  The page size
`Math.max(5, Math.floor(terminalRows * 0.3))` is modelled as
`max 5 (3 * rows / 10)`; the floating-point floor agrees with the integer
expression for the row counts used in this development. -/
def pageScroll (st : EditorState) (direction : Int) : EditorState :=
  let pageSize : Nat := max 5 (3 * st.terminalRows / 10)
  let vls := buildVisualLineMap st st.lastWidth
  let cur := findCurrentVisualLine st vls
  let target : Int := max 0 (min ((vls.length : Int) - 1) (cur + direction * (pageSize : Int)))
  match vlAt vls target with
  | some tv =>
    let visualCol : Int :=
      match vlAt vls cur with
      | some v => st.cursorCol - (v.startCol : Int)
      | none => 0
    let targetCol : Int := (tv.startCol : Int) + min visualCol (tv.len : Int)
    let logicalLine := getLine st.lines (tv.logicalLine : Int)
    { st with cursorLine := (tv.logicalLine : Int),
              cursorCol := min targetCol (logicalLine.length : Int) }
  | none => st

/-! ## Text setting and history -/

/-- `setTextInternal` (editor.ts lines 395–406). -/
def setTextInternal (st : EditorState) (text : List Char) :
    EditorState × List EditorOut :=
  let ls := splitOnChar '\n' (normalizeNewlines text)
  let ls := if ls.isEmpty then [[]] else ls
  let st := { st with lines := ls,
                      cursorLine := (ls.length : Int) - 1,
                      cursorCol := ((ls.getLast?.getD []).length : Int),
                      scrollOffset := 0 }
  (st, [EditorOut.change (getText st)])

/-- `setText` (editor.ts lines 924–927). -/
def setText (st : EditorState) (text : List Char) :
    EditorState × List EditorOut :=
  setTextInternal { st with historyIndex := -1 } text

/-- `isEditorEmpty` (editor.ts lines 362–364). -/
def isEditorEmpty (st : EditorState) : Bool :=
  decide (st.lines.length = 1 ∧ st.lines.headD [] = [])

/-- `isOnFirstVisualLine` (editor.ts lines 366–370). -/
def isOnFirstVisualLine (st : EditorState) : Bool :=
  decide (findCurrentVisualLine st (buildVisualLineMap st st.lastWidth) = 0)

/-- `isOnLastVisualLine` (editor.ts lines 372–376). -/
def isOnLastVisualLine (st : EditorState) : Bool :=
  let vls := buildVisualLineMap st st.lastWidth
  decide (findCurrentVisualLine st vls = (vls.length : Int) - 1)

/-- `navigateHistory` (editor.ts lines 378–392). -/
def navigateHistory (st : EditorState) (direction : Int) :
    EditorState × List EditorOut :=
  if st.history.isEmpty then (st, [])
  else
    let newIndex := st.historyIndex - direction
    if newIndex < -1 ∨ (st.history.length : Int) ≤ newIndex then (st, [])
    else
      let st := { st with historyIndex := newIndex }
      if newIndex = -1 then setTextInternal st []
      else setTextInternal st ((st.history.get? newIndex.toNat).getD [])

/-- `addToHistory` (editor.ts lines 350–360), as a function of the history
list (the only state it touches). -/
def addToHistory (h : List (List Char)) (text : List Char) :
    List (List Char) :=
  let trimmed := jsTrim text
  if trimmed.isEmpty then h
  else if (match h with | t :: _ => decide (t = trimmed) | [] => false) then h
  else
    let h2 := trimmed :: h
    if 100 < h2.length then h2.dropLast else h2

/-! ## Paste ingestion (`handlePaste`, editor.ts lines 989–1087) -/

/-- JavaScript `/\w/` test. -/
def isWordCharJs (c : Char) : Bool :=
  decide ((65 ≤ c.toNat ∧ c.toNat ≤ 90) ∨ (97 ≤ c.toNat ∧ c.toNat ≤ 122) ∨
    (48 ≤ c.toNat ∧ c.toNat ≤ 57)) || c = '_'

/-- The paste-marker text (editor.ts lines 1026–1029). -/
def markerText (pasteId numLines totalChars : Nat) : List Char :=
  if 10 < numLines then
    "[paste #".toList ++ natDigits pasteId ++ " +".toList ++ natDigits numLines
      ++ " lines]".toList
  else
    "[paste #".toList ++ natDigits pasteId ++ [' '] ++ natDigits totalChars
      ++ " chars]".toList

/-- The state-independent cleaning of pasted text (editor.ts lines 992–1002):
normalize newlines, expand tabs to four spaces, drop non-printables except
newline. -/
def cleanPasteBase (pastedText : List Char) : List Char :=
  (expandTabs (normalizeNewlines pastedText)).filter
    (fun c => c = '\n' || decide (32 ≤ c.toNat))

/-- The cleaned paste including the path-prefix space rule (editor.ts lines
1004–1012): when the text starts with `/`, `~` or `.` and the character
before the cursor is a word character, prepend one space. -/
def pasteFiltered (st : EditorState) (pastedText : List Char) : List Char :=
  let f0 := cleanPasteBase pastedText
  let pathStart :=
    match f0 with
    | c :: _ => c = '/' || c = '~' || c = '.'
    | [] => false
  if pathStart then
    let currentLine := getLine st.lines st.cursorLine
    let charBefore :=
      if (0 : Int) < st.cursorCol then jsCharAt currentLine (st.cursorCol - 1) else none
    match charBefore with
    | some c => if isWordCharJs c then ' ' :: f0 else f0
    | none => f0
  else f0

/-- `handlePaste` (editor.ts lines 989–1087). -/
def handlePaste (st : EditorState) (pastedText : List Char) :
    EditorState × List EditorOut :=
  let st := { st with historyIndex := -1 }
  let filteredText := pasteFiltered st pastedText
  let pastedLines := splitOnChar '\n' filteredText
  let totalChars := filteredText.length
  if 10 < pastedLines.length || 1000 < totalChars then
    let pasteId := st.pasteCounter + 1
    let st := { st with pasteCounter := pasteId,
                        pastes := mapSet st.pastes pasteId filteredText }
    insertString st (markerText pasteId pastedLines.length totalChars)
  else if pastedLines.length = 1 then
    insertString st (pastedLines.headD [])
  else
    let currentLine := getLine st.lines st.cursorLine
    let beforeCursor := jsSlice currentLine 0 st.cursorCol
    let afterCursor := jsSliceFrom currentLine st.cursorCol
    let cl : Nat := st.cursorLine.toNat
    let startI : Int := st.cursorLine + 1
    let newLines :=
      ((List.range cl).map (fun i => (st.lines.get? i).getD []))
      ++ [beforeCursor ++ pastedLines.headD []]
      ++ (pastedLines.drop 1).dropLast
      ++ [(pastedLines.getLast?.getD []) ++ afterCursor]
      ++ (List.range ((st.lines.length : Int) - startI).toNat).map
           (fun (k : Nat) => getLine st.lines (startI + (k : Int)))
    let st := { st with lines := newLines,
                        cursorLine := st.cursorLine + ((pastedLines.length : Int) - 1),
                        cursorCol := ((pastedLines.getLast?.getD []).length : Int) }
    (st, [EditorOut.change (getText st)])

/-! ## Keybindings, modelled from the spec -/

/-- Modelled from the spec: the shared keybinding table resolves named
bindings to standard terminal sequences (`submit` = CR, arrows, home/end,
backspace, delete, tab, the usual Ctrl word/line deletions, page up/down,
Ctrl+C for `copy`).  The `newLine` binding has no extra sequence here: the
newline alternatives are matched explicitly by `handleInput`. -/
def kbSubmit (d : List Char) : Bool := d = ['\r']

def kbTab (d : List Char) : Bool := d = ['\t']

def kbCopy (d : List Char) : Bool := d = ['\x03']

def kbNewLine (_ : List Char) : Bool := false

def kbCursorUp (d : List Char) : Bool := d = "\x1b[A".toList

def kbCursorDown (d : List Char) : Bool := d = "\x1b[B".toList

def kbCursorRight (d : List Char) : Bool := d = "\x1b[C".toList

def kbCursorLeft (d : List Char) : Bool := d = "\x1b[D".toList

def kbCursorLineStart (d : List Char) : Bool :=
  d = ['\x01'] || d = "\x1b[H".toList

def kbCursorLineEnd (d : List Char) : Bool :=
  d = ['\x05'] || d = "\x1b[F".toList

def kbCursorWordLeft (d : List Char) : Bool := d = '\x1b' :: ['b']

def kbCursorWordRight (d : List Char) : Bool := d = '\x1b' :: ['f']

def kbDeleteCharBackward (d : List Char) : Bool := d = ['\x7f']

def kbDeleteCharForward (d : List Char) : Bool := d = "\x1b[3~".toList

def kbDeleteWordBackward (d : List Char) : Bool := d = ['\x17']

def kbDeleteToLineStart (d : List Char) : Bool := d = ['\x15']

def kbDeleteToLineEnd (d : List Char) : Bool := d = ['\x0b']

def kbPageUp (d : List Char) : Bool := d = "\x1b[5~".toList

def kbPageDown (d : List Char) : Bool := d = "\x1b[6~".toList

/-- Modelled from the spec: `matchesKey(data, "shift+backspace")` — the
Kitty CSI-u encoding of Shift+Backspace. -/
def shiftBackspaceSeq : List Char := "\x1b[127;2u".toList

/-- Modelled from the spec: `matchesKey(data, "shift+delete")`. -/
def shiftDeleteSeq : List Char := "\x1b[3;2~".toList

/-- Modelled from the spec: `matchesKey(data, "shift+space")` — the Kitty
CSI-u encoding of Shift+Space. -/
def shiftSpaceSeq : List Char := "\x1b[32;2u".toList

/-! ## Input dispatch (`handleInput`, editor.ts lines 568–809) -/

def pasteStartSeq : List Char := "\x1b[200~".toList

def pasteEndSeq : List Char := "\x1b[201~".toList

/-- The compound newline condition of `handleInput` (editor.ts lines
721–729). -/
def isNewlineData (d : List Char) : Bool :=
  kbNewLine d || (d.head? = some '\n' && decide (1 < d.length)) ||
  d = ['\x1b', '\r'] || d = "\x1b[13;2~".toList ||
  (decide (1 < d.length) && d.contains '\x1b' && d.contains '\r') ||
  d = ['\n'] || d = ['\\', '\r']

/-- The submit branch of `handleInput` (editor.ts lines 735–752). -/
def submitAction (st : EditorState) : EditorState × List EditorOut :=
  if st.disableSubmit then (st, [])
  else
    let result := expandPastes st.pastes (jsTrim (joinWith '\n' st.lines))
    let st := { st with lines := [[]], cursorLine := 0, cursorCol := 0,
                        pastes := [], pasteCounter := 0, historyIndex := -1,
                        scrollOffset := 0 }
    (st, [EditorOut.change [], EditorOut.submitted result])

/-- The `cursorUp` branch of `handleInput` (editor.ts lines 756–765). -/
def handleCursorUp (st : EditorState) : EditorState × List EditorOut :=
  if isEditorEmpty st then navigateHistory st (-1)
  else if (-1 : Int) < st.historyIndex && isOnFirstVisualLine st then
    navigateHistory st (-1)
  else (moveCursor st (-1) 0, [])

/-- The `cursorDown` branch of `handleInput` (editor.ts lines 766–773). -/
def handleCursorDown (st : EditorState) : EditorState × List EditorOut :=
  if (-1 : Int) < st.historyIndex && isOnLastVisualLine st then
    navigateHistory st 1
  else (moveCursor st 1 0, [])

/-- The dispatch of `handleInput` from the `data === "\\"` check onward
(editor.ts lines 607–808).  The autocomplete blocks are no-ops without a
provider: `isAutocompleting` is identically false and `handleTabCompletion`
only calls `tryTriggerAutocomplete`/`forceFileAutocomplete`, which return
immediately. -/
def dispatchRest (st : EditorState) (data : List Char) :
    EditorState × List EditorOut :=
  if data = ['\\'] then ({ st with pendingShiftEnter := true }, [])
  else if kbCopy data then (st, [])
  else if kbTab data then (st, [])
  else if kbDeleteToLineEnd data then deleteToEndOfLine st
  else if kbDeleteToLineStart data then deleteToStartOfLine st
  else if kbDeleteWordBackward data then deleteWordBackwards st
  else if kbDeleteCharBackward data || data = shiftBackspaceSeq then handleBackspace st
  else if kbDeleteCharForward data || data = shiftDeleteSeq then handleForwardDelete st
  else if kbCursorLineStart data then (moveToLineStart st, [])
  else if kbCursorLineEnd data then (moveToLineEnd st, [])
  else if kbCursorWordLeft data then (moveWordBackwards st, [])
  else if kbCursorWordRight data then (moveWordForwards st, [])
  else if isNewlineData data then addNewLine st
  else if kbSubmit data then submitAction st
  else if kbCursorUp data then handleCursorUp st
  else if kbCursorDown data then handleCursorDown st
  else if kbCursorRight data then (moveCursor st 0 1, [])
  else if kbCursorLeft data then (moveCursor st 0 (-1), [])
  else if kbPageUp data then (pageScroll st (-1), [])
  else if kbPageDown data then (pageScroll st 1, [])
  else if data = shiftSpaceSeq then insertCharacter st [' ']
  else
    match decodeKittyPrintable data with
    | some c => insertCharacter st [c]
    | none =>
      match data.head? with
      | some c => if 32 ≤ c.toNat then insertCharacter st data else (st, [])
      | none => (st, [])

/-- `handleInput` (editor.ts lines 568–809), fueled for the re-decoding
recursion after a bracketed-paste end marker.  Every recursive call
consumes at least the six characters of the end marker out of
`pasteBuffer ++ data`, so the fuel chosen by `handleInput` suffices. -/
def handleInputFuel : Nat → EditorState → List Char → EditorState × List EditorOut
  | 0, st, _ => (st, [])
  | fuel + 1, st0, data0 =>
    let hasStart := containsSub pasteStartSeq data0
    let st := if hasStart then { st0 with isInPaste := true, pasteBuffer := [] } else st0
    let data := if hasStart then replaceFirstSub pasteStartSeq [] data0 else data0
    if st.isInPaste then
      let pb := st.pasteBuffer ++ data
      match indexOfSub pasteEndSeq pb with
      | some endIdx =>
        let content := pb.take endIdx
        let stA := { st with pasteBuffer := pb }
        let r1 := if 0 < content.length then handlePaste stA content else (stA, [])
        let remaining := pb.drop (endIdx + 6)
        let st2 := { r1.1 with isInPaste := false, pasteBuffer := [] }
        if 0 < remaining.length then
          let r2 := handleInputFuel fuel st2 remaining
          (r2.1, r1.2 ++ r2.2)
        else (st2, r1.2)
      | none => ({ st with pasteBuffer := pb }, [])
    else
      if st.pendingShiftEnter then
        if data = ['\r'] then addNewLine { st with pendingShiftEnter := false }
        else
          let r1 := insertCharacter { st with pendingShiftEnter := false } ['\\']
          let r2 := dispatchRest r1.1 data
          (r2.1, r1.2 ++ r2.2)
      else dispatchRest st data

/-- `handleInput(data)`: the fuel bounds the number of re-decoding rounds,
each of which consumes at least one character of `pasteBuffer ++ data`. -/
def handleInput (st : EditorState) (data : List Char) :
    EditorState × List EditorOut :=
  handleInputFuel (st.pasteBuffer.length + data.length + 1) st data

/-! ## Layout and rendering (`layoutText` / `render`, editor.ts 428–566, 811–897) -/

/-- One laid-out visual row (editor.ts `LayoutLine`). -/
structure LayoutLine where
  text : List Char
  hasCursor : Bool
  cursorPos : Option Int
deriving Repr, DecidableEq

/-- The per-chunk cursor placement of `layoutText` (editor.ts lines
848–892). -/
def layoutWrapGo (st : EditorState) (isCurrentLine : Bool) :
    List TextChunk → List LayoutLine
  | [] => []
  | chunk :: rest =>
    let isLastChunk := rest.isEmpty
    let cursorPos := st.cursorCol
    let hasCursorInChunk : Bool :=
      isCurrentLine &&
      (if isLastChunk then decide ((chunk.startIndex : Int) ≤ cursorPos)
       else decide ((chunk.startIndex : Int) ≤ cursorPos) &&
            decide (cursorPos < (chunk.endIndex : Int)))
    let adjusted : Int :=
      if isLastChunk then cursorPos - (chunk.startIndex : Int)
      else min (cursorPos - (chunk.startIndex : Int)) (chunk.text.length : Int)
    (if hasCursorInChunk then (⟨chunk.text, true, some adjusted⟩ : LayoutLine)
     else ⟨chunk.text, false, none⟩) :: layoutWrapGo st isCurrentLine rest

/-- The per-logical-line loop of `layoutText` (editor.ts lines 825–894). -/
def layoutLinesGo (st : EditorState) (contentWidth : Nat) :
    Nat → List (List Char) → List LayoutLine
  | _, [] => []
  | i, line :: rest =>
    (let isCurrentLine := decide ((i : Int) = st.cursorLine)
     if visibleWidth line ≤ contentWidth then
       if isCurrentLine then [⟨line, true, some st.cursorCol⟩]
       else [⟨line, false, none⟩]
     else layoutWrapGo st isCurrentLine (wordWrapLine line contentWidth))
    ++ layoutLinesGo st contentWidth (i + 1) rest

/-- `layoutText` (editor.ts lines 811–897). -/
def layoutText (st : EditorState) (contentWidth : Nat) : List LayoutLine :=
  if st.lines.isEmpty || (decide (st.lines.length = 1) && decide (st.lines.headD [] = [])) then
    [⟨[], true, some 0⟩]
  else layoutLinesGo st contentWidth 0 st.lines

/-- `formatBorder` (editor.ts lines 412–426). -/
def formatBorder (style : EditorBorderStyle) (text : List Char) (isTop : Bool) :
    List Char :=
  if text.length ≤ 1 then text
  else
    let leftChar : List Char :=
      match style, isTop with
      | .rounded, true => ['╭']
      | .rounded, false => ['╰']
      | .sharp, true => ['┌']
      | .sharp, false => ['└']
      | .noBorder, _ => []
    let rightChar : List Char :=
      match style, isTop with
      | .rounded, true => ['╮']
      | .rounded, false => ['╯']
      | .sharp, true => ['┐']
      | .sharp, false => ['┘']
      | .noBorder, _ => []
    if leftChar.isEmpty && rightChar.isEmpty then text
    else leftChar ++ jsSlice text 1 (-1) ++ rightChar

/-- One content row of `render` (editor.ts lines 484–537), with the
invisible bytes stripped: the zero-width `CURSOR_MARKER` sentinel and the
`ESC[7m`/`ESC[0m` reverse-video pairs around the fake cursor are omitted,
so the produced string is the stripped-ANSI form whose visible width the
spec constrains. -/
def renderLayoutLine (paddingX contentWidth : Nat) (ll : LayoutLine) :
    List Char :=
  let displayText := ll.text
  let lineVisibleWidth := visibleWidth ll.text
  let r : List Char × Nat :=
    if ll.hasCursor then
      match ll.cursorPos with
      | some cp =>
        let before := jsSlice displayText 0 cp
        let after := jsSliceFrom displayText cp
        if !after.isEmpty then
          let firstG := ((segmentGraphemes after).head?).getD []
          let restAfter := jsSliceFrom after (firstG.length : Int)
          (before ++ firstG ++ restAfter, lineVisibleWidth)
        else
          if lineVisibleWidth < contentWidth then
            (before ++ [' '], lineVisibleWidth + 1)
          else
            let beforeGs := segmentGraphemes before
            if !beforeGs.isEmpty then
              let lastG := (beforeGs.getLast?).getD []
              (beforeGs.dropLast.flatten ++ lastG, lineVisibleWidth)
            else (displayText, lineVisibleWidth)
      | none => (displayText, lineVisibleWidth)
    else (displayText, lineVisibleWidth)
  let padding := List.replicate (contentWidth - r.2) ' '
  let sidePad := List.replicate paddingX ' '
  sidePad ++ r.1 ++ padding ++ sidePad

/-- The clamped horizontal padding of `render` (editor.ts lines 433–434):
`min(this.paddingX, maxPadding)` with `maxPadding = floor((width-1)/2)`. -/
def renderPaddingX (st : EditorState) (width : Nat) : Nat :=
  min st.paddingX ((width - 1) / 2)

/-- The content width of `render` (editor.ts line 435):
`max(1, width - paddingX * 2)`. -/
def renderContentWidth (st : EditorState) (width : Nat) : Nat :=
  max 1 (width - renderPaddingX st width * 2)

/-- The laid-out visual rows computed by `render` (editor.ts line 441),
after `lastWidth` has been updated to the content width. -/
def renderLayoutLs (st : EditorState) (width : Nat) : List LayoutLine :=
  layoutText { st with lastWidth := renderContentWidth st width }
    (renderContentWidth st width)

/-- `maxVisibleLines` of `render` (editor.ts line 444):
`Math.max(5, Math.floor(terminalRows * 0.3))`; the floating-point
expression agrees with `3 * terminalRows / 10` for the row counts used
here. -/
def renderMvl (st : EditorState) : Nat :=
  max 5 (3 * st.terminalRows / 10)

/-- The index of the visual row carrying the cursor (editor.ts lines
447–: `findIndex`, 0 when absent). -/
def renderCli (st : EditorState) (width : Nat) : Nat :=
  match (renderLayoutLs st width).findIdx? (fun l => l.hasCursor) with
  | some i => i
  | none => 0

/-- The scroll offset after `render`'s adjustment and clamping (editor.ts
lines 450–462). -/
def renderSo (st : EditorState) (width : Nat) : Int :=
  let cli : Int := Int.ofNat (renderCli st width)
  let so1 : Int :=
    if cli < st.scrollOffset then cli
    else if st.scrollOffset + (renderMvl st : Int) ≤ cli then
      cli - (renderMvl st : Int) + 1
    else st.scrollOffset
  max 0 (min so1
    (max 0 (((renderLayoutLs st width).length : Int) - (renderMvl st : Int))))

/-- The window of visual rows shown by `render` (editor.ts line 465:
`layoutLines.slice(scrollOffset, scrollOffset + maxVisibleLines)`). -/
def renderVisible (st : EditorState) (width : Nat) : List LayoutLine :=
  jsSliceList (renderLayoutLs st width) (renderSo st width)
    (renderSo st width + (renderMvl st : Int))

/-- The number of laid-out rows below the visible window (editor.ts line
545). -/
def renderLinesBelow (st : EditorState) (width : Nat) : Int :=
  ((renderLayoutLs st width).length : Int) -
    (renderSo st width + ((renderVisible st width).length : Int))

/-- The top border row of `render` (editor.ts lines 468–482), with the
`↑ N more` scroll indicator when rows are hidden above. -/
def renderTopBorder (st : EditorState) (width : Nat) : List Char :=
  let so := renderSo st width
  let topBorder0 :=
    if 0 < so then
      let indicator := "─── ↑ ".toList ++ intDecimal so ++ " more ".toList
      indicator ++
        List.replicate ((width : Int) - (visibleWidth indicator : Int)).toNat '─'
    else List.replicate width '─'
  if 1 < width then formatBorder st.borderStyle topBorder0 true else topBorder0

/-- The bottom border row of `render` (editor.ts lines 544–560), with the
`↓ N more` scroll indicator when rows are hidden below. -/
def renderBottomBorder (st : EditorState) (width : Nat) : List Char :=
  let linesBelow := renderLinesBelow st width
  let bottomBorder0 :=
    if 0 < linesBelow then
      let indicator := "─── ↓ ".toList ++ intDecimal linesBelow ++ " more ".toList
      indicator ++
        List.replicate ((width : Int) - (visibleWidth indicator : Int)).toNat '─'
    else List.replicate width '─'
  if 1 < width then formatBorder st.borderStyle bottomBorder0 false
  else bottomBorder0

/-- `render` (editor.ts lines 428–566), producing the stripped-ANSI rows
(`borderColor` only adds color codes and is modelled as the identity; no
autocomplete overlay rows are appended since no provider is installed).
Returns the updated state (`lastWidth` and `scrollOffset` are mutated) and
the rows: top border, one row per visible layout line, bottom border. -/
def render (st : EditorState) (width : Nat) : EditorState × List (List Char) :=
  ({ st with lastWidth := renderContentWidth st width,
             scrollOffset := renderSo st width },
   [renderTopBorder st width] ++
     (renderVisible st width).map
       (renderLayoutLine (renderPaddingX st width)
         (renderContentWidth st width)) ++
     [renderBottomBorder st width])

/-! ## Event traces -/

/-- The editing intents dispatched by `handleInput` (one per input event),
used to state trace-level properties.  `raw` feeds a chunk through
`handleInput` itself; the named events invoke the corresponding operation
directly. -/
inductive EditEvent where
  | insert (chs : List Char)
  | paste (s : List Char)
  | newline
  | backspace
  | forwardDelete
  | deleteWordBack
  | deleteLineStart
  | deleteLineEnd
  | submitEv
  | cursorUp
  | cursorDown
  | cursorLeft
  | cursorRight
  | lineStart
  | lineEnd
  | wordLeft
  | wordRight
  | pageUp
  | pageDown
  | raw (data : List Char)
deriving Repr, DecidableEq

/-- Apply one event to the editor. -/
def applyEvent (st : EditorState) (e : EditEvent) :
    EditorState × List EditorOut :=
  match e with
  | .insert chs => insertCharacter st chs
  | .paste s => handlePaste st s
  | .newline => addNewLine st
  | .backspace => handleBackspace st
  | .forwardDelete => handleForwardDelete st
  | .deleteWordBack => deleteWordBackwards st
  | .deleteLineStart => deleteToStartOfLine st
  | .deleteLineEnd => deleteToEndOfLine st
  | .submitEv => submitAction st
  | .cursorUp => handleCursorUp st
  | .cursorDown => handleCursorDown st
  | .cursorLeft => (moveCursor st 0 (-1), [])
  | .cursorRight => (moveCursor st 0 1, [])
  | .lineStart => (moveToLineStart st, [])
  | .lineEnd => (moveToLineEnd st, [])
  | .wordLeft => (moveWordBackwards st, [])
  | .wordRight => (moveWordForwards st, [])
  | .pageUp => (pageScroll st (-1), [])
  | .pageDown => (pageScroll st 1, [])
  | .raw data => handleInput st data

/-- Apply a sequence of events, concatenating the emitted outputs in event
order. -/
def applyEvents (st : EditorState) : List EditEvent → EditorState × List EditorOut
  | [] => (st, [])
  | e :: es =>
    let r1 := applyEvent st e
    let r2 := applyEvents r1.1 es
    (r2.1, r1.2 ++ r2.2)

/-- Fold a list of raw input chunks through `handleInput`. -/
def applyRaw (st : EditorState) (ds : List (List Char)) :
    EditorState × List EditorOut :=
  applyEvents st (ds.map EditEvent.raw)

/-! ## Definitions used by the stated properties -/

/-- The number of change-sink invocations in an output trace. -/
def changeCount (outs : List EditorOut) : Nat :=
  (outs.filter (fun o => match o with | .change _ => true | _ => false)).length

/-- The history invariant stated by the spec: only trimmed non-empty
entries, no two adjacent entries equal, at most 100 entries. -/
def historyInvariant (h : List (List Char)) : Prop :=
  (∀ x ∈ h, x ≠ [] ∧ jsTrim x = x) ∧ List.Chain' (· ≠ ·) h ∧ h.length ≤ 100

/-- The boundary test of the wrap-fidelity property: the character of the
original line just after the chunk's displayed text (the pre-trim position)
starts a whitespace run. -/
def restoreSpaceAfter (line : List Char) (c : TextChunk) : Bool :=
  match line.get? (c.startIndex + c.text.length) with
  | some ch => isWhitespaceChar ch
  | none => false

/-- The reconstruction operator of the wrap-fidelity property: concatenate
the chunk texts, restoring a single space at each inter-chunk boundary
whose right side begins at a whitespace run of the original line. -/
def reconstructChunks (line : List Char) : List TextChunk → List Char
  | [] => []
  | [c] => c.text
  | c :: d :: t =>
    c.text ++ (if restoreSpaceAfter line c then [' '] else [])
      ++ reconstructChunks line (d :: t)

/-- A word of a space-separated line: non-empty, no whitespace (including
the `trim`-stripped control characters), no combining marks. -/
def WordOk (w : List Char) : Prop :=
  w ≠ [] ∧ ∀ ch ∈ w, isTrimWs ch = false ∧ isCombiningChar ch = false

/-- A line that is a non-empty list of words joined by single spaces. -/
def SpacedLine (ws : List (List Char)) (line : List Char) : Prop :=
  ws ≠ [] ∧ (∀ w ∈ ws, WordOk w) ∧ line = joinWith ' ' ws

/-- The expected tokenization of a space-separated line starting at
character index `i`: word tokens separated by single-space whitespace
tokens, with contiguous index ranges. -/
def spacedTokens : List (List Char) → Nat → List WrapToken
  | [], _ => []
  | [w], i => [⟨w, i, i + w.length, false⟩]
  | w :: rest, i =>
    ⟨w, i, i + w.length, false⟩ ::
      ⟨[' '], i + w.length, i + w.length + 1, true⟩ ::
      spacedTokens rest (i + w.length + 1)

/-- The gap-inserting reconstruction of a chunk prefix (the part of
`reconstructChunks` that applies the boundary test after every chunk,
including the last). -/
def reconA (line : List Char) : List TextChunk → List Char
  | [] => []
  | c :: t =>
    c.text ++ (if restoreSpaceAfter line c then [' '] else []) ++
      reconA line t

/-- Encoder for the CSI-u sequences of the claimed pattern
`ESC [ <cp> (:<shifted>)? (:<base>)? (;<mod>)? (:<sub>)? u`. -/
def optColon (o : Option Nat) : List Char :=
  match o with
  | some n => ':' :: natDigits n
  | none => []

def optSemi (o : Option Nat) : List Char :=
  match o with
  | some n => ';' :: natDigits n
  | none => []

def kittyEncode (cp : Nat) (sh ba mo su : Option Nat) : List Char :=
  '\x1b' :: '[' ::
    (natDigits cp ++ optColon sh ++ optColon ba ++ optSemi mo ++ optColon su ++ ['u'])

/-- The input-event sequence exhibiting the cursor-bound violation: one
printable chunk inserting a 92-character line that wraps at the default
`lastWidth` of 80 into chunks covering byte ranges [0,79) and [82,92) (the
three-space run is trimmed), twelve `cursorLeft` arrow keys placing the
cursor at column 80 — inside the trimmed whitespace gap — and one
`cursorUp` arrow key. -/
def c3FailingInputs : List (List Char) :=
  [List.replicate 79 'a' ++ [' ', ' ', ' '] ++ List.replicate 10 'b'] ++
  List.replicate 12 "\x1b[D".toList ++ ["\x1b[A".toList]

theorem splitOnChar_ne_nil (sep : Char) (l : List Char) :
    splitOnChar sep l ≠ [] := by
  cases l with
  | nil => simp [splitOnChar]
  | cons c t =>
    simp only [splitOnChar]
    split
    · simp
    · cases h : splitOnChar sep t <;> simp

theorem joinWith_splitOnChar (sep : Char) (l : List Char) :
    joinWith sep (splitOnChar sep l) = l := by
  induction l with
  | nil => rfl
  | cons c t ih =>
    simp only [splitOnChar]
    split
    · rename_i hc
      cases h : splitOnChar sep t with
      | nil => exact absurd h (splitOnChar_ne_nil sep t)
      | cons a r =>
        rw [h] at ih
        subst hc
        simpa [joinWith] using ih
    · cases h : splitOnChar sep t with
      | nil => exact absurd h (splitOnChar_ne_nil sep t)
      | cons a r =>
        rw [h] at ih
        cases r with
        | nil => simpa [joinWith] using ih
        | cons b r2 => simpa [joinWith] using ih

theorem changeCount_append (a b : List EditorOut) :
    changeCount (a ++ b) = changeCount a + changeCount b := by
  simp [changeCount, List.filter_append]

/-! ## C7: setText round trip -/

/-- C7: for every string `s`, after `setText s` the buffer equals `s` with
CRLF and CR normalized to LF and split on LF, `getText` returns the
normalized string, the cursor sits on the last line at end of line, and
history browsing is exited (`historyIndex = -1`). -/
theorem C7_setText_roundtrip (st : EditorState) (s : List Char) :
    ((setText st s).1.lines = splitOnChar '\n' (normalizeNewlines s)) ∧
    getText (setText st s).1 = normalizeNewlines s ∧
    (setText st s).1.cursorLine = ((setText st s).1.lines.length : Int) - 1 ∧
    (setText st s).1.cursorCol =
      (((setText st s).1.lines.getLast?.getD []).length : Int) ∧
    (setText st s).1.historyIndex = -1 := by
  have hne := splitOnChar_ne_nil '\n' (normalizeNewlines s)
  have hempty : (splitOnChar '\n' (normalizeNewlines s)).isEmpty = false := by
    cases h : splitOnChar '\n' (normalizeNewlines s) with
    | nil => exact absurd h hne
    | cons a r => rfl
  simp only [setText, setTextInternal, hempty, Bool.false_eq_true, if_false, getText]
  simp [joinWith_splitOnChar]

/-! ## Trim lemmas -/

theorem dropWhile_dropWhile (p : Char → Bool) (l : List Char) :
    (l.dropWhile p).dropWhile p = l.dropWhile p := by
  induction l with
  | nil => rfl
  | cons c t ih =>
    by_cases hc : p c = true
    · simp [List.dropWhile, hc, ih]
    · simp [List.dropWhile, hc]

theorem dropWhile_append_singleton (p : Char → Bool) (c : Char)
    (hc : p c = false) (xs : List Char) :
    (xs ++ [c]).dropWhile p = xs.dropWhile p ++ [c] := by
  induction xs with
  | nil => simp [List.dropWhile, hc]
  | cons x t ih =>
    by_cases hx : p x = true
    · simp [List.dropWhile, hx, ih]
    · simp [List.dropWhile, hx]

theorem jsTrimEnd_cons_of_not (c : Char) (hc : isTrimWs c = false)
    (t : List Char) : jsTrimEnd (c :: t) = c :: jsTrimEnd t := by
  simp only [jsTrimEnd, List.reverse_cons]
  rw [dropWhile_append_singleton isTrimWs c hc]
  simp

theorem jsTrimEnd_jsTrimEnd (l : List Char) :
    jsTrimEnd (jsTrimEnd l) = jsTrimEnd l := by
  simp only [jsTrimEnd, List.reverse_reverse]
  rw [dropWhile_dropWhile]

theorem head_dropWhile_not (p : Char → Bool) (l : List Char) (c : Char)
    (t : List Char) (h : l.dropWhile p = c :: t) : p c = false := by
  induction l with
  | nil => simp [List.dropWhile] at h
  | cons x xs ih =>
    by_cases hx : p x = true
    · simp [List.dropWhile, hx] at h
      exact ih h
    · simp [List.dropWhile, hx] at h
      rw [← h.1]
      simpa using hx

theorem jsTrim_idem (l : List Char) : jsTrim (jsTrim l) = jsTrim l := by
  unfold jsTrim
  cases hd : l.dropWhile isTrimWs with
  | nil => simp [jsTrimEnd]
  | cons c t =>
    have hc : isTrimWs c = false := head_dropWhile_not isTrimWs l c t hd
    rw [jsTrimEnd_cons_of_not c hc t]
    have hstop : (c :: jsTrimEnd t).dropWhile isTrimWs = c :: jsTrimEnd t := by
      simp [List.dropWhile, hc]
    rw [hstop, jsTrimEnd_cons_of_not c hc (jsTrimEnd t), jsTrimEnd_jsTrimEnd]

/-! ## C8: history invariant -/

theorem addToHistory_invariant (h : List (List Char)) (t : List Char)
    (hh : historyInvariant h) : historyInvariant (addToHistory h t) := by
  obtain ⟨hmem, hchain, hlen⟩ := hh
  have htr : jsTrim (jsTrim t) = jsTrim t := jsTrim_idem t
  by_cases he : (jsTrim t).isEmpty = true
  · simpa [addToHistory, he] using ⟨hmem, hchain, hlen⟩
  · have hne : jsTrim t ≠ [] := by
      cases hc : jsTrim t with
      | nil => rw [hc] at he; simp at he
      | cons a b => simp
    cases h with
    | nil =>
      have heq : addToHistory [] t = [jsTrim t] := by simp [addToHistory, he]
      rw [heq]
      simp [historyInvariant, hne, htr]
    | cons x r =>
      by_cases hx : x = jsTrim t
      · have heq : addToHistory (x :: r) t = x :: r := by simp [addToHistory, he, hx]
        rw [heq]
        exact ⟨hmem, hchain, hlen⟩
      · have hmem2 : ∀ y ∈ jsTrim t :: x :: r, y ≠ [] ∧ jsTrim y = y := by
          intro y hy
          rcases List.mem_cons.mp hy with hy | hy
          · subst hy; exact ⟨hne, htr⟩
          · exact hmem y hy
        have hchain2 : List.Chain' (· ≠ ·) (jsTrim t :: x :: r) := by
          refine List.chain'_cons.mpr ⟨?_, hchain⟩
          exact fun hc => hx hc.symm
        by_cases hlong : 100 < r.length + 1 + 1
        · have heq : addToHistory (x :: r) t = (jsTrim t :: x :: r).dropLast := by
            simp [addToHistory, he, hx, hlong]
          rw [heq]
          refine ⟨?_, hchain2.prefix (List.dropLast_prefix _), ?_⟩
          · intro y hy
            exact hmem2 y ((List.dropLast_prefix (jsTrim t :: x :: r)).subset hy)
          · simp only [List.length_dropLast, List.length_cons]
            simp only [List.length_cons] at hlen
            omega
        · have heq : addToHistory (x :: r) t = jsTrim t :: x :: r := by
            simp [addToHistory, he, hx, hlong]
          rw [heq]
          refine ⟨hmem2, hchain2, ?_⟩
          simp only [List.length_cons]
          omega

theorem foldl_addToHistory_invariant (ts : List (List Char))
    (h : List (List Char)) (hh : historyInvariant h) :
    historyInvariant (ts.foldl addToHistory h) := by
  induction ts generalizing h with
  | nil => exact hh
  | cons t ts ih =>
    exact ih (addToHistory h t) (addToHistory_invariant h t hh)

theorem addToHistory_shape (h : List (List Char)) (t : List Char) :
    addToHistory h t = h ∨ addToHistory h t = jsTrim t :: h ∨
      addToHistory h t = (jsTrim t :: h).dropLast := by
  by_cases he : (jsTrim t).isEmpty = true
  · exact Or.inl (by simp [addToHistory, he])
  · cases h with
    | nil =>
      refine Or.inr (Or.inl ?_)
      simp [addToHistory, he]
    | cons x r =>
      by_cases hx : x = jsTrim t
      · exact Or.inl (by simp [addToHistory, he, hx])
      · by_cases hlong : 100 < r.length + 1 + 1
        · exact Or.inr (Or.inr (by simp [addToHistory, he, hx, hlong]))
        · exact Or.inr (Or.inl (by simp [addToHistory, he, hx, hlong]))

/-- C8: after every sequence of `addToHistory` calls starting from the empty
history, the history contains no empty string, only trimmed strings, no two
adjacent equal entries, and has length at most 100; moreover each call
either leaves the history unchanged or pushes the trimmed text at the front
(dropping the oldest entry when the bound would be exceeded), so the order
is most-recent first. -/
theorem C8_history_invariant (ts : List (List Char)) :
    historyInvariant (ts.foldl addToHistory []) ∧
    ∀ h t, addToHistory h t = h ∨ addToHistory h t = jsTrim t :: h ∨
      addToHistory h t = (jsTrim t :: h).dropLast := by
  constructor
  · exact foldl_addToHistory_invariant ts [] ⟨by simp, by simp, by simp⟩
  · exact addToHistory_shape

/-! ## C10: frame property of pure cursor motion -/

theorem moveCursorVertical_frame (st : EditorState) (dl : Int) :
    (moveCursorVertical st dl).lines = st.lines ∧
    (moveCursorVertical st dl).pastes = st.pastes ∧
    (moveCursorVertical st dl).history = st.history := by
  unfold moveCursorVertical
  dsimp only
  split
  · split
    · split <;> simp
    · simp
  · simp

theorem moveCursorHorizontal_frame (st : EditorState) (dc : Int) :
    (moveCursorHorizontal st dc).lines = st.lines ∧
    (moveCursorHorizontal st dc).pastes = st.pastes ∧
    (moveCursorHorizontal st dc).history = st.history := by
  unfold moveCursorHorizontal
  dsimp only
  split
  · split
    · split
      · simp
      · split <;> simp
    · split
      · simp
      · split <;> simp
  · simp

theorem moveCursor_frame (st : EditorState) (dl dc : Int) :
    (moveCursor st dl dc).lines = st.lines ∧
    (moveCursor st dl dc).pastes = st.pastes ∧
    (moveCursor st dl dc).history = st.history := by
  unfold moveCursor
  obtain ⟨h1, h2, h3⟩ := moveCursorHorizontal_frame (moveCursorVertical st dl) dc
  obtain ⟨g1, g2, g3⟩ := moveCursorVertical_frame st dl
  exact ⟨h1.trans g1, h2.trans g2, h3.trans g3⟩

theorem moveWordBackwards_frame (st : EditorState) :
    (moveWordBackwards st).lines = st.lines ∧
    (moveWordBackwards st).pastes = st.pastes ∧
    (moveWordBackwards st).history = st.history := by
  unfold moveWordBackwards
  dsimp only
  split
  · split <;> simp
  · split <;> simp

theorem moveWordForwards_frame (st : EditorState) :
    (moveWordForwards st).lines = st.lines ∧
    (moveWordForwards st).pastes = st.pastes ∧
    (moveWordForwards st).history = st.history := by
  unfold moveWordForwards
  dsimp only
  split
  · split <;> simp
  · split <;> simp

theorem pageScroll_frame (st : EditorState) (dir : Int) :
    (pageScroll st dir).lines = st.lines ∧
    (pageScroll st dir).pastes = st.pastes ∧
    (pageScroll st dir).history = st.history := by
  unfold pageScroll
  dsimp only
  split <;> simp

/-- C10: every pure cursor-motion operation (`moveCursor` with any deltas,
`moveToLineStart`, `moveToLineEnd`, `moveWordBackwards`, `moveWordForwards`,
`pageScroll`) leaves the buffer lines, the paste table and the history list
unchanged, and the corresponding input events emit no change-sink
invocation. -/
theorem C10_motion_frame (st : EditorState) (dl dc dir : Int) :
    ((moveCursor st dl dc).lines = st.lines ∧
      (moveCursor st dl dc).pastes = st.pastes ∧
      (moveCursor st dl dc).history = st.history) ∧
    ((moveToLineStart st).lines = st.lines ∧
      (moveToLineStart st).pastes = st.pastes ∧
      (moveToLineStart st).history = st.history) ∧
    ((moveToLineEnd st).lines = st.lines ∧
      (moveToLineEnd st).pastes = st.pastes ∧
      (moveToLineEnd st).history = st.history) ∧
    ((moveWordBackwards st).lines = st.lines ∧
      (moveWordBackwards st).pastes = st.pastes ∧
      (moveWordBackwards st).history = st.history) ∧
    ((moveWordForwards st).lines = st.lines ∧
      (moveWordForwards st).pastes = st.pastes ∧
      (moveWordForwards st).history = st.history) ∧
    ((pageScroll st dir).lines = st.lines ∧
      (pageScroll st dir).pastes = st.pastes ∧
      (pageScroll st dir).history = st.history) ∧
    (applyEvent st .cursorLeft).2 = [] ∧ (applyEvent st .cursorRight).2 = [] ∧
    (applyEvent st .lineStart).2 = [] ∧ (applyEvent st .lineEnd).2 = [] ∧
    (applyEvent st .wordLeft).2 = [] ∧ (applyEvent st .wordRight).2 = [] ∧
    (applyEvent st .pageUp).2 = [] ∧ (applyEvent st .pageDown).2 = [] := by
  refine ⟨moveCursor_frame st dl dc, ?_, ?_, moveWordBackwards_frame st,
    moveWordForwards_frame st, pageScroll_frame st dir,
    rfl, rfl, rfl, rfl, rfl, rfl, rfl, rfl⟩
  · exact ⟨rfl, rfl, rfl⟩
  · exact ⟨rfl, rfl, rfl⟩


/-! ## C3: cursor invariant (code bug) -/

set_option maxRecDepth 40000 in
/-- C3 (code bug): the claimed invariant `0 ≤ cursorCol` fails on the code.
Feeding `c3FailingInputs` through `handleInput` from the initial state —
type a 92-character line `a…a␣␣␣b…b` that word-wraps at the default width
80 leaving the byte range [79,82) of the line uncovered by any visual
chunk, move the cursor left into that gap (column 80), then press Up —
makes `findCurrentVisualLine` fall back to the last visual line (whose
`startCol` is 82), so `moveCursor` computes the visual column `80 − 82 =
−2` and sets `cursorCol := −2`. -/
theorem C3_cursor_invariant_violated :
    (applyRaw initEditor c3FailingInputs).1.cursorCol = -2 ∧
    ¬ (0 ≤ (applyRaw initEditor c3FailingInputs).1.cursorCol) := by
  decide

/-! ## C2: change-sink invocations -/

theorem insertCharacter_changeCount (st : EditorState) (chs : List Char) :
    changeCount (insertCharacter st chs).2 = 1 := rfl

theorem insertString_changeCount (l : List Char) (st : EditorState) :
    changeCount (insertString st l).2 = l.length := by
  induction l generalizing st with
  | nil => rfl
  | cons c t ih =>
    simp only [insertString, changeCount_append, insertCharacter_changeCount,
      ih, List.length_cons]
    omega

theorem submitAction_changeCount (st : EditorState)
    (h : st.disableSubmit = false) :
    changeCount (submitAction st).2 = 1 := by
  simp [submitAction, h, changeCount]

theorem splitOnChar_singleton (sep : Char) (l x : List Char)
    (h : splitOnChar sep l = [x]) : x = l := by
  have := joinWith_splitOnChar sep l
  rw [h] at this
  simpa [joinWith] using this

theorem handlePaste_changeCount (st : EditorState) (s : List Char) :
    changeCount (handlePaste st s).2 =
      (let f := pasteFiltered st s
       let pl := splitOnChar '\n' f
       if 10 < pl.length || 1000 < f.length then
         (markerText (st.pasteCounter + 1) pl.length f.length).length
       else if pl.length = 1 then f.length
       else 1) := by
  have hpf : pasteFiltered { st with historyIndex := -1 } s = pasteFiltered st s := rfl
  unfold handlePaste
  dsimp only
  rw [hpf]
  split
  · rw [insertString_changeCount]
  · split
    · rename_i hone
      rw [insertString_changeCount]
      cases hpl : splitOnChar '\n' (pasteFiltered st s) with
      | nil => exact absurd hpl (splitOnChar_ne_nil _ _)
      | cons x r =>
        rw [hpl] at hone
        cases r with
        | nil =>
          have := splitOnChar_singleton '\n' (pasteFiltered st s) x hpl
          simp [this]
        | cons y r2 => simp at hone
    · rfl

/-- C2 counterexample: pasting the two-character text `ab` is a single
mutating input event, but the change sink is invoked twice (once per
inserted character), not exactly once. -/
theorem C2_paste_counterexample :
    changeCount (applyEvent initEditor (.paste ['a', 'b'])).2 = 2 ∧
    ¬ changeCount (applyEvent initEditor (.paste ['a', 'b'])).2 = 1 := by
  decide

/-- C2 (amended): character insertion, newline, every deletion and submit
invoke the change sink exactly once per event; a paste invokes it once per
inserted character (marker characters for a large paste, text characters
for a single-line paste — possibly zero when the cleaned text is empty) and
exactly once when a multi-line paste is spliced; and the invocations of an
event sequence are the per-event invocations concatenated in event
order. -/
theorem C2_change_sink_amended (st : EditorState) (chs s : List Char)
    (e : EditEvent) (es : List EditEvent)
    (hsub : st.disableSubmit = false) :
    changeCount (insertCharacter st chs).2 = 1 ∧
    changeCount (addNewLine st).2 = 1 ∧
    changeCount (handleBackspace st).2 = 1 ∧
    changeCount (handleForwardDelete st).2 = 1 ∧
    changeCount (deleteWordBackwards st).2 = 1 ∧
    changeCount (deleteToStartOfLine st).2 = 1 ∧
    changeCount (deleteToEndOfLine st).2 = 1 ∧
    changeCount (submitAction st).2 = 1 ∧
    changeCount (handlePaste st s).2 =
      (let f := pasteFiltered st s
       let pl := splitOnChar '\n' f
       if 10 < pl.length || 1000 < f.length then
         (markerText (st.pasteCounter + 1) pl.length f.length).length
       else if pl.length = 1 then f.length
       else 1) ∧
    (applyEvents st (e :: es)).2 =
      (applyEvent st e).2 ++ (applyEvents (applyEvent st e).1 es).2 := by
  exact ⟨rfl, rfl, rfl, rfl, rfl, rfl, rfl, submitAction_changeCount st hsub,
    handlePaste_changeCount st s, rfl⟩

/-- C2 witness: the amended count statement at a concrete state and paste. -/
theorem C2_change_sink_amended_witness :
    changeCount (handlePaste initEditor "ab".toList).2 =
      (let f := pasteFiltered initEditor "ab".toList
       let pl := splitOnChar '\n' f
       if 10 < pl.length || 1000 < f.length then
         (markerText (initEditor.pasteCounter + 1) pl.length f.length).length
       else if pl.length = 1 then f.length
       else 1) := by
  exact (C2_change_sink_amended initEditor [] "ab".toList .newline [] rfl).2.2.2.2.2.2.2.2.1

/-! ## Slice and set normal forms -/

theorem take_min_length (l : List Char) (n : Nat) :
    l.take (min n l.length) = l.take n := by
  rcases Nat.le_total n l.length with h | h
  · rw [Nat.min_eq_left h]
  · rw [Nat.min_eq_right h, List.take_length, List.take_of_length_le h]

theorem drop_min_length (l : List Char) (n : Nat) :
    l.drop (min n l.length) = l.drop n := by
  rcases Nat.le_total n l.length with h | h
  · rw [Nat.min_eq_left h]
  · rw [Nat.min_eq_right h, List.drop_length, List.drop_of_length_le h]

theorem jsIdx_zero (len : Nat) : jsIdx len 0 = 0 := by
  unfold jsIdx
  rw [if_neg (by omega)]
  simp

theorem jsIdx_natCast (len n : Nat) : jsIdx len (n : Int) = min n len := by
  unfold jsIdx
  rw [if_neg (by omega)]
  simp

theorem jsSlice_zero_nat (l : List Char) (col : Nat) :
    jsSlice l 0 (col : Int) = l.take col := by
  unfold jsSlice
  rw [jsIdx_zero, jsIdx_natCast, take_min_length, List.drop_zero]

theorem jsSliceFrom_nat (l : List Char) (col : Nat) :
    jsSliceFrom l (col : Int) = l.drop col := by
  unfold jsSliceFrom jsSlice
  rw [jsIdx_natCast, jsIdx_natCast, Nat.min_self, List.take_length,
    drop_min_length]

theorem getLine_natCast (ls : List (List Char)) (cl : Nat) :
    getLine ls (cl : Int) = (ls.get? cl).getD [] := by
  simp [getLine]

theorem setLineI_natCast (ls : List (List Char)) (cl : Nat) (v : List Char)
    (h : cl < ls.length) : setLineI ls (cl : Int) v = ls.set cl v := by
  simp [setLineI, setLineNat, h]

theorem set_getD_self (ls : List (List Char)) (cl : Nat) (h : cl < ls.length) :
    ls.set cl ((ls.get? cl).getD []) = ls := by
  induction ls generalizing cl with
  | nil => simp at h
  | cons x t ih =>
    cases cl with
    | zero => simp
    | succ n =>
      simp only [List.get?_cons_succ, List.set_cons_succ]
      rw [ih n (by simpa using h)]

/-! ## Insertion splice lemmas -/

theorem insertCharacter_spec (st : EditorState) (chs : List Char) (cl col : Nat)
    (hcl : st.cursorLine = (cl : Int)) (hcol : st.cursorCol = (col : Int))
    (hlt : cl < st.lines.length)
    (hle : col ≤ ((st.lines.get? cl).getD []).length) :
    (insertCharacter st chs).1 =
      { st with
        historyIndex := -1,
        lines := st.lines.set cl
          (((st.lines.get? cl).getD []).take col ++ chs ++
           ((st.lines.get? cl).getD []).drop col),
        cursorCol := (col : Int) + chs.length } := by
  unfold insertCharacter
  dsimp only
  rw [hcl, hcol, getLine_natCast, jsSlice_zero_nat, jsSliceFrom_nat,
    setLineI_natCast _ _ _ hlt]

theorem insertString_splice (l : List Char) (st : EditorState) (cl col : Nat)
    (hcl : st.cursorLine = (cl : Int)) (hcol : st.cursorCol = (col : Int))
    (hlt : cl < st.lines.length)
    (hle : col ≤ ((st.lines.get? cl).getD []).length) :
    (insertString st l).1 =
      { st with
        historyIndex := if l.isEmpty then st.historyIndex else -1,
        lines := st.lines.set cl
          (((st.lines.get? cl).getD []).take col ++ l ++
           ((st.lines.get? cl).getD []).drop col),
        cursorCol := (col : Int) + l.length } := by
  induction l generalizing st col with
  | nil =>
    simp only [insertString, List.isEmpty_nil, if_true, List.append_nil,
      List.length_nil, Nat.cast_zero]
    rw [List.take_append_drop, set_getD_self _ _ hlt, ← hcol]
    simp
  | cons c t ih =>
    have htake : (((st.lines.get? cl).getD []).take col).length = col := by
      simp only [List.length_take]
      omega
    have h1 := insertCharacter_spec st [c] cl col hcl hcol hlt hle
    have hget1 : ((st.lines.set cl
        (((st.lines.get? cl).getD []).take col ++ [c] ++
         ((st.lines.get? cl).getD []).drop col)).get? cl).getD [] =
        ((st.lines.get? cl).getD []).take col ++ [c] ++
         ((st.lines.get? cl).getD []).drop col := by
      simp [List.get?_eq_getElem?, List.getElem?_set_self hlt]
    have hmain := ih
      { st with
          historyIndex := -1,
          lines := st.lines.set cl
            (((st.lines.get? cl).getD []).take col ++ [c] ++
              ((st.lines.get? cl).getD []).drop col),
          cursorCol := (col : Int) + (([c] : List Char).length : Int) }
      (col + 1) hcl (by simp) (by simpa using hlt)
      (by dsimp only
          rw [hget1]
          simp only [List.length_append, List.length_take, List.length_cons,
            List.length_nil, List.length_drop]
          omega)
    dsimp only [insertString]
    rw [h1, hmain]
    dsimp only
    rw [hget1]
    have hT : (((st.lines.get? cl).getD []).take col ++ [c] ++
        ((st.lines.get? cl).getD []).drop col).take (col + 1) =
        ((st.lines.get? cl).getD []).take col ++ [c] := by
      exact List.take_left'
        (by simp only [List.length_append, htake, List.length_cons,
              List.length_nil])
    have hD : (((st.lines.get? cl).getD []).take col ++ [c] ++
        ((st.lines.get? cl).getD []).drop col).drop (col + 1) =
        ((st.lines.get? cl).getD []).drop col := by
      exact List.drop_left'
        (by simp only [List.length_append, htake, List.length_cons,
              List.length_nil])
    rw [hT, hD, List.set_set]
    simp only [List.isEmpty_cons, List.length_cons, ite_self]
    have hle' : col ≤ (st.lines[cl]?.getD []).length := by simpa using hle
    congr 1 <;> first
      | (simp [hle']; done)
      | (simp [hle']; omega)
      | omega

/-! ## C6: paste policy -/

theorem range_map_get_take (ls : List (List Char)) (n : Nat)
    (h : n ≤ ls.length) :
    (List.range n).map (fun i => (ls.get? i).getD []) = ls.take n := by
  induction n with
  | zero => simp
  | succ m ih =>
    rw [List.range_succ, List.map_append, ih (by omega)]
    have hm : m < ls.length := by omega
    rw [List.take_succ]
    simp only [List.map_cons, List.map_nil, List.get?_eq_getElem?,
      List.getElem?_eq_getElem hm, Option.getD_some, Option.toList_some]

theorem range_map_drop (ls : List (List Char)) (m : Nat) :
    (List.range (ls.length - m)).map (fun k => (ls.get? (m + k)).getD []) =
      ls.drop m := by
  have hlen : (ls.drop m).length = ls.length - m := by simp
  have hfun : ∀ k, ((ls.get? (m + k)).getD []) =
      (((ls.drop m).get? k).getD []) := by
    intro k
    rw [List.get?_eq_getElem?, List.get?_eq_getElem?, List.getElem?_drop]
  calc (List.range (ls.length - m)).map (fun k => (ls.get? (m + k)).getD [])
      = (List.range ((ls.drop m).length)).map
          (fun k => ((ls.drop m).get? k).getD []) := by
        rw [hlen]
        exact List.map_congr_left (fun k _ => hfun k)
    _ = (ls.drop m).take ((ls.drop m).length) :=
        range_map_get_take _ _ (Nat.le_refl _)
    _ = ls.drop m := List.take_length _

theorem markerText_not_empty (i n t : Nat) :
    (markerText i n t).isEmpty = false := by
  unfold markerText
  split <;> rfl

theorem handlePaste_large (st : EditorState) (p : List Char) (cl col : Nat)
    (hcl : st.cursorLine = (cl : Int)) (hcol : st.cursorCol = (col : Int))
    (hlt : cl < st.lines.length)
    (hle : col ≤ ((st.lines.get? cl).getD []).length)
    (hbig : 10 < (splitOnChar '\n' (pasteFiltered st p)).length ∨
      1000 < (pasteFiltered st p).length) :
    (handlePaste st p).1 =
      { st with
          historyIndex := -1,
          pasteCounter := st.pasteCounter + 1,
          pastes := mapSet st.pastes (st.pasteCounter + 1) (pasteFiltered st p),
          lines := st.lines.set cl
            (((st.lines.get? cl).getD []).take col ++
              markerText (st.pasteCounter + 1)
                (splitOnChar '\n' (pasteFiltered st p)).length
                (pasteFiltered st p).length ++
              ((st.lines.get? cl).getD []).drop col),
          cursorCol := (col : Int) +
            ((markerText (st.pasteCounter + 1)
              (splitOnChar '\n' (pasteFiltered st p)).length
              (pasteFiltered st p).length).length : Int) } := by
  have hpf : pasteFiltered { st with historyIndex := -1 } p =
      pasteFiltered st p := rfl
  have hc : (decide (10 < (splitOnChar '\n' (pasteFiltered st p)).length) ||
      decide (1000 < (pasteFiltered st p).length)) = true := by
    rcases hbig with h | h <;> simp [h]
  unfold handlePaste
  dsimp only
  rw [hpf, if_pos hc]
  refine Eq.trans (insertString_splice _ _ cl col ?_ ?_ ?_ ?_) ?_
  · exact hcl
  · exact hcol
  · simpa using hlt
  · simpa using hle
  · simp only [markerText_not_empty, Bool.false_eq_true, if_false]

theorem handlePaste_single (st : EditorState) (p : List Char) (cl col : Nat)
    (hcl : st.cursorLine = (cl : Int)) (hcol : st.cursorCol = (col : Int))
    (hlt : cl < st.lines.length)
    (hle : col ≤ ((st.lines.get? cl).getD []).length)
    (hsmallA : ¬ 10 < (splitOnChar '\n' (pasteFiltered st p)).length)
    (hsmallB : ¬ 1000 < (pasteFiltered st p).length)
    (hone : (splitOnChar '\n' (pasteFiltered st p)).length = 1) :
    (handlePaste st p).1 =
      { st with
          historyIndex := -1,
          lines := st.lines.set cl
            (((st.lines.get? cl).getD []).take col ++ pasteFiltered st p ++
              ((st.lines.get? cl).getD []).drop col),
          cursorCol := (col : Int) + ((pasteFiltered st p).length : Int) } := by
  have hpf : pasteFiltered { st with historyIndex := -1 } p =
      pasteFiltered st p := rfl
  have hc : (decide (10 < (splitOnChar '\n' (pasteFiltered st p)).length) ||
      decide (1000 < (pasteFiltered st p).length)) = false := by
    simp [hsmallA, hsmallB]
  obtain ⟨x, hx⟩ : ∃ x, splitOnChar '\n' (pasteFiltered st p) = [x] := by
    cases hq : splitOnChar '\n' (pasteFiltered st p) with
    | nil => exact absurd hq (splitOnChar_ne_nil _ _)
    | cons a r =>
      cases r with
      | nil => exact ⟨a, rfl⟩
      | cons b r2 => rw [hq] at hone; simp at hone
  have hxf : x = pasteFiltered st p := splitOnChar_singleton '\n' _ x hx
  unfold handlePaste
  dsimp only
  rw [hpf]
  rw [if_neg (by rw [hc]; simp)]
  rw [if_pos hone, hx]
  dsimp only [List.headD]
  rw [hxf]
  refine Eq.trans (insertString_splice _ _ cl col ?_ ?_ ?_ ?_) ?_
  · exact hcl
  · exact hcol
  · simpa using hlt
  · simpa using hle
  · simp only [ite_self]

theorem handlePaste_multi (st : EditorState) (p : List Char) (cl col : Nat)
    (hcl : st.cursorLine = (cl : Int)) (hcol : st.cursorCol = (col : Int))
    (hlt : cl < st.lines.length)
    (hle : col ≤ ((st.lines.get? cl).getD []).length)
    (hsmallA : ¬ 10 < (splitOnChar '\n' (pasteFiltered st p)).length)
    (hsmallB : ¬ 1000 < (pasteFiltered st p).length)
    (hmulti : (splitOnChar '\n' (pasteFiltered st p)).length ≠ 1) :
    (handlePaste st p).1 =
      { st with
          historyIndex := -1,
          lines := st.lines.take cl ++
            [((st.lines.get? cl).getD []).take col ++
              (splitOnChar '\n' (pasteFiltered st p)).headD []] ++
            ((splitOnChar '\n' (pasteFiltered st p)).drop 1).dropLast ++
            [((splitOnChar '\n' (pasteFiltered st p)).getLast?.getD []) ++
              ((st.lines.get? cl).getD []).drop col] ++
            st.lines.drop (cl + 1),
          cursorLine := (cl : Int) +
            (((splitOnChar '\n' (pasteFiltered st p)).length : Int) - 1),
          cursorCol :=
            (((splitOnChar '\n' (pasteFiltered st p)).getLast?.getD []).length : Int) } := by
  have hpf : pasteFiltered { st with historyIndex := -1 } p =
      pasteFiltered st p := rfl
  have hc : (decide (10 < (splitOnChar '\n' (pasteFiltered st p)).length) ||
      decide (1000 < (pasteFiltered st p).length)) = false := by
    simp [hsmallA, hsmallB]
  unfold handlePaste
  dsimp only
  rw [hpf]
  rw [if_neg (by rw [hc]; simp)]
  rw [if_neg hmulti]
  rw [hcl, hcol, getLine_natCast, jsSlice_zero_nat, jsSliceFrom_nat]
  have htn : ((cl : Int)).toNat = cl := by omega
  rw [htn]
  rw [range_map_get_take _ _ (Nat.le_of_lt hlt)]
  have htn2 : ((st.lines.length : Int) - ((cl : Int) + 1)).toNat =
      st.lines.length - (cl + 1) := by omega
  rw [htn2]
  have hfun : (fun (k : Nat) => getLine st.lines ((cl : Int) + 1 + (k : Int))) =
      (fun (k : Nat) => (st.lines.get? (cl + 1 + k)).getD []) := by
    funext k
    rw [show ((cl : Int) + 1 + (k : Int)) = (((cl + 1 + k : Nat) : Int)) by
      push_cast; ring]
    rw [getLine_natCast]
  rw [hfun, range_map_drop st.lines (cl + 1)]

/-- C6: for every editor state (cursor in bounds) and pasted text, the
large-paste branch of `handlePaste` is taken exactly when the cleaned text
has more than 10 lines or more than 1000 characters (observable as the
paste counter increasing to the fresh id `pasteCounter + 1`); in that case
the text is stored in the paste table under the fresh id and the marker
`markerText` — `[paste #<id> +<N> lines]` when the line count fired,
`[paste #<id> <N> chars]` otherwise — is inserted at the cursor; otherwise
the table and counter are untouched and the cleaned lines are spliced
directly into the buffer at the cursor. -/
theorem C6_paste_policy (st : EditorState) (p : List Char) (cl col : Nat)
    (hcl : st.cursorLine = (cl : Int)) (hcol : st.cursorCol = (col : Int))
    (hlt : cl < st.lines.length)
    (hle : col ≤ ((st.lines.get? cl).getD []).length) :
    ((handlePaste st p).1.pasteCounter = st.pasteCounter + 1 ↔
      (10 < (splitOnChar '\n' (pasteFiltered st p)).length ∨
        1000 < (pasteFiltered st p).length)) ∧
    ((10 < (splitOnChar '\n' (pasteFiltered st p)).length ∨
        1000 < (pasteFiltered st p).length) →
      (handlePaste st p).1 =
        { st with
            historyIndex := -1,
            pasteCounter := st.pasteCounter + 1,
            pastes := mapSet st.pastes (st.pasteCounter + 1) (pasteFiltered st p),
            lines := st.lines.set cl
              (((st.lines.get? cl).getD []).take col ++
                markerText (st.pasteCounter + 1)
                  (splitOnChar '\n' (pasteFiltered st p)).length
                  (pasteFiltered st p).length ++
                ((st.lines.get? cl).getD []).drop col),
            cursorCol := (col : Int) +
              ((markerText (st.pasteCounter + 1)
                (splitOnChar '\n' (pasteFiltered st p)).length
                (pasteFiltered st p).length).length : Int) }) ∧
    (¬ (10 < (splitOnChar '\n' (pasteFiltered st p)).length ∨
        1000 < (pasteFiltered st p).length) →
      (splitOnChar '\n' (pasteFiltered st p)).length = 1 →
      (handlePaste st p).1 =
        { st with
            historyIndex := -1,
            lines := st.lines.set cl
              (((st.lines.get? cl).getD []).take col ++ pasteFiltered st p ++
                ((st.lines.get? cl).getD []).drop col),
            cursorCol := (col : Int) + ((pasteFiltered st p).length : Int) }) ∧
    (¬ (10 < (splitOnChar '\n' (pasteFiltered st p)).length ∨
        1000 < (pasteFiltered st p).length) →
      (splitOnChar '\n' (pasteFiltered st p)).length ≠ 1 →
      (handlePaste st p).1 =
        { st with
            historyIndex := -1,
            lines := st.lines.take cl ++
              [((st.lines.get? cl).getD []).take col ++
                (splitOnChar '\n' (pasteFiltered st p)).headD []] ++
              ((splitOnChar '\n' (pasteFiltered st p)).drop 1).dropLast ++
              [((splitOnChar '\n' (pasteFiltered st p)).getLast?.getD []) ++
                ((st.lines.get? cl).getD []).drop col] ++
              st.lines.drop (cl + 1),
            cursorLine := (cl : Int) +
              (((splitOnChar '\n' (pasteFiltered st p)).length : Int) - 1),
            cursorCol :=
              (((splitOnChar '\n' (pasteFiltered st p)).getLast?.getD
                []).length : Int) }) := by
  by_cases hbig : 10 < (splitOnChar '\n' (pasteFiltered st p)).length ∨
      1000 < (pasteFiltered st p).length
  · refine ⟨?_, fun _ => handlePaste_large st p cl col hcl hcol hlt hle hbig,
      fun hn => absurd hbig hn, fun hn => absurd hbig hn⟩
    rw [handlePaste_large st p cl col hcl hcol hlt hle hbig]
    exact ⟨fun _ => hbig, fun _ => rfl⟩
  · push_neg at hbig
    obtain ⟨hsmallA, hsmallB⟩ :
        (¬ 10 < (splitOnChar '\n' (pasteFiltered st p)).length) ∧
        (¬ 1000 < (pasteFiltered st p).length) := by omega
    refine ⟨?_, fun hb => absurd hb (by omega), fun _ => ?_, fun _ => ?_⟩
    · by_cases hone : (splitOnChar '\n' (pasteFiltered st p)).length = 1
      · rw [handlePaste_single st p cl col hcl hcol hlt hle hsmallA hsmallB hone]
        constructor
        · intro hco
          exact absurd hco (by simp)
        · intro hb
          exact absurd hb (by omega)
      · rw [handlePaste_multi st p cl col hcl hcol hlt hle hsmallA hsmallB hone]
        constructor
        · intro hco
          exact absurd hco (by simp)
        · intro hb
          exact absurd hb (by omega)
    · intro hone
      exact handlePaste_single st p cl col hcl hcol hlt hle hsmallA hsmallB hone
    · intro hone
      exact handlePaste_multi st p cl col hcl hcol hlt hle hsmallA hsmallB hone

set_option maxRecDepth 40000 in
/-- C6 witness: the paste policy at a concrete twelve-line paste into the
initial editor. -/
theorem C6_paste_policy_witness :
    (handlePaste initEditor
        ((List.replicate 11 ('z' :: ['\n'])).flatten)).1.pasteCounter =
      initEditor.pasteCounter + 1 := by
  have h := C6_paste_policy initEditor
    ((List.replicate 11 ('z' :: ['\n'])).flatten) 0 0 rfl rfl (by decide)
    (by decide)
  exact h.1.mpr (by decide)

/-! ## C1: submit semantics -/

theorem natDigits_ne_nil (n : Nat) : natDigits n ≠ [] := by
  unfold natDigits
  split <;> simp

theorem digitChar_isDigit (m : Nat) (h : m < 10) :
    (Char.ofNat (48 + m)).isDigit = true := by
  interval_cases m <;> decide

theorem natDigits_all_digits (n : Nat) :
    ∀ c ∈ natDigits n, c.isDigit = true := by
  induction n using Nat.strong_induction_on with
  | _ n ih =>
    intro c hc
    unfold natDigits at hc
    split at hc
    · rename_i h
      simp only [List.mem_singleton] at hc
      subst hc
      exact digitChar_isDigit n h
    · rename_i h
      rcases List.mem_append.mp hc with hc | hc
      · exact ih (n / 10) (Nat.div_lt_self (by omega) (by omega)) c hc
      · simp only [List.mem_singleton] at hc
        subst hc
        exact digitChar_isDigit (n % 10) (by omega)

theorem parseDigitsRun_digits_append (ds rest : List Char)
    (h1 : ∀ c ∈ ds, c.isDigit = true)
    (h2 : ∀ c ∈ rest.take 1, c.isDigit = false) :
    parseDigitsRun (ds ++ rest) = (ds, rest) := by
  induction ds with
  | nil =>
    cases rest with
    | nil => rfl
    | cons c t =>
      simp only [List.nil_append, parseDigitsRun]
      rw [if_neg (by simpa using h2 c (by simp))]
  | cons c t ih =>
    simp only [List.cons_append, parseDigitsRun]
    rw [if_pos (h1 c (by simp))]
    simp only [List.append_eq]
    rw [ih (fun x hx => h1 x (by simp [hx]))]

theorem jsTrimEnd_append_not (xs : List Char) (c : Char)
    (hc : isTrimWs c = false) : jsTrimEnd (xs ++ [c]) = xs ++ [c] := by
  unfold jsTrimEnd
  rw [List.reverse_append]
  simp [List.dropWhile, hc]

theorem vw_append (a b : List Char) :
    visibleWidth (a ++ b) = visibleWidth a + visibleWidth b := by
  simp [visibleWidth]

theorem charWidth_le_two (c : Char) : charWidth c ≤ 2 := by
  unfold charWidth
  split
  · omega
  · split <;> omega

theorem vw_all_combining (l : List Char) (h : l.all isCombiningChar = true) :
    visibleWidth l = 0 := by
  induction l with
  | nil => rfl
  | cons c t ih =>
    simp only [List.all_cons, Bool.and_eq_true] at h
    simp only [visibleWidth, List.map_cons, List.sum_cons]
    have hc : charWidth c = 0 := by
      unfold charWidth
      rw [if_pos h.1]
    rw [hc]
    simpa [visibleWidth] using ih h.2

theorem vw_eq_length_of_narrow (l : List Char) (h : ∀ c ∈ l, charWidth c = 1) :
    visibleWidth l = l.length := by
  induction l with
  | nil => rfl
  | cons c t ih =>
    simp only [visibleWidth, List.map_cons, List.sum_cons, List.length_cons]
    rw [h c (by simp)]
    have := ih (fun x hx => h x (by simp [hx]))
    simp only [visibleWidth] at this
    omega

theorem vw_replicate_one (n : Nat) (c : Char) (h : charWidth c = 1) :
    visibleWidth (List.replicate n c) = n := by
  rw [vw_eq_length_of_narrow]
  · simp
  · intro x hx
    rw [List.eq_of_mem_replicate hx]
    exact h

theorem segGo_shape (t : List Char) : ∀ cur, ∀ g ∈ segGo cur t,
    (∃ cs, g = cur.reverse ++ cs ∧ cs.all isCombiningChar = true) ∨
    (∃ c cs, g = c :: cs ∧ cs.all isCombiningChar = true) := by
  induction t with
  | nil =>
    intro cur g hg
    simp only [segGo, List.mem_singleton] at hg
    exact Or.inl ⟨[], by simp [hg]⟩
  | cons c t ih =>
    intro cur g hg
    simp only [segGo] at hg
    split at hg
    · rename_i hc
      rcases ih (c :: cur) g hg with ⟨cs, hcs, hall⟩ | h
      · refine Or.inl ⟨c :: cs, ?_, by simp [hall, hc]⟩
        simp [hcs]
      · exact Or.inr h
    · rename_i hc
      rcases List.mem_cons.mp hg with hg | hg
      · exact Or.inl ⟨[], by simp [hg]⟩
      · rcases ih [c] g hg with ⟨cs, hcs, hall⟩ | h
        · exact Or.inr ⟨c, cs, by simpa using hcs, hall⟩
        · exact Or.inr h

theorem grapheme_vw_le_two (l : List Char) :
    ∀ g ∈ segmentGraphemes l, visibleWidth g ≤ 2 := by
  cases l with
  | nil => intro g hg; simp [segmentGraphemes] at hg
  | cons c t =>
    intro g hg
    simp only [segmentGraphemes] at hg
    rcases segGo_shape t [c] g hg with ⟨cs, hcs, hall⟩ | ⟨d, cs, hcs, hall⟩
    · subst hcs
      rw [vw_append, vw_all_combining cs hall]
      simpa [visibleWidth] using charWidth_le_two c
    · subst hcs
      have : visibleWidth (d :: cs) = charWidth d + visibleWidth cs := by
        simp [visibleWidth]
      rw [this, vw_all_combining cs hall]
      simpa using charWidth_le_two d

theorem segGo_flatten (t : List Char) : ∀ cur,
    (segGo cur t).flatten = cur.reverse ++ t := by
  induction t with
  | nil => intro cur; simp [segGo]
  | cons c t ih =>
    intro cur
    simp only [segGo]
    split
    · rw [ih (c :: cur)]
      simp
    · simp only [List.flatten_cons, ih [c]]
      simp

theorem seg_flatten (l : List Char) : (segmentGraphemes l).flatten = l := by
  cases l with
  | nil => rfl
  | cons c t =>
    simp only [segmentGraphemes]
    rw [segGo_flatten t [c]]
    rfl

theorem segGo_ne_nil (t : List Char) (cur : List Char) : segGo cur t ≠ [] := by
  induction t generalizing cur with
  | nil => simp [segGo]
  | cons c t ih =>
    simp only [segGo]
    split
    · exact ih (c :: cur)
    · simp

theorem jsTrimEnd_prefix (l : List Char) :
    ∃ s, l = jsTrimEnd l ++ s := by
  refine ⟨(l.reverse.takeWhile isTrimWs).reverse, ?_⟩
  unfold jsTrimEnd
  rw [← List.reverse_append, List.takeWhile_append_dropWhile, List.reverse_reverse]

theorem vw_jsTrimEnd_le (l : List Char) :
    visibleWidth (jsTrimEnd l) ≤ visibleWidth l := by
  obtain ⟨s, hs⟩ := jsTrimEnd_prefix l
  conv_rhs => rw [hs]
  rw [vw_append]
  omega

theorem jsSlice_zero_eq_take (l : List Char) (b : Int) :
    jsSlice l 0 b = l.take (jsIdx l.length b) := by
  unfold jsSlice
  rw [jsIdx_zero, List.drop_zero]

theorem jsSliceFrom_eq_drop (l : List Char) (a : Int) :
    jsSliceFrom l a = l.drop (jsIdx l.length a) := by
  unfold jsSliceFrom jsSlice
  rw [jsIdx_natCast, Nat.min_self, List.take_length]

theorem jsSlice_complement (l : List Char) (cp : Int) :
    jsSlice l 0 cp ++ jsSliceFrom l cp = l := by
  rw [jsSlice_zero_eq_take, jsSliceFrom_eq_drop, List.take_append_drop]

theorem seg_head_decomp (l : List Char) (h : l ≠ []) :
    ((segmentGraphemes l).head?.getD []) ++
      l.drop ((segmentGraphemes l).head?.getD []).length = l ∧
    ((segmentGraphemes l).head?.getD []).length ≤ l.length := by
  cases hseg : segmentGraphemes l with
  | nil =>
    exfalso
    cases l with
    | nil => exact h rfl
    | cons c t =>
      simp only [segmentGraphemes] at hseg
      exact segGo_ne_nil t [c] hseg
  | cons g gs =>
    have hfl : g ++ gs.flatten = l := by
      have := seg_flatten l
      rw [hseg] at this
      simpa using this
    constructor
    · simp only [List.head?_cons, Option.getD_some]
      rw [← hfl, List.drop_left]
    · simp only [List.head?_cons, Option.getD_some]
      rw [← hfl]
      simp

theorem breakLong_bound (w : Nat) (gs : List (List Char)) :
    ∀ tc tcW tcStart idx,
    (∀ g ∈ gs, visibleWidth g ≤ w) → tcW = visibleWidth tc → tcW ≤ w →
    (∀ c ∈ (breakLong w gs tc tcW tcStart idx).1, visibleWidth c.text ≤ w) ∧
    (breakLong w gs tc tcW tcStart idx).2.2.1 =
      visibleWidth (breakLong w gs tc tcW tcStart idx).2.1 ∧
    (breakLong w gs tc tcW tcStart idx).2.2.1 ≤ w := by
  induction gs with
  | nil =>
    intro tc tcW tcStart idx hgs hvw hle
    refine ⟨?_, hvw, hle⟩
    intro c hc
    simp [breakLong] at hc
  | cons g gs ih =>
    intro tc tcW tcStart idx hgs hvw hle
    have hg : visibleWidth g ≤ w := hgs g (by simp)
    have hgs' : ∀ x ∈ gs, visibleWidth x ≤ w :=
      fun x hx => hgs x (by simp [hx])
    simp only [breakLong]
    split
    · rename_i hcond
      simp only [Bool.and_eq_true, decide_eq_true_iff, Bool.not_eq_eq_eq_not,
        Bool.not_true, List.isEmpty_eq_false] at hcond
      have hr := ih g (visibleWidth g) idx (idx + g.length) hgs' rfl hg
      refine ⟨?_, hr.2.1, hr.2.2⟩
      intro c hc
      rcases List.mem_cons.mp hc with hc | hc
      · subst hc
        exact hvw ▸ hle
      · exact hr.1 c hc
    · rename_i hcond
      have hsum : tcW + visibleWidth g ≤ w := by
        rcases Bool.and_eq_false_iff.mp (Bool.eq_false_iff.mpr hcond) with h | h
        · simp only [decide_eq_false_iff_not, not_lt] at h
          exact h
        · simp only [Bool.not_eq_eq_eq_not, Bool.not_false,
            List.isEmpty_iff] at h
          subst h
          simp only [visibleWidth, List.map_nil, List.sum_nil] at hvw
          omega
      exact ih (tc ++ g) (tcW + visibleWidth g) tcStart (idx + g.length) hgs'
        (by rw [hvw, vw_append]) hsum

theorem buildChunks_bound (w len : Nat) (toks : List WrapToken) :
    ∀ chunks cur curW curStart atLS,
    (∀ c ∈ chunks, visibleWidth c.text ≤ w) →
    curW = visibleWidth cur → curW ≤ w → 2 ≤ w →
    ∀ c ∈ buildChunks w len toks chunks cur curW curStart atLS,
      visibleWidth c.text ≤ w := by
  induction toks with
  | nil =>
    intro chunks cur curW curStart atLS hch hvw hle h2 c hc
    simp only [buildChunks] at hc
    split at hc
    · exact hch c hc
    · rcases List.mem_append.mp hc with hc | hc
      · exact hch c hc
      · simp only [List.mem_singleton] at hc
        subst hc
        simpa using hvw ▸ hle
  | cons tok rest ih =>
    intro chunks cur curW curStart atLS hch hvw hle h2 c hc
    simp only [buildChunks] at hc
    split at hc
    · exact ih chunks cur curW tok.endIndex atLS hch hvw hle h2 c hc
    · split at hc
      · rename_i htw
        have hbr := breakLong_bound w (segmentGraphemes tok.text) [] 0
          tok.startIndex tok.startIndex
          (fun g hg => le_trans (grapheme_vw_le_two tok.text g hg) h2) rfl
          (by omega)
        have hch1 : ∀ x ∈ (if cur.isEmpty then chunks
            else chunks ++ [⟨cur, curStart, tok.startIndex⟩]),
            visibleWidth x.text ≤ w := by
          intro x hx
          split at hx
          · exact hch x hx
          · rcases List.mem_append.mp hx with hx | hx
            · exact hch x hx
            · simp only [List.mem_singleton] at hx
              subst hx
              simpa using hvw ▸ hle
        have hch2 : ∀ x ∈ ((if cur.isEmpty then chunks
            else chunks ++ [⟨cur, curStart, tok.startIndex⟩]) ++
            (breakLong w (segmentGraphemes tok.text) [] 0 tok.startIndex
              tok.startIndex).1),
            visibleWidth x.text ≤ w := by
          intro x hx
          rcases List.mem_append.mp hx with hx | hx
          · exact hch1 x hx
          · exact hbr.1 x hx
        split at hc
        · rename_i hemp
          refine ih _ [] (if cur.isEmpty then curW else 0) _ false hch2 ?_ ?_
            h2 c hc
          · split
            · rename_i hce
              rw [hvw, List.isEmpty_iff.mp hce]
            · rfl
          · split
            · exact hle
            · omega
        · rename_i hemp
          exact ih _ _ _ _ false hch2 hbr.2.1 hbr.2.2 h2 c hc
      · split at hc
        · rename_i htw hover
          have htrim : visibleWidth (jsTrimEnd cur) ≤ w := by
            calc visibleWidth (jsTrimEnd cur) ≤ visibleWidth cur :=
                  vw_jsTrimEnd_le cur
            _ ≤ w := hvw ▸ hle
          have hch1 : ∀ x ∈ (if !(jsTrimEnd cur).isEmpty || chunks.isEmpty
              then chunks ++ [⟨jsTrimEnd cur, curStart, curStart + cur.length⟩]
              else chunks), visibleWidth x.text ≤ w := by
            intro x hx
            split at hx
            · rcases List.mem_append.mp hx with hx | hx
              · exact hch x hx
              · simp only [List.mem_singleton] at hx
                subst hx
                exact htrim
            · exact hch x hx
          split at hc
          · exact ih _ [] 0 tok.endIndex true hch1 rfl (by omega) h2 c hc
          · have htwle : visibleWidth tok.text ≤ w := by
              rename_i h1 h2x
              simp only [not_lt] at htw
              exact htw
            exact ih _ tok.text _ tok.startIndex false hch1 rfl htwle h2 c hc
        · rename_i htw hover
          have hsum : curW + visibleWidth tok.text ≤ w := by
            simp only [not_lt] at hover
            exact hover
          exact ih _ (cur ++ tok.text) _ curStart false hch
            (by rw [hvw, vw_append]) hsum h2 c hc

theorem wordWrapLine_bound (line : List Char) (w : Nat) (h2 : 2 ≤ w) :
    ∀ c ∈ wordWrapLine line w, visibleWidth c.text ≤ w := by
  intro c hc
  unfold wordWrapLine at hc
  split at hc
  · simp only [List.mem_singleton] at hc
    subst hc
    simp [visibleWidth]
  · split at hc
    · rename_i hfit
      simp only [List.mem_singleton] at hc
      subst hc
      exact hfit
    · simp only [] at hc
      split at hc
      · simp only [List.mem_singleton] at hc
        subst hc
        simp [visibleWidth]
      · exact buildChunks_bound w line.length (tokenizeLine line) [] [] 0 0
          true (by intro x hx; simp at hx) rfl (by omega) h2 c hc

theorem layoutWrapGo_text (st : EditorState) (b : Bool) (chs : List TextChunk) :
    ∀ ll ∈ layoutWrapGo st b chs, ∃ ch ∈ chs, ll.text = ch.text := by
  induction chs with
  | nil => intro ll hll; simp [layoutWrapGo] at hll
  | cons ch rest ih =>
    intro ll hll
    simp only [layoutWrapGo] at hll
    rcases List.mem_cons.mp hll with hll | hll
    · refine ⟨ch, by simp, ?_⟩
      subst hll
      split <;> first
        | rfl
        | (split <;> rfl)
    · obtain ⟨ch', hch', ht⟩ := ih ll hll
      exact ⟨ch', by simp [hch'], ht⟩

theorem layoutLinesGo_bound (st : EditorState) (cw : Nat) (h2 : 2 ≤ cw) :
    ∀ (lines : List (List Char)) (i : Nat),
    ∀ ll ∈ layoutLinesGo st cw i lines, visibleWidth ll.text ≤ cw := by
  intro lines
  induction lines with
  | nil => intro i ll hll; simp [layoutLinesGo] at hll
  | cons line rest ih =>
    intro i ll hll
    simp only [layoutLinesGo] at hll
    rcases List.mem_append.mp hll with hll | hll
    · split at hll
      · rename_i hfit
        split at hll <;>
          (simp only [List.mem_singleton] at hll; subst hll; exact hfit)
      · rename_i hfit
        obtain ⟨ch, hch, ht⟩ := layoutWrapGo_text st _ _ ll hll
        rw [ht]
        exact wordWrapLine_bound line cw h2 ch hch
    · exact ih (i + 1) ll hll

theorem layoutText_bound (st : EditorState) (cw : Nat) (h2 : 2 ≤ cw) :
    ∀ ll ∈ layoutText st cw, visibleWidth ll.text ≤ cw := by
  intro ll hll
  unfold layoutText at hll
  split at hll
  · simp only [List.mem_singleton] at hll
    subst hll
    simp [visibleWidth]
  · exact layoutLinesGo_bound st cw h2 st.lines 0 ll hll

theorem dropLast_flatten_getLast (gs : List (List Char)) (h : gs ≠ []) :
    gs.dropLast.flatten ++ (gs.getLast?.getD []) = gs.flatten := by
  conv_rhs => rw [← List.dropLast_append_getLast h]
  rw [List.flatten_append, List.getLast?_eq_getLast gs h]
  simp

theorem digitChar_width (m : Nat) (h : m < 10) :
    charWidth (Char.ofNat (48 + m)) = 1 := by
  interval_cases m <;> decide

theorem natDigits_narrow (n : Nat) : ∀ c ∈ natDigits n, charWidth c = 1 := by
  induction n using Nat.strong_induction_on with
  | _ n ih =>
    intro c hc
    unfold natDigits at hc
    split at hc
    · rename_i h
      simp only [List.mem_singleton] at hc
      subst hc
      exact digitChar_width n h
    · rename_i h
      rcases List.mem_append.mp hc with hc | hc
      · exact ih (n / 10) (Nat.div_lt_self (by omega) (by omega)) c hc
      · simp only [List.mem_singleton] at hc
        subst hc
        exact digitChar_width (n % 10) (by omega)

theorem natDigits_vw (n : Nat) :
    visibleWidth (natDigits n) = (natDigits n).length :=
  vw_eq_length_of_narrow _ (natDigits_narrow n)

theorem natDigits_length_mono (n : Nat) : ∀ m, m ≤ n →
    (natDigits m).length ≤ (natDigits n).length := by
  induction n using Nat.strong_induction_on with
  | _ n ih =>
    intro m hmn
    by_cases hm : m < 10
    · have h1 : (natDigits m).length = 1 := by
        unfold natDigits
        rw [dif_pos hm]
        rfl
      have h2 : 1 ≤ (natDigits n).length :=
        List.length_pos.mpr (natDigits_ne_nil n)
      omega
    · have hn : ¬ n < 10 := by omega
      have hme : (natDigits m).length = (natDigits (m / 10)).length + 1 := by
        conv_lhs => rw [show natDigits m =
          natDigits (m / 10) ++ [Char.ofNat (48 + m % 10)] from by
            conv_lhs => rw [natDigits]
            rw [dif_neg hm]]
        simp
      have hne : (natDigits n).length = (natDigits (n / 10)).length + 1 := by
        conv_lhs => rw [show natDigits n =
          natDigits (n / 10) ++ [Char.ofNat (48 + n % 10)] from by
            conv_lhs => rw [natDigits]
            rw [dif_neg hn]]
        simp
      have := ih (n / 10) (Nat.div_lt_self (by omega) (by omega)) (m / 10)
        (Nat.div_le_div_right hmn)
      omega

theorem jsSlice_one_negone (l : List Char) (h : 2 ≤ l.length) :
    jsSlice l 1 (-1) = (l.take (l.length - 1)).drop 1 := by
  unfold jsSlice
  have ha : jsIdx l.length 1 = 1 := by
    unfold jsIdx
    rw [if_neg (by omega)]
    omega
  have hb : jsIdx l.length (-1) = l.length - 1 := by
    unfold jsIdx
    rw [if_pos (by omega)]
    omega
  rw [ha, hb]

theorem formatBorder_width (style : EditorBorderStyle) (text : List Char)
    (isTop : Bool) (hl : 2 ≤ text.length) (hn : ∀ c ∈ text, charWidth c = 1) :
    visibleWidth (formatBorder style text isTop) = text.length := by
  have hmid_vw : visibleWidth (jsSlice text 1 (-1)) = text.length - 2 := by
    rw [jsSlice_one_negone text hl]
    rw [vw_eq_length_of_narrow]
    · simp only [List.length_drop, List.length_take]
      omega
    · intro c hc
      exact hn c (List.mem_of_mem_take (List.mem_of_mem_drop hc))
  have htext_vw : visibleWidth text = text.length :=
    vw_eq_length_of_narrow text hn
  unfold formatBorder
  rw [if_neg (by omega)]
  rcases style with _ | _ | _ <;> rcases isTop with _ | _ <;>
    simp only [List.isEmpty_nil, List.isEmpty_cons, Bool.and_self,
      Bool.and_false, Bool.false_and, Bool.and_true, reduceIte] <;>
    first
      | (rw [htext_vw])
      | (rw [if_neg (Bool.false_ne_true), vw_append, vw_append, hmid_vw]
         simp [visibleWidth, charWidth, isCombiningChar, isWideChar]
         omega)

theorem renderLayoutLine_width (padX cw : Nat) (ll : LayoutLine)
    (h : visibleWidth ll.text ≤ cw) :
    visibleWidth (renderLayoutLine padX cw ll) = padX + cw + padX := by
  have hpad : ∀ (x : List Char) (n : Nat), visibleWidth x = n → n ≤ cw →
      visibleWidth (List.replicate padX ' ' ++ x ++
        List.replicate (cw - n) ' ' ++ List.replicate padX ' ') =
      padX + cw + padX := by
    intro x n hx hn
    rw [vw_append, vw_append, vw_append, hx,
      vw_replicate_one padX ' ' (by decide),
      vw_replicate_one (cw - n) ' ' (by decide)]
    omega
  simp only [renderLayoutLine]
  by_cases hc : ll.hasCursor
  · rw [if_pos hc]
    cases hcp : ll.cursorPos with
    | none => exact hpad _ _ rfl h
    | some cp =>
      dsimp only
      by_cases hne : (jsSliceFrom ll.text cp).isEmpty
      · rw [if_neg (by simp [hne])]
        have hB : jsSlice ll.text 0 cp = ll.text := by
          have hcomp := jsSlice_complement ll.text cp
          rw [List.isEmpty_iff.mp hne, List.append_nil] at hcomp
          exact hcomp
        by_cases hlt : visibleWidth ll.text < cw
        · rw [if_pos hlt]
          refine hpad _ _ ?_ (by omega)
          rw [vw_append, hB]
          simp [visibleWidth, charWidth, isCombiningChar, isWideChar]
        · rw [if_neg hlt]
          by_cases hbg : (segmentGraphemes (jsSlice ll.text 0 cp)).isEmpty
          · rw [if_neg (by simp [hbg])]
            exact hpad _ _ rfl h
          · rw [if_pos (by simp [hbg])]
            refine hpad _ _ ?_ h
            rw [dropLast_flatten_getLast _ (by
              simpa [List.isEmpty_iff] using hbg)]
            rw [seg_flatten, hB]
      · rw [if_pos (by simp [hne])]
        dsimp only
        have hA : jsSliceFrom ll.text cp ≠ [] := by
          simpa [List.isEmpty_iff] using hne
        have hd := seg_head_decomp (jsSliceFrom ll.text cp) hA
        refine hpad _ _ ?_ h
        rw [jsSliceFrom_nat]
        have e1 : visibleWidth (jsSlice ll.text 0 cp ++
            (((segmentGraphemes (jsSliceFrom ll.text cp)).head?).getD []) ++
            (jsSliceFrom ll.text cp).drop
              (((segmentGraphemes (jsSliceFrom ll.text cp)).head?).getD
                []).length) =
            visibleWidth (jsSlice ll.text 0 cp) +
            (visibleWidth
              (((segmentGraphemes (jsSliceFrom ll.text cp)).head?).getD []) +
             visibleWidth ((jsSliceFrom ll.text cp).drop
              (((segmentGraphemes (jsSliceFrom ll.text cp)).head?).getD
                []).length)) := by
          rw [vw_append, vw_append]
          omega
        have e2 : visibleWidth
            (((segmentGraphemes (jsSliceFrom ll.text cp)).head?).getD []) +
            visibleWidth ((jsSliceFrom ll.text cp).drop
              (((segmentGraphemes (jsSliceFrom ll.text cp)).head?).getD
                []).length) = visibleWidth (jsSliceFrom ll.text cp) := by
          rw [← vw_append, hd.1]
        have e3 : visibleWidth (jsSlice ll.text 0 cp) +
            visibleWidth (jsSliceFrom ll.text cp) = visibleWidth ll.text := by
          rw [← vw_append, jsSlice_complement]
        omega
  · rw [if_neg hc]
    exact hpad _ _ rfl h

theorem intDecimal_pos (n : Int) (hn : 0 < n) :
    intDecimal n = natDigits n.toNat := by
  unfold intDecimal
  rw [if_neg (by omega)]

theorem indicator_facts (pre : List Char) (n : Int) (post : List Char)
    (hpre : ∀ c ∈ pre, charWidth c = 1) (hpost : ∀ c ∈ post, charWidth c = 1)
    (hn : 0 < n) :
    (∀ c ∈ pre ++ intDecimal n ++ post, charWidth c = 1) ∧
    visibleWidth (pre ++ intDecimal n ++ post) =
      pre.length + (natDigits n.toNat).length + post.length := by
  have hall : ∀ c ∈ pre ++ intDecimal n ++ post, charWidth c = 1 := by
    intro c hc
    rw [intDecimal_pos n hn] at hc
    rcases List.mem_append.mp hc with hc | hc
    · rcases List.mem_append.mp hc with hc | hc
      · exact hpre c hc
      · exact natDigits_narrow _ c hc
    · exact hpost c hc
  refine ⟨hall, ?_⟩
  rw [vw_eq_length_of_narrow _ hall, intDecimal_pos n hn]
  simp
  omega


theorem plain_border_width (style : EditorBorderStyle) (isTop : Bool)
    (W : Nat) (hW : 2 ≤ W) :
    visibleWidth (formatBorder style (List.replicate W '─') isTop) = W := by
  have := formatBorder_width style (List.replicate W '─') isTop
    (by simpa using hW)
    (by
      intro c hc
      rw [List.eq_of_mem_replicate hc]
      decide)
  simpa using this

theorem indicator_border_width (style : EditorBorderStyle) (isTop : Bool)
    (W : Nat) (pre post : List Char) (n : Int)
    (hpre : ∀ c ∈ pre, charWidth c = 1) (hpost : ∀ c ∈ post, charWidth c = 1)
    (hn : 0 < n)
    (hlen : pre.length + (natDigits n.toNat).length + post.length ≤ W)
    (hW : 2 ≤ W) :
    visibleWidth (formatBorder style
      ((pre ++ intDecimal n ++ post) ++
        List.replicate
          ((W : Int) -
            (visibleWidth (pre ++ intDecimal n ++ post) : Int)).toNat '─')
      isTop) = W := by
  obtain ⟨hnarrow, hvw⟩ := indicator_facts pre n post hpre hpost hn
  have hilen : (pre ++ intDecimal n ++ post).length =
      pre.length + (natDigits n.toNat).length + post.length := by
    rw [intDecimal_pos n hn]
    simp
    omega
  have hrep : ((W : Int) -
      (visibleWidth (pre ++ intDecimal n ++ post) : Int)).toNat =
      W - (pre.length + (natDigits n.toNat).length + post.length) := by
    rw [hvw]
    omega
  have hblen : ((pre ++ intDecimal n ++ post) ++
      List.replicate
        ((W : Int) -
          (visibleWidth (pre ++ intDecimal n ++ post) : Int)).toNat '─').length
      = W := by
    rw [List.length_append, hilen, hrep, List.length_replicate]
    omega
  have hbnarrow : ∀ c ∈ (pre ++ intDecimal n ++ post) ++
      List.replicate
        ((W : Int) -
          (visibleWidth (pre ++ intDecimal n ++ post) : Int)).toNat '─',
      charWidth c = 1 := by
    intro c hc
    rcases List.mem_append.mp hc with hc | hc
    · exact hnarrow c hc
    · rw [List.eq_of_mem_replicate hc]
      decide
  rw [formatBorder_width style _ isTop (by omega) hbnarrow, hblen]

theorem renderSo_nonneg (st : EditorState) (W : Nat) :
    0 ≤ renderSo st W := by
  unfold renderSo
  exact le_max_left 0 _

theorem renderSo_le (st : EditorState) (W : Nat) :
    renderSo st W ≤ ((renderLayoutLs st W).length : Int) := by
  unfold renderSo
  dsimp only
  omega

theorem renderLinesBelow_le (st : EditorState) (W : Nat) :
    renderLinesBelow st W ≤ ((renderLayoutLs st W).length : Int) := by
  unfold renderLinesBelow
  have := renderSo_nonneg st W
  omega

theorem renderTopBorder_width (st : EditorState) (W : Nat) (hW : 2 ≤ W)
    (hind : 12 + (natDigits (renderLayoutLs st W).length).length ≤ W) :
    visibleWidth (renderTopBorder st W) = W := by
  unfold renderTopBorder
  dsimp only
  rw [if_pos (show 1 < W by omega)]
  by_cases hso : 0 < renderSo st W
  · rw [if_pos hso]
    have hsoL : (renderSo st W).toNat ≤ (renderLayoutLs st W).length := by
      have := renderSo_le st W
      omega
    have hd := natDigits_length_mono (renderLayoutLs st W).length
      (renderSo st W).toNat hsoL
    exact indicator_border_width st.borderStyle true W "─── ↑ ".toList
      " more ".toList (renderSo st W) (by decide) (by decide) hso
      (by simp; omega) hW
  · rw [if_neg hso]
    exact plain_border_width st.borderStyle true W hW

theorem renderBottomBorder_width (st : EditorState) (W : Nat) (hW : 2 ≤ W)
    (hind : 12 + (natDigits (renderLayoutLs st W).length).length ≤ W) :
    visibleWidth (renderBottomBorder st W) = W := by
  unfold renderBottomBorder
  dsimp only
  rw [if_pos (show 1 < W by omega)]
  by_cases hlb : 0 < renderLinesBelow st W
  · rw [if_pos hlb]
    have hlbL : (renderLinesBelow st W).toNat ≤
        (renderLayoutLs st W).length := by
      have := renderLinesBelow_le st W
      omega
    have hd := natDigits_length_mono (renderLayoutLs st W).length
      (renderLinesBelow st W).toNat hlbL
    exact indicator_border_width st.borderStyle false W "─── ↓ ".toList
      " more ".toList (renderLinesBelow st W) (by decide) (by decide) hlb
      (by simp; omega) hW
  · rw [if_neg hlb]
    exact plain_border_width st.borderStyle false W hW

theorem jsSliceList_subset {α : Type} (l : List α) (a b : Int) :
    ∀ x ∈ jsSliceList l a b, x ∈ l := by
  intro x hx
  unfold jsSliceList at hx
  exact List.mem_of_mem_take (List.mem_of_mem_drop hx)

/-- C4 amended: for every editor state and width `W` large enough that the
padded content area is at least two columns wide
(`2 + 2*min(paddingX, (W-1)/2) <= W`) and that the widest possible scroll
indicator fits (`12 + digits(layout row count) <= W`), every row returned
by `render(W)` — top border, content rows and bottom border, including the
scroll-indicator variants — has stripped-ANSI visible width exactly `W`. -/
theorem C4_render_width_amended (st : EditorState) (W : Nat)
    (hpad : 2 + 2 * min st.paddingX ((W - 1) / 2) ≤ W)
    (hind : 12 + (natDigits (renderLayoutLs st W).length).length ≤ W) :
    ∀ row ∈ (render st W).2, visibleWidth row = W := by
  have hkey : 2 ≤ renderContentWidth st W ∧
      renderPaddingX st W + renderContentWidth st W +
        renderPaddingX st W = W := by
    unfold renderContentWidth renderPaddingX
    omega
  have hW2 : 2 ≤ W := by omega
  intro row hrow
  simp only [render] at hrow
  rcases List.mem_append.mp hrow with hrow | hrow
  · rcases List.mem_append.mp hrow with hrow | hrow
    · simp only [List.mem_singleton] at hrow
      subst hrow
      exact renderTopBorder_width st W hW2 hind
    · obtain ⟨ll, hll, heq⟩ := List.mem_map.mp hrow
      subst heq
      have hmem : ll ∈ renderLayoutLs st W := by
        unfold renderVisible at hll
        exact jsSliceList_subset _ _ _ ll hll
      have hb : visibleWidth ll.text ≤ renderContentWidth st W := by
        unfold renderLayoutLs at hmem
        exact layoutText_bound _ _ hkey.1 ll hmem
      rw [renderLayoutLine_width _ _ ll hb, hkey.2]
  · simp only [List.mem_singleton] at hrow
    subst hrow
    exact renderBottomBorder_width st W hW2 hind

unseal natDigits in
set_option maxRecDepth 40000 in
/-- C4 counterexample: at width `W = 1` with ten buffer lines and the
cursor on the last one, the visible window scrolls (`scrollOffset = 3`)
and the top border becomes the scroll indicator `─── ↑ 3 more `, a row of
visible width 13 ≠ 1; the claim fails for small widths. -/
theorem C4_render_width_counterexample :
    ∃ row ∈ (render { initEditor with
        lines := List.replicate 10 ['a'], cursorLine := 9 } 1).2,
      visibleWidth row ≠ 1 := by
  decide

unseal natDigits in
set_option maxRecDepth 40000 in
/-- C4 witness: the amended width property applied at a concrete scrolled
state and width 14 (the top row is the indicator `─── ↑ 3 more ` padded
with `─` and corner characters, visible width exactly 14). -/
theorem C4_render_width_amended_witness :
    visibleWidth ((render { initEditor with
        lines := List.replicate 10 ['a'], cursorLine := 9 } 14).2.headD [])
      = 14 :=
  C4_render_width_amended
    { initEditor with lines := List.replicate 10 ['a'], cursorLine := 9 } 14
    (by decide) (by decide)
    ((render { initEditor with
        lines := List.replicate 10 ['a'], cursorLine := 9 } 14).2.headD [])
    (by decide)

theorem parseDigitsRun_suffix_len (t : List Char) :
    (parseDigitsRun t).2.length ≤ t.length := by
  induction t with
  | nil => simp [parseDigitsRun]
  | cons c t ih =>
    simp only [parseDigitsRun]
    split
    · simpa using Nat.le_succ_of_le ih
    · simp

theorem kittyToksF_other (f : Nat) (c : Char) (t : List Char)
    (hu : ¬(c = 'u' ∧ t = [])) (hc : c ≠ ':') (hs : c ≠ ';') :
    kittyToksF (f + 1) (c :: t) = none := by
  rw [kittyToksF.eq_def]
  split
  · rename_i heq
    omega
  · rename_i hf heq
    injection heq with h1 h2
    exact absurd ⟨h1, h2⟩ hu
  · rename_i hf heq
    injection heq with h1 h2
    exact absurd h1 hc
  · rename_i hf heq
    injection heq with h1 h2
    exact absurd h1 hs
  · rfl

theorem kittyToksF_mono (f1 : Nat) : ∀ (l : List Char) (f2 : Nat),
    l.length < f1 → l.length < f2 → kittyToksF f1 l = kittyToksF f2 l := by
  induction f1 with
  | zero => intro l f2 h1; omega
  | succ f1 ih =>
    intro l f2 h1 h2
    cases f2 with
    | zero => omega
    | succ f2 =>
      rcases l with _ | ⟨c, t⟩
      · rfl
      · by_cases hu : c = 'u' ∧ t = []
        · obtain ⟨hc, ht⟩ := hu
          subst hc
          subst ht
          rfl
        · by_cases hc : c = ':'
          · subst hc
            have hlen := parseDigitsRun_suffix_len t
            simp only [List.length_cons] at h1 h2
            simp only [kittyToksF]
            rw [ih (parseDigitsRun t).2 f2 (by omega) (by omega)]
          · by_cases hs : c = ';'
            · subst hs
              have hlen := parseDigitsRun_suffix_len t
              simp only [List.length_cons] at h1 h2
              simp only [kittyToksF]
              rw [ih (parseDigitsRun t).2 f2 (by omega) (by omega)]
            · rw [kittyToksF_other f1 c t hu hc hs,
                kittyToksF_other f2 c t hu hc hs]

theorem toNat_digitChar (m : Nat) (h : m < 10) :
    (Char.ofNat (48 + m)).toNat = 48 + m := by
  interval_cases m <;> decide

theorem digitsVal_append_one (ds : List Char) (c : Char) :
    digitsVal (ds ++ [c]) = digitsVal ds * 10 + (c.toNat - 48) := by
  unfold digitsVal
  rw [List.foldl_append]
  rfl

theorem natDigits_val (n : Nat) : digitsVal (natDigits n) = n := by
  induction n using Nat.strong_induction_on with
  | _ n ih =>
    unfold natDigits
    split
    · rename_i h
      show digitsVal [Char.ofNat (48 + n)] = n
      unfold digitsVal
      simp [toNat_digitChar n h]
    · rename_i h
      rw [digitsVal_append_one, ih (n / 10) (Nat.div_lt_self (by omega) (by omega)),
        toNat_digitChar (n % 10) (by omega)]
      omega

theorem containsSub_mem (pat l : List Char) (h : containsSub pat l = true) :
    ∀ c ∈ pat, c ∈ l := by
  induction l with
  | nil =>
    intro c hc
    unfold containsSub indexOfSub at h
    split at h
    · rename_i hp
      subst hp
      simp at hc
    · simp at h
  | cons x t ih =>
    intro c hc
    unfold containsSub indexOfSub at h
    split at h
    · rename_i hp
      exact (List.isPrefixOf_iff_prefix.mp hp).subset hc
    · rename_i hp
      apply List.mem_cons_of_mem x
      apply ih _ c hc
      unfold containsSub
      cases hio : indexOfSub pat t with
      | some i => rfl
      | none =>
        rw [hio] at h
        simp at h

theorem kittyToks_shape1 (sh mo : Nat) :
    kittyToks (':' :: (natDigits sh ++ (';' :: (natDigits mo ++ ['u'])))) =
      some [KTok.colon (natDigits sh), KTok.semi (natDigits mo)] := by
  unfold kittyToks
  simp only [kittyToksF]
  rw [parseDigitsRun_digits_append (natDigits sh)
    (';' :: (natDigits mo ++ ['u'])) (natDigits_all_digits sh)
    (by intro c hc; simp at hc; subst hc; rfl)]
  rw [kittyToksF_mono _ (';' :: (natDigits mo ++ ['u']))
    ((';' :: (natDigits mo ++ ['u'])).length + 1)
    (by simp [List.length_cons, List.length_append]; omega)
    (by omega)]
  simp only [List.length_cons, kittyToksF]
  rw [parseDigitsRun_digits_append (natDigits mo) ['u']
    (natDigits_all_digits mo)
    (by intro c hc; simp at hc; subst hc; rfl)]
  rw [if_neg (by simpa using natDigits_ne_nil mo)]
  dsimp only
  rw [show kittyToksF ((natDigits mo ++ ['u']).length + 1) ['u'] =
      kittyToksF 2 ['u'] from kittyToksF_mono _ ['u'] 2
      (by simp only [List.length_singleton, List.length_append]; omega)
      (by decide)]
  rfl

theorem kittyMatch_cons (rest : List Char) :
    kittyMatch ('\x1b' :: '[' :: rest) =
      (let r := parseDigitsRun rest
       if r.1.isEmpty then none
       else match kittyToks r.2 with
         | some ts => (kittyAssign ts).map (fun g => (digitsVal r.1, g))
         | none => none) := rfl

theorem kittyMatch_shape1 (cp sh mo : Nat) :
    kittyMatch (kittyEncode cp (some sh) none (some mo) none) =
      some (cp, ⟨some (natDigits sh), none, some (natDigits mo), none⟩) := by
  unfold kittyEncode optColon optSemi
  simp only [List.append_nil, List.nil_append]
  have hshape : natDigits cp ++ (':' :: natDigits sh) ++ (';' :: natDigits mo)
      ++ ['u'] =
      natDigits cp ++ (':' :: (natDigits sh ++ (';' :: (natDigits mo ++ ['u'])))) := by
    simp
  rw [hshape, kittyMatch_cons]
  dsimp only
  rw [parseDigitsRun_digits_append (natDigits cp)
    (':' :: (natDigits sh ++ (';' :: (natDigits mo ++ ['u']))))
    (natDigits_all_digits cp)
    (by intro c hc; simp at hc; subst hc; rfl)]
  rw [if_neg (by simpa using natDigits_ne_nil cp)]
  rw [kittyToks_shape1]
  simp only [kittyAssign, Option.map_some]
  rw [natDigits_val]
  rfl

theorem decodeKitty_altctrl (data : List Char) (cp : Nat) (g : KittyGroups)
    (hm : kittyMatch data = some (cp, g))
    (hmv : (match g.modG with | some ds => digitsVal ds | none => 1) = 0 ∨
      (1 ≤ (match g.modG with | some ds => digitsVal ds | none => 1) ∧
       ((match g.modG with | some ds => digitsVal ds | none => 1) - 1) &&& 6
         ≠ 0)) :
    decodeKittyPrintable data = none := by
  unfold decodeKittyPrintable
  rw [hm]
  dsimp only
  have hac : kittyAltCtrl
      (((match g.modG with | some ds => digitsVal ds | none => 1 : Nat) : Int)
        - 1) = true := by
    unfold kittyAltCtrl
    rcases hmv with h0 | ⟨h1, h6⟩
    · rw [h0]
      rfl
    · rw [if_neg (by omega),
        show (((match g.modG with
            | some ds => digitsVal ds | none => 1 : Nat) : Int) - 1).toNat =
          (match g.modG with | some ds => digitsVal ds | none => 1) - 1
          from by omega]
      simpa [bne_iff_ne] using h6
  rw [hac]
  rfl

theorem decodeKitty_shape1_shift (cp sh mo : Nat) (h1 : 1 ≤ mo)
    (h6 : (mo - 1) &&& 6 = 0) (hs : (mo - 1) &&& 1 ≠ 0)
    (h32 : 32 ≤ sh) (hmax : sh < 0xD800) :
    decodeKittyPrintable (kittyEncode cp (some sh) none (some mo) none) =
      some (Char.ofNat sh) := by
  unfold decodeKittyPrintable
  rw [kittyMatch_shape1]
  dsimp only
  rw [natDigits_val sh, natDigits_val mo]
  rw [show kittyAltCtrl ((mo : Int) - 1) = false from by
    unfold kittyAltCtrl
    rw [if_neg (by omega), show ((mo : Int) - 1).toNat = mo - 1 from by omega,
      h6]
    rfl]
  rw [if_neg Bool.false_ne_true]
  rw [show kittyShift ((mo : Int) - 1) = true from by
    unfold kittyShift
    rw [if_neg (by omega), show ((mo : Int) - 1).toNat = mo - 1 from by omega]
    simpa [bne_iff_ne] using hs]
  simp [natDigits_ne_nil sh]
  omega

theorem decodeKitty_shape1_low (cp sh mo : Nat) (h1 : 1 ≤ mo)
    (h6 : (mo - 1) &&& 6 = 0) (hs : (mo - 1) &&& 1 ≠ 0) (h32 : sh < 32) :
    decodeKittyPrintable (kittyEncode cp (some sh) none (some mo) none) =
      none := by
  unfold decodeKittyPrintable
  rw [kittyMatch_shape1]
  dsimp only
  rw [natDigits_val sh, natDigits_val mo]
  rw [show kittyAltCtrl ((mo : Int) - 1) = false from by
    unfold kittyAltCtrl
    rw [if_neg (by omega), show ((mo : Int) - 1).toNat = mo - 1 from by omega,
      h6]
    rfl]
  rw [if_neg Bool.false_ne_true]
  rw [show kittyShift ((mo : Int) - 1) = true from by
    unfold kittyShift
    rw [if_neg (by omega), show ((mo : Int) - 1).toNat = mo - 1 from by omega]
    simpa [bne_iff_ne] using hs]
  simp [natDigits_ne_nil sh]
  omega

theorem dispatchRest_kitty (st : EditorState) (data : List Char)
    (h1 : data.getLast? = some 'u') (h2 : data.head? = some '\x1b')
    (h3 : '\r' ∉ data) (hnss : data ≠ shiftSpaceSeq)
    (hnbs : data ≠ shiftBackspaceSeq) :
    dispatchRest st data =
      match decodeKittyPrintable data with
      | some c => insertCharacter st [c]
      | none => (st, []) := by
  have hneq : ∀ l : List Char, l.getLast? ≠ some 'u' → data ≠ l := by
    intro l hl he
    rw [he] at h1
    exact hl h1
  unfold dispatchRest
  rw [if_neg (hneq ['\\'] (by decide))]
  rw [if_neg (by simp [kbCopy]; exact hneq _ (by decide))]
  rw [if_neg (by simp [kbTab]; exact hneq _ (by decide))]
  rw [if_neg (by simp [kbDeleteToLineEnd]; exact hneq _ (by decide))]
  rw [if_neg (by simp [kbDeleteToLineStart]; exact hneq _ (by decide))]
  rw [if_neg (by simp [kbDeleteWordBackward]; exact hneq _ (by decide))]
  rw [if_neg (by
    simp [kbDeleteCharBackward]
    exact ⟨hneq _ (by decide), hnbs⟩)]
  rw [if_neg (by
    simp [kbDeleteCharForward]
    exact ⟨hneq _ (by decide), hneq _ (by decide)⟩)]
  rw [if_neg (by
    simp [kbCursorLineStart]
    exact ⟨hneq _ (by decide), hneq _ (by decide)⟩)]
  rw [if_neg (by
    simp [kbCursorLineEnd]
    exact ⟨hneq _ (by decide), hneq _ (by decide)⟩)]
  rw [if_neg (by simp [kbCursorWordLeft]; exact hneq _ (by decide))]
  rw [if_neg (by simp [kbCursorWordRight]; exact hneq _ (by decide))]
  rw [if_neg (by
    simp [isNewlineData, kbNewLine, h2]
    and_intros
    · exact hneq _ (by decide)
    · exact hneq _ (by decide)
    · intro h5 h6
      exact h3
    · exact hneq _ (by decide)
    · exact hneq _ (by decide))]
  rw [if_neg (by simp [kbSubmit]; exact hneq _ (by decide))]
  rw [if_neg (by simp [kbCursorUp]; exact hneq _ (by decide))]
  rw [if_neg (by simp [kbCursorDown]; exact hneq _ (by decide))]
  rw [if_neg (by simp [kbCursorRight]; exact hneq _ (by decide))]
  rw [if_neg (by simp [kbCursorLeft]; exact hneq _ (by decide))]
  rw [if_neg (by simp [kbPageUp]; exact hneq _ (by decide))]
  rw [if_neg (by simp [kbPageDown]; exact hneq _ (by decide))]
  rw [if_neg hnss]
  cases hdec : decodeKittyPrintable data with
  | some c => rfl
  | none =>
    rw [h2]
    dsimp only
    rw [if_neg (by decide)]

theorem kittyEncode_chars (cp sh mo : Nat) :
    ∀ c ∈ kittyEncode cp (some sh) none (some mo) none,
      c = '\x1b' ∨ c = '[' ∨ c.isDigit = true ∨ c = ':' ∨ c = ';' ∨
        c = 'u' := by
  intro c hc
  unfold kittyEncode optColon optSemi at hc
  simp only [List.append_nil, List.nil_append, List.mem_cons,
    List.mem_append, List.mem_singleton, List.mem_nil_iff] at hc
  have h1 : c ∈ natDigits cp → c.isDigit = true := natDigits_all_digits cp c
  have h2 : c ∈ natDigits sh → c.isDigit = true := natDigits_all_digits sh c
  have h3 : c ∈ natDigits mo → c.isDigit = true := natDigits_all_digits mo c
  tauto

theorem kittyEncode_getLast (cp sh mo : Nat) :
    (kittyEncode cp (some sh) none (some mo) none).getLast? = some 'u' := by
  unfold kittyEncode optColon optSemi
  rw [show '\x1b' :: '[' ::
      (natDigits cp ++ (':' :: natDigits sh) ++ [] ++ (';' :: natDigits mo)
        ++ [] ++ ['u']) =
      ('\x1b' :: '[' ::
        (natDigits cp ++ (':' :: natDigits sh) ++ (';' :: natDigits mo)))
        ++ ['u'] from by simp]
  exact List.getLast?_concat _

theorem kittyEncode_colon_mem (cp sh mo : Nat) :
    ':' ∈ kittyEncode cp (some sh) none (some mo) none := by
  unfold kittyEncode optColon optSemi
  simp

theorem handleInput_direct (st : EditorState) (data : List Char)
    (hip : st.isInPaste = false) (hps : st.pendingShiftEnter = false)
    (hcs : containsSub pasteStartSeq data = false) :
    handleInput st data = dispatchRest st data := by
  unfold handleInput handleInputFuel
  simp only [hcs, Bool.false_eq_true, if_false, hip, hps]

theorem handleInput_kitty_shape1 (st : EditorState) (cp sh mo : Nat)
    (hip : st.isInPaste = false) (hps : st.pendingShiftEnter = false) :
    handleInput st (kittyEncode cp (some sh) none (some mo) none) =
      match decodeKittyPrintable (kittyEncode cp (some sh) none (some mo)
        none) with
      | some c => insertCharacter st [c]
      | none => (st, []) := by
  have hchars := kittyEncode_chars cp sh mo
  have hnr : '\r' ∉ kittyEncode cp (some sh) none (some mo) none := by
    intro hmem
    rcases hchars '\r' hmem with h | h | h | h | h | h <;> simp_all
  have hcs : containsSub pasteStartSeq
      (kittyEncode cp (some sh) none (some mo) none) = false := by
    by_cases h : containsSub pasteStartSeq
        (kittyEncode cp (some sh) none (some mo) none) = true
    · exfalso
      have htil := containsSub_mem _ _ h '~' (by decide)
      rcases hchars '~' htil with hx | hx | hx | hx | hx | hx <;> simp_all
    · simpa using h
  rw [handleInput_direct st _ hip hps hcs]
  exact dispatchRest_kitty st _ (kittyEncode_getLast cp sh mo) rfl hnr
    (fun he => absurd (he ▸ kittyEncode_colon_mem cp sh mo) (by decide))
    (fun he => absurd (he ▸ kittyEncode_colon_mem cp sh mo) (by decide))

theorem parseDigitsRun_split (t : List Char) :
    (parseDigitsRun t).1 ++ (parseDigitsRun t).2 = t := by
  induction t with
  | nil => rfl
  | cons c t ih =>
    by_cases h : c.isDigit = true
    · simp only [parseDigitsRun, h, if_true]
      simpa using ih
    · simp [parseDigitsRun, h]

theorem parseDigitsRun_all_digits (t : List Char) :
    ∀ c ∈ (parseDigitsRun t).1, c.isDigit = true := by
  induction t with
  | nil => intro c hc; simp [parseDigitsRun] at hc
  | cons x t ih =>
    intro c hc
    by_cases h : x.isDigit = true
    · simp only [parseDigitsRun, h, if_true] at hc
      rcases List.mem_cons.mp hc with rfl | hc2
      · exact h
      · exact ih c hc2
    · simp [parseDigitsRun, h] at hc

theorem kittyToksF_chars (f : Nat) : ∀ (l : List Char) (ts : List KTok),
    kittyToksF f l = some ts →
    (∀ c ∈ l, c.isDigit = true ∨ c = ':' ∨ c = ';' ∨ c = 'u') ∧
      l.getLast? = some 'u' := by
  induction f with
  | zero => intro l ts h; exact absurd h (by simp [kittyToksF])
  | succ f ih =>
    intro l ts h
    rcases l with _ | ⟨c, t⟩
    · exact absurd h (by simp [kittyToksF])
    · by_cases hu : c = 'u' ∧ t = []
      · obtain ⟨rfl, rfl⟩ := hu
        refine ⟨?_, rfl⟩
        intro x hx
        simp only [List.mem_singleton] at hx
        subst hx
        tauto
      · by_cases hc : c = ':'
        · subst hc
          simp only [kittyToksF] at h
          obtain ⟨ts2, hts2, -⟩ := Option.map_eq_some'.mp h
          obtain ⟨h1, h2⟩ := ih _ _ hts2
          have hsplit := parseDigitsRun_split t
          have hne : (parseDigitsRun t).2 ≠ [] := by
            intro he
            rw [he] at h2
            exact absurd h2 (by simp)
          constructor
          · intro x hx
            rcases List.mem_cons.mp hx with rfl | hx2
            · tauto
            · rw [← hsplit] at hx2
              rcases List.mem_append.mp hx2 with hx3 | hx3
              · exact Or.inl (parseDigitsRun_all_digits t x hx3)
              · exact h1 x hx3
          · rw [show ':' :: t =
                (':' :: (parseDigitsRun t).1) ++ (parseDigitsRun t).2 from by
              rw [List.cons_append, hsplit]]
            rw [List.getLast?_append_of_ne_nil _ hne, h2]
        · by_cases hs : c = ';'
          · subst hs
            simp only [kittyToksF] at h
            split at h
            · exact absurd h (by simp)
            · obtain ⟨ts2, hts2, -⟩ := Option.map_eq_some'.mp h
              obtain ⟨h1, h2⟩ := ih _ _ hts2
              have hsplit := parseDigitsRun_split t
              have hne : (parseDigitsRun t).2 ≠ [] := by
                intro he
                rw [he] at h2
                exact absurd h2 (by simp)
              constructor
              · intro x hx
                rcases List.mem_cons.mp hx with rfl | hx2
                · tauto
                · rw [← hsplit] at hx2
                  rcases List.mem_append.mp hx2 with hx3 | hx3
                  · exact Or.inl (parseDigitsRun_all_digits t x hx3)
                  · exact h1 x hx3
              · rw [show ';' :: t =
                    (';' :: (parseDigitsRun t).1) ++ (parseDigitsRun t).2 from by
                  rw [List.cons_append, hsplit]]
                rw [List.getLast?_append_of_ne_nil _ hne, h2]
          · rw [kittyToksF_other f c t hu hc hs] at h
            exact absurd h (by simp)

theorem kittyMatch_facts (data : List Char) (x : Nat × KittyGroups)
    (hm : kittyMatch data = some x) :
    data.head? = some '\x1b' ∧
    (∀ c ∈ data, c = '\x1b' ∨ c = '[' ∨ c.isDigit = true ∨ c = ':' ∨
      c = ';' ∨ c = 'u') ∧
    data.getLast? = some 'u' := by
  rw [kittyMatch.eq_def] at hm
  split at hm
  · rename_i rest
    dsimp only at hm
    split at hm
    · exact absurd hm (by simp)
    · rename_i hemp
      split at hm
      · rename_i ts hts
        have hch := kittyToksF_chars ((parseDigitsRun rest).2.length + 1)
          (parseDigitsRun rest).2 ts hts
        obtain ⟨h1, h2⟩ := hch
        have hsplit := parseDigitsRun_split rest
        have hne : (parseDigitsRun rest).2 ≠ [] := by
          intro he
          rw [he] at h2
          exact absurd h2 (by simp)
        refine ⟨rfl, ?_, ?_⟩
        · intro c hc
          rcases List.mem_cons.mp hc with rfl | hc2
          · tauto
          rcases List.mem_cons.mp hc2 with rfl | hc3
          · tauto
          rw [← hsplit] at hc3
          rcases List.mem_append.mp hc3 with hc4 | hc4
          · exact Or.inr (Or.inr (Or.inl (parseDigitsRun_all_digits rest c hc4)))
          · have := h1 c hc4
            tauto
        · rw [show '\x1b' :: '[' :: rest =
              ('\x1b' :: '[' :: (parseDigitsRun rest).1) ++
                (parseDigitsRun rest).2 from by
            rw [List.cons_append, List.cons_append, hsplit]]
          rw [List.getLast?_append_of_ne_nil _ hne, h2]
      · exact absurd hm (by simp)
  · exact absurd hm (by simp)

theorem decodeKitty_eq (data : List Char) (cp : Nat) (g : KittyGroups)
    (hm : kittyMatch data = some (cp, g)) :
    decodeKittyPrintable data =
      if kittyAltCtrl ((kittyModValue g : Int) - 1) then none
      else if kittyEffective cp g < 32 then none
      else if 0x10FFFF < kittyEffective cp g ||
          (0xD800 ≤ kittyEffective cp g && kittyEffective cp g ≤ 0xDFFF)
        then none
      else some (Char.ofNat (kittyEffective cp g)) := by
  unfold decodeKittyPrintable
  rw [hm]
  unfold kittyEffective kittyModValue kittyShiftedKey
  rfl

theorem handleInput_kitty (st : EditorState) (data : List Char)
    (x : Nat × KittyGroups) (hip : st.isInPaste = false)
    (hps : st.pendingShiftEnter = false)
    (hm : kittyMatch data = some x)
    (hnss : data ≠ shiftSpaceSeq) (hnbs : data ≠ shiftBackspaceSeq) :
    handleInput st data =
      match decodeKittyPrintable data with
      | some c => insertCharacter st [c]
      | none => (st, []) := by
  obtain ⟨hhead, hchars, hlast⟩ := kittyMatch_facts data x hm
  have hnr : '\r' ∉ data := by
    intro hmem
    rcases hchars '\r' hmem with h | h | h | h | h | h <;> simp_all
  have hcs : containsSub pasteStartSeq data = false := by
    by_cases h : containsSub pasteStartSeq data = true
    · exfalso
      have htil := containsSub_mem _ _ h '~' (by decide)
      rcases hchars '~' htil with hx | hx | hx | hx | hx | hx <;> simp_all
    · simpa using h
  rw [handleInput_direct st data hip hps hcs]
  exact dispatchRest_kitty st data hlast hhead hnr hnss hnbs

theorem kittyMatch_shiftSpace :
    kittyMatch shiftSpaceSeq = some (32, ⟨none, none, some ['2'], none⟩) := by
  decide

theorem kittyMatch_shiftBackspace :
    kittyMatch shiftBackspaceSeq =
      some (127, ⟨none, none, some ['2'], none⟩) := by
  decide

theorem kittyMatch_ne_special (data : List Char) (cp : Nat) (g : KittyGroups)
    (hm : kittyMatch data = some (cp, g)) :
    (data = shiftSpaceSeq →
      cp = 32 ∧ g = ⟨none, none, some ['2'], none⟩) ∧
    (data = shiftBackspaceSeq →
      cp = 127 ∧ g = ⟨none, none, some ['2'], none⟩) := by
  constructor
  · intro he
    rw [he, kittyMatch_shiftSpace] at hm
    injection hm with hx
    exact ⟨(congrArg Prod.fst hx).symm, (congrArg Prod.snd hx).symm⟩
  · intro he
    rw [he, kittyMatch_shiftBackspace] at hm
    injection hm with hx
    exact ⟨(congrArg Prod.fst hx).symm, (congrArg Prod.snd hx).symm⟩

/-- C9: CSI-u (Kitty keyboard protocol) decoding, for every input sequence
matching the CSI-u regex `ESC [ <cp> (:<shifted>)? (:<base>)? (;<mod>)?
(:<sub>)? u` — `kittyMatch data = some (cp, g)` quantifies over all
matching sequences together with their parsed capture groups: (1) when
the modifier bits indicate Alt or Ctrl (bits `& 6` of the protocol's
`mod - 1`, including the out-of-protocol modifier value 0) the editor
inserts nothing and the state is unchanged; (2) when Shift (bit 1) is set
and a shifted codepoint is present, the shifted codepoint — not the base
one — is inserted, for every insertable shifted codepoint (at least 32,
at most 0x10FFFF, not a lone surrogate); (3) whenever the effective
codepoint (the shifted one when Shift is set and it is present, the base
one otherwise) is below 32, the editor inserts nothing — covering in
particular unshifted control sequences such as `ESC [ 27 u`; and (4)
concretely, `ESC [ 97 : 65 ; 2 u` inserts `A`. -/
theorem C9_csi_u (st : EditorState) (data : List Char) (cp : Nat)
    (g : KittyGroups) (hip : st.isInPaste = false)
    (hps : st.pendingShiftEnter = false)
    (hm : kittyMatch data = some (cp, g)) :
    (kittyAltCtrl ((kittyModValue g : Int) - 1) = true →
      handleInput st data = (st, [])) ∧
    (∀ k : Nat, kittyAltCtrl ((kittyModValue g : Int) - 1) = false →
      kittyShift ((kittyModValue g : Int) - 1) = true →
      kittyShiftedKey g = some k → 32 ≤ k → k ≤ 0x10FFFF →
      (k < 0xD800 ∨ 0xDFFF < k) →
      handleInput st data = insertCharacter st [Char.ofNat k]) ∧
    (kittyAltCtrl ((kittyModValue g : Int) - 1) = false →
      kittyEffective cp g < 32 →
      handleInput st data = (st, [])) ∧
    (handleInput st "\x1b[97:65;2u".toList = insertCharacter st ['A']) := by
  have hsp := (kittyMatch_ne_special data cp g hm).1
  have hbs := (kittyMatch_ne_special data cp g hm).2
  refine ⟨?_, ?_, ?_, ?_⟩
  · intro halt
    have hnss : data ≠ shiftSpaceSeq := by
      intro he
      obtain ⟨h1, h2⟩ := hsp he
      subst h1
      subst h2
      exact absurd halt (by decide)
    have hnbs : data ≠ shiftBackspaceSeq := by
      intro he
      obtain ⟨h1, h2⟩ := hbs he
      subst h1
      subst h2
      exact absurd halt (by decide)
    rw [handleInput_kitty st data (cp, g) hip hps hm hnss hnbs]
    rw [decodeKitty_eq data cp g hm]
    rw [if_pos halt]
  · intro k haltc hsh hshk h32 hupper hsurr
    have hnss : data ≠ shiftSpaceSeq := by
      intro he
      obtain ⟨h1, h2⟩ := hsp he
      subst h2
      simp [kittyShiftedKey] at hshk
    have hnbs : data ≠ shiftBackspaceSeq := by
      intro he
      obtain ⟨h1, h2⟩ := hbs he
      subst h2
      simp [kittyShiftedKey] at hshk
    have heff : kittyEffective cp g = k := by
      unfold kittyEffective
      rw [hsh, hshk]
      rfl
    rw [handleInput_kitty st data (cp, g) hip hps hm hnss hnbs]
    rw [decodeKitty_eq data cp g hm]
    rw [if_neg (by rw [haltc]; exact Bool.false_ne_true)]
    rw [heff]
    rw [if_neg (by omega)]
    rw [if_neg (by
      simp only [Bool.or_eq_true, Bool.and_eq_true, decide_eq_true_eq]
      omega)]
  · intro haltc heff
    have hnss : data ≠ shiftSpaceSeq := by
      intro he
      obtain ⟨h1, h2⟩ := hsp he
      subst h1
      subst h2
      exact absurd heff (by decide)
    have hnbs : data ≠ shiftBackspaceSeq := by
      intro he
      obtain ⟨h1, h2⟩ := hbs he
      subst h1
      subst h2
      exact absurd heff (by decide)
    rw [handleInput_kitty st data (cp, g) hip hps hm hnss hnbs]
    rw [decodeKitty_eq data cp g hm]
    rw [if_neg (by rw [haltc]; exact Bool.false_ne_true)]
    rw [if_pos heff]
  · have hm4 : kittyMatch "\x1b[97:65;2u".toList =
        some (97, ⟨some ['6', '5'], none, some ['2'], none⟩) := by decide
    rw [handleInput_kitty st _ (97, ⟨some ['6', '5'], none, some ['2'], none⟩)
      hip hps hm4 (by decide) (by decide)]
    rw [show decodeKittyPrintable "\x1b[97:65;2u".toList = some 'A' from by
      decide]

/-- C9 witness: the CSI-u property applied at the initial editor and the
concrete shifted sequence `ESC [ 97 : 65 ; 2 u`, which matches the regex
with codepoint 97, shifted group `65` and modifier group `2`, and inserts
`A`. -/
theorem C9_csi_u_witness :
    kittyMatch "\x1b[97:65;2u".toList =
      some (97, ⟨some ['6', '5'], none, some ['2'], none⟩) ∧
    handleInput initEditor "\x1b[97:65;2u".toList =
      insertCharacter initEditor ['A'] :=
  ⟨by decide, (C9_csi_u initEditor "\x1b[97:65;2u".toList 97
      ⟨some ['6', '5'], none, some ['2'], none⟩ rfl rfl (by decide)).2.2.2⟩

theorem segGo_singles (t : List Char) (h : ∀ c ∈ t, isCombiningChar c = false) :
    ∀ cur, segGo cur t = cur.reverse :: t.map (fun c => [c]) := by
  induction t with
  | nil => intro cur; simp [segGo]
  | cons c t ih =>
    intro cur
    simp only [segGo, h c (by simp), Bool.false_eq_true, if_false]
    rw [ih (fun x hx => h x (by simp [hx])) [c]]
    rfl

theorem seg_singles (l : List Char) (h : ∀ c ∈ l, isCombiningChar c = false) :
    segmentGraphemes l = l.map (fun c => [c]) := by
  cases l with
  | nil => rfl
  | cons c t =>
    simp only [segmentGraphemes]
    rw [segGo_singles t (fun x hx => h x (by simp [hx])) [c]]
    rfl

theorem ws_of_trim (c : Char) (h : isTrimWs c = false) :
    isWhitespaceChar c = false := by
  unfold isTrimWs at h
  unfold isWhitespaceChar
  simp only [Bool.or_eq_false_iff] at h ⊢
  exact ⟨h.1.1.1, h.1.1.2⟩

theorem dropWhile_id_of_all (p : Char → Bool) (l : List Char)
    (h : ∀ c ∈ l, p c = false) : l.dropWhile p = l := by
  cases l with
  | nil => rfl
  | cons c t =>
    rw [List.dropWhile_cons, if_neg (by simp [h c (by simp)])]

theorem jsTrimEnd_of_all (l : List Char) (h : ∀ c ∈ l, isTrimWs c = false) :
    jsTrimEnd l = l := by
  unfold jsTrimEnd
  rw [dropWhile_id_of_all _ _ (fun c hc => h c (List.mem_reverse.mp hc)),
    List.reverse_reverse]

theorem jsTrimEnd_append_space (xs : List Char) :
    jsTrimEnd (xs ++ [' ']) = jsTrimEnd xs := by
  unfold jsTrimEnd
  rw [List.reverse_append]
  rfl

theorem reconA_append (line : List Char) (a b : List TextChunk) :
    reconA line (a ++ b) = reconA line a ++ reconA line b := by
  induction a with
  | nil => simp [reconA]
  | cons c t ih =>
    simp only [List.cons_append, reconA, List.append_eq, ih,
      List.append_assoc]

theorem reconstruct_append (line : List Char) (a : List TextChunk)
    (d : TextChunk) (t : List TextChunk) :
    reconstructChunks line (a ++ d :: t) =
      reconA line a ++ reconstructChunks line (d :: t) := by
  induction a with
  | nil => simp [reconA]
  | cons c a' ih =>
    rw [List.cons_append]
    rw [show reconstructChunks line (c :: (a' ++ d :: t)) =
      c.text ++ (if restoreSpaceAfter line c then [' '] else []) ++
        reconstructChunks line (a' ++ d :: t) from by
      cases a' with
      | nil => rfl
      | cons x y => rfl]
    rw [ih]
    simp [reconA]

theorem take_drop_extend (line X R : List Char) (p : Nat)
    (hp : p ≤ line.length) (h : line.drop p = X ++ R) :
    line.take (p + X.length) = line.take p ++ X ∧
    line.drop (p + X.length) = R ∧ p + X.length ≤ line.length := by
  have hline : line = line.take p ++ (X ++ R) := by
    rw [← h, List.take_append_drop]
  have hlen : (line.take p).length = p := by
    simp only [List.length_take]
    omega
  have hlen2 : line.length = p + X.length + R.length := by
    conv_lhs => rw [hline]
    simp only [List.length_append]
    omega
  refine ⟨?_, ?_, by omega⟩
  · conv_lhs => rw [hline, show p + X.length = (line.take p).length + X.length
      from by rw [hlen]]
    rw [List.take_append, List.take_left]
  · conv_lhs => rw [hline, show p + X.length = (line.take p).length + X.length
      from by rw [hlen]]
    rw [List.drop_append, List.drop_left]

theorem tokensGo_start (g : List Char) (gs : List (List Char)) (i j : Nat)
    (b : Bool) :
    tokensGo (g :: gs) [] i b j =
      tokensGo gs g j (isWsGrapheme g) (j + g.length) := by
  simp [tokensGo]

theorem tokensGo_emit (g : List Char) (gs : List (List Char))
    (cur : List Char) (i j : Nat) (b : Bool) (hcur : cur ≠ [])
    (hne : isWsGrapheme g ≠ b) :
    tokensGo (g :: gs) cur i b j =
      ⟨cur, i, j, b⟩ :: tokensGo gs g j (isWsGrapheme g) (j + g.length) := by
  simp only [tokensGo]
  rw [if_neg (by simp [hcur]), if_pos hne]

theorem tokensGo_word (wd : List Char)
    (h : ∀ c ∈ wd, isWhitespaceChar c = false) :
    ∀ (gs : List (List Char)) (cur : List Char), cur ≠ [] →
    ∀ (i j : Nat),
    tokensGo (wd.map (fun c => [c]) ++ gs) cur i false j =
      tokensGo gs (cur ++ wd) i false (j + wd.length) := by
  induction wd with
  | nil => intro gs cur hcur i j; simp
  | cons c t ih =>
    intro gs cur hcur i j
    simp only [List.map_cons, List.cons_append, tokensGo]
    rw [if_neg (by simp [hcur]),
      if_neg (by simp [isWsGrapheme, h c (by simp)])]
    simp only [List.append_eq]
    rw [ih (fun x hx => h x (by simp [hx])) gs (cur ++ [c]) (by simp) i
      (j + [c].length)]
    rw [show cur ++ [c] ++ t = cur ++ (c :: t) from by simp]
    rw [show j + [c].length + t.length = j + (c :: t).length from by
      simp
      omega]

theorem tokensGo_startword (wd : List Char) (hne : wd ≠ [])
    (hnw : ∀ c ∈ wd, isWhitespaceChar c = false)
    (gs : List (List Char)) (i : Nat) (b : Bool) :
    tokensGo (wd.map (fun c => [c]) ++ gs) [] i b i =
      tokensGo gs wd i false (i + wd.length) := by
  obtain ⟨c, t, hct⟩ : ∃ c t, wd = c :: t := by
    cases wd with
    | nil => exact absurd rfl hne
    | cons a b => exact ⟨a, b, rfl⟩
  subst hct
  simp only [List.map_cons, List.cons_append]
  rw [tokensGo_start [c] _ i i b]
  rw [show isWsGrapheme [c] = false from by
    simp [isWsGrapheme, hnw c (by simp)]]
  rw [tokensGo_word t (fun x hx => hnw x (by simp [hx])) gs [c] (by simp) i
    (i + [c].length)]
  rw [show ([c] : List Char) ++ t = c :: t from rfl]
  rw [show i + [c].length + t.length = i + (c :: t).length from by
    simp
    omega]

theorem tokensGo_spaced (ws : List (List Char)) :
    (∀ x ∈ ws, WordOk x) →
    ∀ i, tokensGo ((joinWith ' ' ws).map (fun c => [c])) [] i false i =
      spacedTokens ws i := by
  induction ws with
  | nil => intro _ i; simp [joinWith, tokensGo, spacedTokens]
  | cons wd rest ih =>
    intro hws i
    obtain ⟨hne, hchars⟩ := hws wd (by simp)
    have hnw : ∀ x ∈ wd, isWhitespaceChar x = false :=
      fun x hx => ws_of_trim x (hchars x hx).1
    cases rest with
    | nil =>
      rw [show joinWith ' ' [wd] = wd from rfl]
      rw [show wd.map (fun c => [c]) = wd.map (fun c => [c]) ++ [] from by
        simp]
      rw [tokensGo_startword wd hne hnw [] i false]
      simp only [tokensGo]
      rw [if_neg (by simp [hne])]
      rfl
    | cons w2 r' =>
      obtain ⟨hne2, hchars2⟩ := hws w2 (by simp)
      obtain ⟨c2, t2, hct2⟩ : ∃ c2 t2, w2 = c2 :: t2 := by
        cases w2 with
        | nil => exact absurd rfl hne2
        | cons a b => exact ⟨a, b, rfl⟩
      have hJ2 : ∃ Jt, joinWith ' ' (w2 :: r') = c2 :: Jt := by
        cases r' with
        | nil => exact ⟨t2, by simp [joinWith, hct2]⟩
        | cons a b =>
          refine ⟨t2 ++ ' ' :: joinWith ' ' (a :: b), ?_⟩
          rw [show joinWith ' ' (w2 :: a :: b) =
            w2 ++ ' ' :: joinWith ' ' (a :: b) from rfl, hct2]
          rfl
      obtain ⟨Jt, hJt⟩ := hJ2
      rw [show joinWith ' ' (wd :: w2 :: r') =
        wd ++ ' ' :: joinWith ' ' (w2 :: r') from rfl]
      simp only [List.map_append, List.map_cons]
      rw [tokensGo_startword wd hne hnw _ i false]
      rw [tokensGo_emit [' '] _ wd i (i + wd.length) false hne (by
        simp [isWsGrapheme, isWhitespaceChar])]
      rw [show isWsGrapheme [' '] = true from rfl]
      rw [show i + wd.length + ([' '] : List Char).length =
        i + wd.length + 1 from rfl]
      rw [hJt]
      simp only [List.map_cons]
      rw [tokensGo_emit [c2] _ [' '] (i + wd.length) (i + wd.length + 1) true
        (by simp) (by
          simp [isWsGrapheme, ws_of_trim c2 ((hchars2 c2 (by simp [hct2])).1)])]
      have hih := ih (fun x hx => hws x (by simp [hx])) (i + wd.length + 1)
      rw [hJt] at hih
      simp only [List.map_cons] at hih
      rw [tokensGo_start [c2] _ (i + wd.length + 1) (i + wd.length + 1)
        false] at hih
      rw [show isWsGrapheme [c2] = false from by
        simp [isWsGrapheme, ws_of_trim c2 ((hchars2 c2 (by simp [hct2])).1)]]
        at hih
      rw [show i + wd.length + 1 + ([c2] : List Char).length =
        i + wd.length + 1 + 1 from rfl] at hih
      rw [show isWsGrapheme [c2] = false from by
        simp [isWsGrapheme, ws_of_trim c2 ((hchars2 c2 (by simp [hct2])).1)]]
      rw [show i + wd.length + 1 + ([c2] : List Char).length =
        i + wd.length + 1 + 1 from rfl]
      rw [hih]
      rfl

theorem joinWith_mem {c : Char} {ws : List (List Char)}
    (hc : c ∈ joinWith ' ' ws) :
    (∃ wx ∈ ws, c ∈ wx) ∨ c = ' ' := by
  induction ws with
  | nil => simp [joinWith] at hc
  | cons wd rest ih =>
    cases rest with
    | nil =>
      rw [show joinWith ' ' [wd] = wd from rfl] at hc
      exact Or.inl ⟨wd, by simp, hc⟩
    | cons a b =>
      rw [show joinWith ' ' (wd :: a :: b) =
        wd ++ ' ' :: joinWith ' ' (a :: b) from rfl] at hc
      rcases List.mem_append.mp hc with hc | hc
      · exact Or.inl ⟨wd, by simp, hc⟩
      · rcases List.mem_cons.mp hc with hc | hc
        · exact Or.inr hc
        · rcases ih hc with ⟨wx, hwx, hcw⟩ | hc
          · exact Or.inl ⟨wx, by simp [hwx], hcw⟩
          · exact Or.inr hc

theorem tokenizeLine_spaced (ws : List (List Char))
    (hws : ∀ x ∈ ws, WordOk x) :
    tokenizeLine (joinWith ' ' ws) = spacedTokens ws 0 := by
  unfold tokenizeLine
  rw [seg_singles _ (by
    intro c hc
    rcases (joinWith_mem hc) with h | h
    · obtain ⟨wx, hwx, hcw⟩ := h
      exact ((hws wx hwx).2 c hcw).2
    · rw [h]
      rfl)]
  exact tokensGo_spaced ws hws 0


theorem breakLong_spaced (line : List Char) (w : Nat) :
    ∀ (v tc : List Char) (tcW tcStart idx : Nat),
    idx = tcStart + tc.length → tcW = visibleWidth tc →
    (∀ k, k < v.length → ∃ ch, line.get? (idx + k) = some ch ∧
      isWhitespaceChar ch = false) →
    (∀ c ∈ tc ++ v, isTrimWs c = false) →
    (reconA line (breakLong w (v.map (fun c => [c])) tc tcW tcStart idx).1 ++
      (breakLong w (v.map (fun c => [c])) tc tcW tcStart idx).2.1 =
        tc ++ v) ∧
    ((breakLong w (v.map (fun c => [c])) tc tcW tcStart idx).2.2.2 +
      (breakLong w (v.map (fun c => [c])) tc tcW tcStart idx).2.1.length =
        idx + v.length) ∧
    ((breakLong w (v.map (fun c => [c])) tc tcW tcStart idx).2.2.1 =
      visibleWidth
        (breakLong w (v.map (fun c => [c])) tc tcW tcStart idx).2.1) ∧
    (∀ c ∈ (breakLong w (v.map (fun c => [c])) tc tcW tcStart idx).2.1,
      isTrimWs c = false) ∧
    ((tc ≠ [] ∨ v ≠ []) →
      (breakLong w (v.map (fun c => [c])) tc tcW tcStart idx).2.1 ≠ []) := by
  intro v
  induction v with
  | nil =>
    intro tc tcW tcStart idx hidx hvw hget hchars
    refine ⟨by simp [breakLong, reconA], by simp [breakLong]; omega,
      by simpa [breakLong] using hvw, ?_, ?_⟩
    · intro c hc
      exact hchars c (by simpa using hc)
    · intro h
      rcases h with h | h
      · simpa [breakLong] using h
      · exact absurd rfl h
  | cons c v' ih =>
    intro tc tcW tcStart idx hidx hvw hget hchars
    simp only [List.map_cons, breakLong]
    split
    · rename_i hcond
      simp only [Bool.and_eq_true, Bool.not_eq_eq_eq_not, Bool.not_true,
        List.isEmpty_eq_false] at hcond
      have hih := ih [c] (visibleWidth [c]) idx (idx + [c].length)
        (by simp) rfl
        (by
          intro k hk
          have := hget (k + 1) (by simpa using Nat.succ_lt_succ hk)
          simpa [Nat.add_assoc, Nat.add_comm 1 k] using this)
        (by
          intro x hx
          rcases List.mem_append.mp hx with hx | hx
          · simp only [List.mem_singleton] at hx
            subst hx
            exact hchars x (by simp)
          · exact hchars x (by simp [hx]))
      obtain ⟨o1, o2, o3, o4, o5⟩ := hih
      have hgap : restoreSpaceAfter line ⟨tc, tcStart, idx⟩ = false := by
        unfold restoreSpaceAfter
        obtain ⟨ch, hch, hws⟩ := hget 0 (by simp)
        simp only [Nat.add_zero] at hch
        rw [show tcStart + tc.length = idx from hidx.symm, hch]
        exact hws
      refine ⟨?_, ?_, o3, o4, fun _ => o5 (Or.inl (by simp))⟩
      · simp only [reconA, hgap, Bool.false_eq_true, if_false,
          List.append_nil, List.nil_append]
        rw [List.append_assoc]
        rw [show ([c] : List Char) ++ v' = c :: v' from rfl] at o1
        rw [o1]
      · simp only [List.length_cons, List.length_singleton, List.length_nil,
          Nat.zero_add] at o2 ⊢
        omega
    · rename_i hcond
      have hih := ih (tc ++ [c]) (tcW + visibleWidth [c]) tcStart
        (idx + [c].length)
        (by simp [hidx]; omega)
        (by rw [hvw, vw_append])
        (by
          intro k hk
          have := hget (k + 1) (by simpa using Nat.succ_lt_succ hk)
          simpa [Nat.add_assoc, Nat.add_comm 1 k] using this)
        (by
          intro x hx
          rcases List.mem_append.mp hx with hx | hx
          · exact hchars x (by
              rcases List.mem_append.mp hx with hx | hx
              · simp [hx]
              · simp only [List.mem_singleton] at hx
                simp [hx])
          · exact hchars x (by simp [hx]))
      obtain ⟨o1, o2, o3, o4, o5⟩ := hih
      refine ⟨?_, ?_, o3, o4, fun _ => o5 (Or.inl (by simp))⟩
      · rw [o1]
        simp
      · simp only [List.length_cons, List.length_singleton, List.length_nil,
          Nat.zero_add] at o2 ⊢
        omega

theorem get?_drop' (l : List Char) (n m : Nat) :
    (l.drop n).get? m = l.get? (n + m) := by
  rw [List.get?_drop]

theorem get?_last_of_take (line A : List Char) (a : Char) (i : Nat)
    (hi : i ≤ line.length) (h : line.take i = A ++ [a]) :
    line.get? A.length = some a := by
  have hlen : (line.take i).length = i := by
    simp only [List.length_take]
    omega
  have hAl : A.length + 1 = i := by
    rw [h] at hlen
    simpa using hlen
  have h1 : (line.take i).get? A.length = some a := by
    rw [h, List.get?_append_right (le_refl _)]
    simp
  have h2 : (line.take i).get? A.length = line.get? A.length :=
    List.get?_take (by omega)
  rw [← h2, h1]

theorem get?_word (line wd tail0 : List Char) (i : Nat)
    (hi : i ≤ line.length) (hdrop : line.drop i = wd ++ tail0)
    (hwc : ∀ c ∈ wd, isTrimWs c = false) :
    ∀ k, k < wd.length → ∃ ch, line.get? (i + k) = some ch ∧
      isWhitespaceChar ch = false := by
  intro k hk
  have h1 : line.get? (i + k) = (wd ++ tail0).get? k := by
    rw [← get?_drop', hdrop]
  rw [List.get?_append hk] at h1
  cases hwk : wd.get? k with
  | none =>
    rw [hwk] at h1
    exfalso
    have := List.get?_eq_none.mp hwk
    omega
  | some ch =>
    rw [hwk] at h1
    exact ⟨ch, h1, ws_of_trim ch (hwc ch (List.get?_mem hwk))⟩

theorem word_step (line : List Char) (w : Nat) (hw : 1 ≤ w)
    (wd : List Char) (hwd : wd ≠ [])
    (hwc : ∀ c ∈ wd, isTrimWs c = false ∧ isCombiningChar c = false)
    (toks' : List WrapToken) (chunks : List TextChunk) (cur : List Char)
    (curW curStart : Nat) (atLS : Bool) (tail0 : List Char)
    (inv1 : reconA line chunks ++ cur = line.take (curStart + cur.length))
    (inv2 : line.drop (curStart + cur.length) = wd ++ tail0)
    (inv3 : curStart + cur.length ≤ line.length)
    (inv4 : curW = visibleWidth cur)
    (inv5 : jsTrimEnd cur = cur ∨
      ∃ cs, cur = cs ++ [' '] ∧ jsTrimEnd cs = cs ∧ cs ≠ []) :
    ∃ chunks' cur' curW' curStart',
      buildChunks w line.length
          (⟨wd, curStart + cur.length, curStart + cur.length + wd.length,
            false⟩ :: toks') chunks cur curW curStart atLS =
        buildChunks w line.length toks' chunks' cur' curW' curStart' false ∧
      curStart' + cur'.length = curStart + cur.length + wd.length ∧
      reconA line chunks' ++ cur' =
        line.take (curStart + cur.length + wd.length) ∧
      curW' = visibleWidth cur' ∧
      jsTrimEnd cur' = cur' ∧ cur' ≠ [] := by
  have htake := take_drop_extend line wd tail0 (curStart + cur.length) inv3
    inv2
  have hget := get?_word line wd tail0 (curStart + cur.length) inv3 inv2
    (fun c hc => (hwc c hc).1)
  have hgetgap : ∃ ch, line.get? (curStart + cur.length) = some ch ∧
      isWhitespaceChar ch = false := by
    have h0 := hget 0 (by
      cases wd with
      | nil => exact absurd rfl hwd
      | cons a b => simp)
    simpa using h0
  simp only [buildChunks]
  rw [if_neg (by simp)]
  by_cases hbig : w < visibleWidth wd
  · rw [if_pos (by simpa using hbig)]
    rw [show segmentGraphemes (⟨wd, curStart + cur.length,
        curStart + cur.length + wd.length, false⟩ : WrapToken).text =
      wd.map (fun c => [c]) from seg_singles wd (fun c hc => (hwc c hc).2)]
    have hbl := breakLong_spaced line w wd [] 0 (curStart + cur.length)
      (curStart + cur.length) (by simp) (by simp [visibleWidth]) hget
      (by
        intro c hc
        exact (hwc c (by simpa using hc)).1)
    obtain ⟨o1, o2, o3, o4, o5⟩ := hbl
    have hrem := o5 (Or.inr hwd)
    rw [if_neg (by simpa using hrem)]
    refine ⟨_, _, _, _, rfl, o2, ?_, o3, jsTrimEnd_of_all _ o4, hrem⟩
    rw [htake.1, reconA_append, List.append_assoc]
    rw [show reconA line (breakLong w (wd.map (fun c => [c])) [] 0
        (curStart + cur.length) (curStart + cur.length)).1 ++
        (breakLong w (wd.map (fun c => [c])) [] 0 (curStart + cur.length)
          (curStart + cur.length)).2.1 = wd from by
      rw [o1]
      rfl]
    congr 1
    by_cases hcur : cur.isEmpty
    · rw [if_pos hcur]
      have hce : cur = [] := List.isEmpty_iff.mp hcur
      subst hce
      simpa using inv1
    · rw [if_neg hcur]
      rw [reconA_append]
      simp only [reconA, List.append_nil]
      rw [show restoreSpaceAfter line
          ⟨cur, curStart, curStart + cur.length⟩ = false from by
        unfold restoreSpaceAfter
        obtain ⟨ch, hch, hws⟩ := hgetgap
        rw [hch]
        exact hws]
      simp only [Bool.false_eq_true, if_false, List.append_nil]
      exact inv1
  · rw [if_neg (by simpa using hbig)]
    by_cases hover : w < curW + visibleWidth wd
    · rw [if_pos (by simpa using hover)]
      have hcurne : cur ≠ [] := by
        intro h
        subst h
        simp only [visibleWidth, List.map_nil, List.sum_nil] at inv4
        omega
      have htrne : jsTrimEnd cur ≠ [] := by
        rcases inv5 with h | ⟨cs, hcs, htr, hne⟩
        · rw [h]
          exact hcurne
        · rw [hcs, jsTrimEnd_append_space, htr]
          exact hne
      rw [if_neg Bool.false_ne_true]
      rw [if_pos (by
        have h9 : (jsTrimEnd cur).isEmpty = false := by
          simpa [List.isEmpty_eq_false] using htrne
        simp [h9])]
      refine ⟨_, _, _, _, rfl, by simp, ?_, rfl,
        jsTrimEnd_of_all wd (fun c hc => (hwc c hc).1), hwd⟩
      rw [htake.1, reconA_append]
      congr 1
      simp only [reconA, List.append_nil]
      rcases inv5 with h5 | ⟨cs, hcs, htr, hne⟩
      · rw [h5]
        rw [show restoreSpaceAfter line
            ⟨cur, curStart, curStart + cur.length⟩ = false from by
          unfold restoreSpaceAfter
          obtain ⟨ch, hch, hws⟩ := hgetgap
          rw [hch]
          exact hws]
        simp only [Bool.false_eq_true, if_false, List.append_nil]
        exact inv1
      · have hlenA : (reconA line chunks).length = curStart := by
          have h1 : (reconA line chunks ++ cur).length =
              (line.take (curStart + cur.length)).length := by
            rw [inv1]
          simp only [List.length_append, List.length_take] at h1
          omega
        have hsp : line.get? (curStart + cs.length) = some ' ' := by
          have h2 := get?_last_of_take line (reconA line chunks ++ cs) ' '
            (curStart + cur.length) inv3
            (by
              rw [List.append_assoc, ← hcs]
              exact inv1.symm)
          rwa [List.length_append, hlenA] at h2
        have htr2 : jsTrimEnd cur = cs := by
          rw [hcs, jsTrimEnd_append_space, htr]
        rw [htr2]
        rw [show restoreSpaceAfter line
            ⟨cs, curStart, curStart + cur.length⟩ = true from by
          unfold restoreSpaceAfter
          rw [hsp]
          rfl]
        rw [if_pos rfl, ← hcs]
        exact inv1
    · rw [if_neg (by simpa using hover)]
      refine ⟨_, _, _, _, rfl, ?_, ?_, ?_, ?_, by simp [hwd]⟩
      · simp only [List.length_append]
        omega
      · rw [htake.1, ← List.append_assoc, inv1]
      · rw [inv4, vw_append]
      · obtain ⟨l, a, hla⟩ : ∃ l a, wd = l ++ [a] :=
          ⟨wd.dropLast, wd.getLast hwd, (List.dropLast_append_getLast hwd).symm⟩
        rw [hla, ← List.append_assoc]
        exact jsTrimEnd_append_not _ a (by
          apply (hwc a ?_).1
          rw [hla]
          simp)

theorem space_step (line : List Char) (w : Nat) (hw : 1 ≤ w)
    (toks' : List WrapToken) (chunks : List TextChunk) (cur : List Char)
    (curW curStart : Nat) (tail0 : List Char)
    (inv1 : reconA line chunks ++ cur = line.take (curStart + cur.length))
    (inv2 : line.drop (curStart + cur.length) = ' ' :: tail0)
    (inv3 : curStart + cur.length ≤ line.length)
    (inv4 : curW = visibleWidth cur)
    (hcur : cur ≠ []) (htr : jsTrimEnd cur = cur) :
    ∃ chunks' cur' curW' curStart' atLS',
      buildChunks w line.length
          (⟨[' '], curStart + cur.length, curStart + cur.length + 1, true⟩
            :: toks') chunks cur curW curStart false =
        buildChunks w line.length toks' chunks' cur' curW' curStart' atLS' ∧
      curStart' + cur'.length = curStart + cur.length + 1 ∧
      reconA line chunks' ++ cur' = line.take (curStart + cur.length + 1) ∧
      curW' = visibleWidth cur' ∧
      (jsTrimEnd cur' = cur' ∨
        ∃ cs, cur' = cs ++ [' '] ∧ jsTrimEnd cs = cs ∧ cs ≠ []) := by
  have htake0 := take_drop_extend line [' '] tail0 (curStart + cur.length)
    inv3 (by simpa using inv2)
  have htake : List.take (curStart + cur.length + 1) line =
      List.take (curStart + cur.length) line ++ [' '] := by
    simpa using htake0.1
  have hsp : line.get? (curStart + cur.length) = some ' ' := by
    have h1 := get?_drop' line (curStart + cur.length) 0
    rw [Nat.add_zero] at h1
    rw [← h1, inv2]
    rfl
  simp only [buildChunks]
  rw [if_neg (by simp)]
  rw [if_neg (by
    have h1 : visibleWidth [' '] = 1 := by decide
    omega)]
  by_cases hover : w < curW + visibleWidth [' ']
  · rw [if_pos (by simpa using hover)]
    rw [if_pos True.intro]
    rw [if_pos (by
      have h9 : (jsTrimEnd cur).isEmpty = false := by
        rw [htr]
        simpa [List.isEmpty_eq_false] using hcur
      simp [h9])]
    refine ⟨_, _, _, _, _, rfl, by simp, ?_, rfl, Or.inl rfl⟩
    rw [htake, reconA_append]
    simp only [reconA, List.append_nil]
    rw [htr]
    rw [show restoreSpaceAfter line
        ⟨cur, curStart, curStart + cur.length⟩ = true from by
      unfold restoreSpaceAfter
      rw [hsp]
      rfl]
    rw [if_pos rfl, ← List.append_assoc, inv1]
  · rw [if_neg (by simpa using hover)]
    refine ⟨_, _, _, _, _, rfl, ?_, ?_, ?_, Or.inr ⟨cur, rfl, htr, hcur⟩⟩
    · simp
      omega
    · rw [htake, ← List.append_assoc, inv1]
    · rw [inv4, vw_append]

theorem end_step (line : List Char) (w : Nat)
    (chunks : List TextChunk) (cur : List Char) (curW curStart : Nat)
    (atLS : Bool) (hcur : cur ≠ [])
    (inv1 : reconA line chunks ++ cur = line.take (curStart + cur.length))
    (hend : curStart + cur.length = line.length) :
    reconstructChunks line
      (buildChunks w line.length [] chunks cur curW curStart atLS) =
      line := by
  simp only [buildChunks]
  rw [if_neg (by simpa [List.isEmpty_eq_false] using hcur)]
  rw [reconstruct_append]
  rw [show reconstructChunks line
    [⟨cur, curStart, line.length⟩] = cur from rfl]
  rw [inv1, hend, List.take_length]

theorem buildChunks_spaced (line : List Char) (w : Nat) (hw : 1 ≤ w) :
    ∀ (ws : List (List Char)), ws ≠ [] → (∀ x ∈ ws, WordOk x) →
    ∀ (chunks : List TextChunk) (cur : List Char) (curW curStart : Nat)
      (atLS : Bool),
    reconA line chunks ++ cur = line.take (curStart + cur.length) →
    line.drop (curStart + cur.length) = joinWith ' ' ws →
    curStart + cur.length ≤ line.length →
    curW = visibleWidth cur →
    (jsTrimEnd cur = cur ∨
      ∃ cs, cur = cs ++ [' '] ∧ jsTrimEnd cs = cs ∧ cs ≠ []) →
    reconstructChunks line
      (buildChunks w line.length (spacedTokens ws (curStart + cur.length))
        chunks cur curW curStart atLS) = line := by
  intro ws
  induction ws with
  | nil => intro h; exact absurd rfl h
  | cons wd rest ih =>
    intro _ hws chunks cur curW curStart atLS inv1 inv2 inv3 inv4 inv5
    obtain ⟨hwdne, hwdc⟩ := hws wd (by simp)
    cases rest with
    | nil =>
      rw [show spacedTokens [wd] (curStart + cur.length) =
        [⟨wd, curStart + cur.length, curStart + cur.length + wd.length,
          false⟩] from rfl]
      have hw2 : line.drop (curStart + cur.length) = wd ++ [] := by
        simpa using inv2
      have ht := take_drop_extend line wd [] (curStart + cur.length) inv3 hw2
      obtain ⟨chunks', cur', curW', curStart', heq, h2, h3, h4, h5, h6⟩ :=
        word_step line w hw wd hwdne hwdc [] chunks cur curW curStart atLS
          [] inv1 hw2 inv3 inv4 inv5
      rw [heq]
      have hlen : curStart' + cur'.length = line.length := by
        have hd0 : line.length ≤ curStart + cur.length + wd.length := by
          have h9 := ht.2.1
          rw [List.drop_eq_nil_iff_le] at h9
          exact h9
        have h10 := ht.2.2
        omega
      refine end_step line w chunks' cur' curW' curStart' false h6 ?_ hlen
      rw [h2]
      exact h3
    | cons w2 r' =>
      rw [show spacedTokens (wd :: w2 :: r') (curStart + cur.length) =
        ⟨wd, curStart + cur.length, curStart + cur.length + wd.length,
          false⟩ ::
          ⟨[' '], curStart + cur.length + wd.length,
            curStart + cur.length + wd.length + 1, true⟩ ::
          spacedTokens (w2 :: r')
            (curStart + cur.length + wd.length + 1) from rfl]
      have hw2 : line.drop (curStart + cur.length) =
          wd ++ (' ' :: joinWith ' ' (w2 :: r')) := by
        rw [inv2]
        rfl
      have ht := take_drop_extend line wd (' ' :: joinWith ' ' (w2 :: r'))
        (curStart + cur.length) inv3 hw2
      obtain ⟨c1, cur1, W1, s1, heq1, h2a, h3a, h4a, h5a, h6a⟩ :=
        word_step line w hw wd hwdne hwdc _ chunks cur curW curStart atLS
          (' ' :: joinWith ' ' (w2 :: r')) inv1 hw2 inv3 inv4 inv5
      rw [heq1, ← h2a]
      have hd1 : line.drop (s1 + cur1.length) =
          ' ' :: joinWith ' ' (w2 :: r') := by
        rw [h2a]
        exact ht.2.1
      have hle1 : s1 + cur1.length ≤ line.length := by
        rw [h2a]
        exact ht.2.2
      have h3a' : reconA line c1 ++ cur1 =
          line.take (s1 + cur1.length) := by
        rw [h2a]
        exact h3a
      obtain ⟨c2, cur2, W2, s2, aL2, heq2, h2b, h3b, h4b, h5b⟩ :=
        space_step line w hw _ c1 cur1 W1 s1 (joinWith ' ' (w2 :: r'))
          h3a' hd1 hle1 h4a h6a h5a
      rw [heq2]
      have ht2 := take_drop_extend line [' '] (joinWith ' ' (w2 :: r'))
        (s1 + cur1.length) hle1 (by simpa using hd1)
      have hd2 : line.drop (s2 + cur2.length) = joinWith ' ' (w2 :: r') := by
        rw [h2b]
        have h9 := ht2.2.1
        simpa using h9
      have hle2 : s2 + cur2.length ≤ line.length := by
        rw [h2b]
        have h9 := ht2.2.2
        simpa using h9
      have h3b' : reconA line c2 ++ cur2 =
          line.take (s2 + cur2.length) := by
        rw [h2b]
        exact h3b
      rw [← h2b]
      exact ih (by simp) (fun x hx => hws x (by simp [hx])) c2 cur2 W2 s2
        aL2 h3b' hd2 hle2 h4b h5b

/-- C5 counterexample: for the line `aaa   bbb` (a three-space run) at
width 3, the wrap trims the whole whitespace run from the chunk but the
claimed reconstruction restores only a single space, so concatenating the
chunks with single-space restoration does not return the original line. -/
theorem C5_wrap_fidelity_counterexample :
    reconstructChunks "aaa   bbb".toList
      (wordWrapLine "aaa   bbb".toList 3) ≠ "aaa   bbb".toList := by
  decide

/-- C5 amended: for every line consisting of non-empty whitespace-free
words joined by single spaces and every content width of at least one
column, concatenating the texts of all word-wrap chunks, restoring a
single space at each inter-chunk boundary whose right side begins at a
whitespace position of the original line, yields the original line. -/
theorem C5_wrap_fidelity_amended (ws : List (List Char)) (line : List Char)
    (h : SpacedLine ws line) (w : Nat) (hw : 1 ≤ w) :
    reconstructChunks line (wordWrapLine line w) = line := by
  obtain ⟨hne, hws, hline⟩ := h
  have hlinene : line ≠ [] := by
    rw [hline]
    cases ws with
    | nil => exact absurd rfl hne
    | cons wd rest =>
      have hwdne := (hws wd (by simp)).1
      cases rest with
      | nil => simpa [joinWith] using hwdne
      | cons a b =>
        rw [show joinWith ' ' (wd :: a :: b) =
          wd ++ ' ' :: joinWith ' ' (a :: b) from rfl]
        simp [hwdne]
  unfold wordWrapLine
  rw [if_neg (by
    simp only [Bool.or_eq_true, List.isEmpty_eq_true, decide_eq_true_iff]
    push_neg
    exact ⟨hlinene, by omega⟩)]
  by_cases hfit : visibleWidth line ≤ w
  · rw [if_pos hfit]
    rfl
  · rw [if_neg hfit]
    have htok : tokenizeLine line = spacedTokens ws 0 := by
      rw [hline]
      exact tokenizeLine_spaced ws hws
    have hmain := buildChunks_spaced line w hw ws hne hws [] [] 0 0 true
      (by simp [reconA]) (by simpa using hline) (by simp) rfl
      (Or.inl rfl)
    simp only [List.length_nil, Nat.add_zero] at hmain
    rw [htok]
    by_cases hempty :
        (buildChunks w line.length (spacedTokens ws 0) [] [] 0 0 true).isEmpty
    · exfalso
      rw [List.isEmpty_iff.mp hempty] at hmain
      have h0 : ([] : List Char) = line := by
        rw [show ([] : List Char) = reconstructChunks line [] from rfl]
        exact hmain
      exact hlinene h0.symm
    · simp only [hempty, Bool.false_eq_true, if_false]
      exact hmain

/-- C5 witness: the amended wrap-fidelity property at the concrete line
`aaa bb` and width 3 (which wraps into two chunks with the space
trimmed). -/
theorem C5_wrap_fidelity_amended_witness :
    reconstructChunks "aaa bb".toList (wordWrapLine "aaa bb".toList 3) =
      "aaa bb".toList :=
  C5_wrap_fidelity_amended [['a', 'a', 'a'], ['b', 'b']] "aaa bb".toList
    (by
      unfold SpacedLine WordOk
      decide) 3 (by decide)
